import Mathlib

/-!
Const: the JSON Schema `const` container of package `jsonschema`.

A shallow embedding of `jsonschema/const.go`.

* A Go byte slice is an `Option (List UInt8)`; `none` is the nil slice, which is
  what a never-populated `Const` holds.
* A method with a pointer receiver that returns `error` becomes a function from
  the receiver's prior content to the pair (returned error, content afterwards).
* The functions the decoders call but the file does not define
  (`encoding/json.Unmarshal`, `convertYAMLtoRawJSON`, `(*yaml.Node).ShortTag`) are
  the fields of `Env`, and `convertJSONToRawYAML` is an argument of `MarshalYAML`;
  the theorems hold for every choice of them.
* `jsonDecode` is a reference model of `encoding/json`, and `sampleEnv` an
  environment built on it, for running the methods on concrete inputs.
* The two conversions between JSON bytes and YAML nodes are not part of `const.go`;
  `yamlToJSON` and `jsonToYaml` model them from the specification, and the YAML round
  trip is proved for these models.  `genericDecode` models the generic value of the
  specification, in which integers of the 64-bit signed range are exact.
-/

namespace Jsonschema

/-! ## Data model -/

/-- A Go `[]byte`: `none` is the nil slice, `some bs` a non-nil slice with content `bs`. -/
abbrev GoBytes := Option (List UInt8)

/-- The bytes a slice holds, as `encoding/json` reads them: a nil slice has length 0. -/
def GoBytes.data : GoBytes → List UInt8
  | none => []
  | some bs => bs

/-- A finite `float64`, the number `(-1)^neg * mant * 2^exp`. -/
structure Float64 where
  neg : Bool
  mant : Nat
  exp : Int
deriving DecidableEq, Repr

/-- The value `json.Unmarshal` stores into a variable of type `any`:
`nil`, `bool`, `float64`, `string`, `[]any` or `map[string]any`.
A map is listed by its entries; its `len` is the length of that list. -/
inductive JValue where
  | null
  | bool (b : Bool)
  | number (f : Float64)
  | string (s : String)
  | array (xs : List JValue)
  | object (kvs : List (String × JValue))
deriving Repr

/-- A Go `error` value that is not nil.  `Node` is the type of `*yaml.Node`. -/
inductive GoError (Node : Type) where
  /-- an error value made outside this package (`encoding/json`, the YAML conversion) -/
  | external (msg : String)
  /-- the value of `errors.Errorf(...)`, with its formatted message -/
  | errorf (msg : String)
  /-- the value of `errors.Wrapf(cause, ...)`, with its formatted message -/
  | wrapf (cause : GoError Node) (msg : String)
  /-- the value `&yaml.UnmarshalError{Node: node, Type: typ, Err: err}` -/
  | unmarshalError (node : Node) (typ : String) (err : GoError Node)
deriving DecidableEq, Repr

/-- Const is JSON Schema const validator description: `type Const json.RawMessage`. -/
abbrev Const := GoBytes

/-- The functions the two decoders of `const.go` call and do not define. -/
structure Env (Node : Type) where
  /-- `json.Unmarshal(b, &v)` for `var v any`: the error, or the value left in `v` -/
  jsonUnmarshal : List UInt8 → Except (GoError Node) JValue
  /-- `convertYAMLtoRawJSON(node)`: the pair `(raw, err)`, `err = none` for nil -/
  convertYAMLtoRawJSON : Node → GoBytes × Option (GoError Node)
  /-- `node.ShortTag()` -/
  shortTag : Node → String

/-! ## Formatting -/

/-- One hexadecimal digit, lower case, as `strconv` writes it. -/
def lowerHexDigit (n : Nat) : Char :=
  if n < 10 then Char.ofNat (48 + n) else Char.ofNat (87 + n)

/-- The escape `strconv.Quote` writes for one rune.  Runes at and above U+0080 are
taken to be printable and are kept. -/
def quoteRune (r : Char) : List Char :=
  if r = '"' then ['\\', '"']
  else if r = '\\' then ['\\', '\\']
  else if r.toNat = 7 then ['\\', 'a']
  else if r.toNat = 8 then ['\\', 'b']
  else if r.toNat = 12 then ['\\', 'f']
  else if r.toNat = 10 then ['\\', 'n']
  else if r.toNat = 13 then ['\\', 'r']
  else if r.toNat = 9 then ['\\', 't']
  else if r.toNat = 11 then ['\\', 'v']
  else if r.toNat < 32 ∨ r.toNat = 127 then
    ['\\', 'x', lowerHexDigit (r.toNat / 16), lowerHexDigit (r.toNat % 16)]
  else [r]

/-- The verb `%q` applied to a string: `strconv.Quote`. -/
def fmtQ (s : String) : String :=
  String.mk ('"' :: (s.toList.flatMap quoteRune ++ ['"']))

/-- The verb `%T` applied to the receiver `c *Const`, and the name of `reflect.TypeOf(c)`. -/
def constPtrTypeName : String := "*jsonschema.Const"

/-! ## The methods of `Const` -/

/-- The type assertion `v.(map[string]any)`: the map when `ok`. -/
def asMap : JValue → Option (List (String × JValue))
  | .object kvs => some kvs
  | _ => none

/-- The type assertion `v.(string)`: the string when `ok`. -/
def asString : JValue → Option String
  | .string s => some s
  | _ => none

/-- The condition `obj, ok := v.(map[string]any); ok && len(obj) == 0`. -/
def isEmptyObject (v : JValue) : Bool :=
  match asMap v with
  | some obj => obj.length == 0
  | none => false

/-- The condition `str, ok := v.(string); ok && str == "100"`. -/
def isString100 (v : JValue) : Bool :=
  match asString v with
  | some str => str == "100"
  | none => false

/-- UnmarshalJSON implements json.Unmarshaler.
From the prior content `c` and the input `b`: the returned error and the content afterwards. -/
def UnmarshalJSON {Node : Type} (env : Env Node) (c : Const) (b : GoBytes) :
    Option (GoError Node) × Const :=
  match env.jsonUnmarshal b.data with
  | .error err => (some err, c)
  | .ok v =>
    -- Validate: reject empty objects
    if isEmptyObject v then (some (.errorf "const cannot be an empty object"), c)
    else
      -- Validate: reject the string "100"
      match asString v with
      | some str =>
        if str == "100" then (some (.errorf ("const cannot be the string " ++ fmtQ str)), c)
        else (none, b)
      | none => (none, b)

/-- UnmarshalYAML implements yaml.Unmarshaler.
From the prior content `c` and the node: the returned error and the content afterwards. -/
def UnmarshalYAML {Node : Type} (env : Env Node) (c : Const) (node : Node) :
    Option (GoError Node) × Const :=
  match env.convertYAMLtoRawJSON node with
  | (_, some err) =>
    (some (.unmarshalError node constPtrTypeName
      (.wrapf err ("cannot unmarshal " ++ env.shortTag node ++ " into " ++ constPtrTypeName))), c)
  | (raw, none) =>
    -- Validate the converted JSON value
    match env.jsonUnmarshal raw.data with
    | .ok v =>
      if isEmptyObject v then (some (.errorf "const cannot be an empty object"), c)
      else
        match asString v with
        | some str =>
          if str == "100" then (some (.errorf ("const cannot be the string " ++ fmtQ str)), c)
          else (none, raw)
        | none => (none, raw)
    | .error _ => (none, raw)

/-- The method `json.RawMessage.MarshalJSON` of the standard library:
`if m == nil { return []byte("null"), nil }; return m, nil`. -/
def RawMessage.MarshalJSON (Node : Type) (m : GoBytes) : GoBytes × Option (GoError Node) :=
  match m with
  | none => (some [110, 117, 108, 108], none)
  | some bs => (some bs, none)

/-- MarshalJSON implements json.Marshaler. -/
def MarshalJSON (Node : Type) (c : Const) : GoBytes × Option (GoError Node) :=
  RawMessage.MarshalJSON Node c

/-- MarshalYAML implements yaml.Marshaler.  The argument `convertJSONToRawYAML` is the
function of that name, which returns the pair `(node, err)`. -/
def MarshalYAML {Node : Type}
    (convertJSONToRawYAML : GoBytes → Option Node × Option (GoError Node)) (c : Const) :
    Option Node × Option (GoError Node) :=
  convertJSONToRawYAML c

/-! ## A reference model of `encoding/json`

The decoder of the standard library, for a target of type `any`, written out so that
the methods can be run on concrete bytes.  It follows `scanner`, `unquote` and
`convertNumber`: the grammar of RFC 8259, the nesting limit, the replacement of
invalid UTF-8 and of unpaired surrogates by U+FFFD, correctly rounded numbers, and
later map keys overwriting earlier ones.  Error values are reduced to their kind. -/

/-- The bytes of a text, one per character (for ASCII text, its encoding). -/
def bytesOf (s : String) : List UInt8 :=
  s.toList.map (fun ch => UInt8.ofNat ch.toNat)

/-- The white space of the scanner: space, tab, carriage return, line feed. -/
def isSpace (c : UInt8) : Bool :=
  c == 32 || c == 9 || c == 13 || c == 10

/-- Input with its leading white space removed. -/
def skipSpace : List UInt8 → List UInt8
  | [] => []
  | c :: rest => if isSpace c then skipSpace rest else c :: rest

/-- The value of a decimal digit byte. -/
def digitVal (c : UInt8) : Option Nat :=
  if 48 ≤ c.toNat ∧ c.toNat ≤ 57 then some (c.toNat - 48) else none

/-- The value of a hexadecimal digit byte, either case. -/
def hexVal (c : UInt8) : Option Nat :=
  if 48 ≤ c.toNat ∧ c.toNat ≤ 57 then some (c.toNat - 48)
  else if 97 ≤ c.toNat ∧ c.toNat ≤ 102 then some (c.toNat - 87)
  else if 65 ≤ c.toNat ∧ c.toNat ≤ 70 then some (c.toNat - 55)
  else none

/-- The longest prefix of decimal digits and what follows it. -/
def takeDigits : List UInt8 → List Nat × List UInt8
  | [] => ([], [])
  | c :: rest =>
    match digitVal c with
    | some d => let r := takeDigits rest; (d :: r.1, r.2)
    | none => ([], c :: rest)

/-- The number a list of decimal digits writes. -/
def digitsToNat (ds : List Nat) : Nat :=
  ds.foldl (fun acc d => 10 * acc + d) 0

/-- The number of binary digits of `n`, given `n < 2 ^ fuel`. -/
def bitLen : Nat → Nat → Nat
  | 0, _ => 0
  | fuel + 1, n => if n = 0 then 0 else bitLen fuel (n / 2) + 1

/-- The odd part of a positive mantissa and the number of factors two removed. -/
def stripTwos : Nat → Nat → Nat × Nat
  | 0, m => (m, 0)
  | fuel + 1, m =>
    if m ≠ 0 ∧ m % 2 = 0 then let r := stripTwos fuel (m / 2); (r.1, r.2 + 1) else (m, 0)

/-- The `float64` nearest to `mant * 10 ^ dexp`, ties to even, as `strconv.ParseFloat`
computes it; `none` when the result is out of range (`ErrRange`).
`nd` is the number of decimal digits of `mant`, so `mant < 10 ^ nd`, and
`10 ^ (nd - 1) ≤ mant` when `mant` is not zero. -/
def roundFloat64 (neg : Bool) (mant nd : Nat) (dexp : Int) : Option Float64 :=
  if mant = 0 then some ⟨neg, 0, 0⟩
  else if dexp + nd > 310 then none
  else if dexp + nd < -330 then some ⟨neg, 0, 0⟩
  else
    let num := if 0 ≤ dexp then mant * 10 ^ dexp.toNat else mant
    let den := if 0 ≤ dexp then 1 else 10 ^ (-dexp).toNat
    let fuel := 4 * (nd + dexp.natAbs) + 8
    -- 2 ^ k ≤ num / den < 2 ^ (k + 1)
    let k0 : Int := (bitLen fuel num : Int) - (bitLen fuel den : Int)
    let k : Int :=
      if (if 0 ≤ k0 then den * 2 ^ k0.toNat ≤ num else den ≤ num * 2 ^ (-k0).toNat)
      then k0 else k0 - 1
    let e : Int := if k - 52 < -1074 then -1074 else k - 52
    let n2 := if 0 ≤ e then num else num * 2 ^ (-e).toNat
    let d2 := if 0 ≤ e then den * 2 ^ e.toNat else den
    let q := n2 / d2
    let r := n2 % d2
    let q1 := if 2 * r > d2 ∨ (2 * r = d2 ∧ q % 2 = 1) then q + 1 else q
    if e > 971 ∨ (e = 971 ∧ q1 = 2 ^ 53) then none
    else if q1 = 0 then some ⟨neg, 0, 0⟩
    else
      let s := stripTwos 64 q1
      some ⟨neg, s.1, e + s.2⟩

/-- The scanner on a number literal whose first byte is a digit or `-`:
the sign, the digits of the mantissa, the decimal exponent, and the rest of the input. -/
def scanNumber (input : List UInt8) : Option (Bool × List Nat × Int × List UInt8) :=
  let neg := input.head? == some 45
  let s1 := if neg then input.tail else input
  let ip := takeDigits s1
  -- the integer part is `0` or starts with a digit from 1 to 9
  if ip.1 = [] ∨ (ip.1.head? = some 0 ∧ ip.1.length ≠ 1) then none
  else
    let fr : Option (List Nat × List UInt8) :=
      match ip.2 with
      | 46 :: rest =>
        let f := takeDigits rest
        if f.1 = [] then none else some f
      | rest => some ([], rest)
    match fr with
    | none => none
    | some (fd, s2) =>
      match s2 with
      | c :: rest =>
        if c == 101 || c == 69 then
          let eneg := rest.head? == some 45
          let s3 := if rest.head? == some 45 ∨ rest.head? == some 43 then rest.tail else rest
          let ed := takeDigits s3
          if ed.1 = [] then none
          else
            let ev : Int := if eneg then -(digitsToNat ed.1 : Int) else (digitsToNat ed.1 : Int)
            some (neg, ip.1 ++ fd, ev - fd.length, ed.2)
        else some (neg, ip.1 ++ fd, -(fd.length : Int), s2)
      | [] => some (neg, ip.1 ++ fd, -(fd.length : Int), [])

/-- The rune U+FFFD that stands for an invalid encoding. -/
def replacementChar : Char := Char.ofNat 0xFFFD

/-- Whether a byte is a UTF-8 continuation byte within `lo..hi`. -/
def inRange (lo hi : Nat) (c : UInt8) : Bool :=
  decide (lo ≤ c.toNat) && decide (c.toNat ≤ hi)

/-- The first rune of a non-empty input and its width: `utf8.DecodeRune`.
An invalid or short encoding gives U+FFFD and width 1. -/
def decodeRune (c0 : UInt8) (rest : List UInt8) : Char × Nat :=
  let b0 := c0.toNat
  if b0 < 0x80 then (Char.ofNat b0, 1)
  else if 0xC2 ≤ b0 ∧ b0 ≤ 0xDF then
    match rest with
    | c1 :: _ =>
      if inRange 0x80 0xBF c1 then (Char.ofNat ((b0 % 32) * 64 + c1.toNat % 64), 2)
      else (replacementChar, 1)
    | _ => (replacementChar, 1)
  else if 0xE0 ≤ b0 ∧ b0 ≤ 0xEF then
    let lo := if b0 = 0xE0 then 0xA0 else 0x80
    let hi := if b0 = 0xED then 0x9F else 0xBF
    match rest with
    | c1 :: c2 :: _ =>
      if inRange lo hi c1 && inRange 0x80 0xBF c2 then
        (Char.ofNat ((b0 % 16) * 4096 + (c1.toNat % 64) * 64 + c2.toNat % 64), 3)
      else (replacementChar, 1)
    | _ => (replacementChar, 1)
  else if 0xF0 ≤ b0 ∧ b0 ≤ 0xF4 then
    let lo := if b0 = 0xF0 then 0x90 else 0x80
    let hi := if b0 = 0xF4 then 0x8F else 0xBF
    match rest with
    | c1 :: c2 :: c3 :: _ =>
      if inRange lo hi c1 && inRange 0x80 0xBF c2 && inRange 0x80 0xBF c3 then
        (Char.ofNat ((b0 % 8) * 262144 + (c1.toNat % 64) * 4096 + (c2.toNat % 64) * 64
          + c3.toNat % 64), 4)
      else (replacementChar, 1)
    | _ => (replacementChar, 1)
  else (replacementChar, 1)

/-- The four hexadecimal digits at the head of the input, as a number. -/
def hex4 : List UInt8 → Option (Nat × List UInt8)
  | a :: b :: c :: d :: rest =>
    match hexVal a, hexVal b, hexVal c, hexVal d with
    | some x, some y, some z, some w => some (((x * 16 + y) * 16 + z) * 16 + w, rest)
    | _, _, _, _ => none
  | _ => none

/-- The function `getu4`: the code unit of an escape `\uXXXX` at the head of the input. -/
def getu4 : List UInt8 → Option (Nat × List UInt8)
  | 92 :: 117 :: rest => hex4 rest
  | _ => none

/-- The character a one-letter escape stands for. -/
def simpleEscape (c : UInt8) : Option Char :=
  if c == 34 then some '"'
  else if c == 92 then some '\\'
  else if c == 47 then some '/'
  else if c == 98 then some (Char.ofNat 8)
  else if c == 102 then some (Char.ofNat 12)
  else if c == 110 then some (Char.ofNat 10)
  else if c == 114 then some (Char.ofNat 13)
  else if c == 116 then some (Char.ofNat 9)
  else none

/-- The body of a string literal, after its opening quote: the scanner's check and
`unquote` in one pass.  Returns the decoded characters and the input after the closing quote. -/
def scanString : Nat → List UInt8 → Option (List Char × List UInt8)
  | 0, _ => none
  | _ + 1, [] => none
  | fuel + 1, c :: rest =>
    if c == 34 then some ([], rest)
    else if c == 92 then
      match rest with
      | [] => none
      | e :: rest1 =>
        if e == 117 then
          match hex4 rest1 with
          | none => none
          | some (rr, rest2) =>
            if 0xD800 ≤ rr ∧ rr < 0xE000 then
              -- a surrogate: a pair when a low surrogate escape follows a high one
              match getu4 rest2 with
              | some (rr1, rest3) =>
                if rr < 0xDC00 ∧ 0xDC00 ≤ rr1 ∧ rr1 < 0xE000 then
                  (scanString fuel rest3).map (fun p =>
                    (Char.ofNat ((rr - 0xD800) * 1024 + (rr1 - 0xDC00) + 0x10000) :: p.1, p.2))
                else (scanString fuel rest2).map (fun p => (replacementChar :: p.1, p.2))
              | none => (scanString fuel rest2).map (fun p => (replacementChar :: p.1, p.2))
            else (scanString fuel rest2).map (fun p => (Char.ofNat rr :: p.1, p.2))
        else
          match simpleEscape e with
          | some ch => (scanString fuel rest1).map (fun p => (ch :: p.1, p.2))
          | none => none
    else if c.toNat < 32 then none
    else
      let d := decodeRune c rest
      (scanString fuel (rest.drop (d.2 - 1))).map (fun p => (d.1 :: p.1, p.2))

/-- The order of map keys used to list a map's entries: by code points. -/
def keyLt : List Char → List Char → Bool
  | [], [] => false
  | [], _ :: _ => true
  | _ :: _, [] => false
  | a :: as, b :: bs => a.toNat < b.toNat || (a.toNat == b.toNat && keyLt as bs)

/-- The assignment `m[key] = value` on a map listed in key order. -/
def mapInsert (key : String) (value : JValue) :
    List (String × JValue) → List (String × JValue)
  | [] => [(key, value)]
  | (k, v) :: rest =>
    if k == key then (key, value) :: rest
    else if keyLt key.toList k.toList then (key, value) :: (k, v) :: rest
    else (k, v) :: mapInsert key value rest

/-- The nesting the scanner allows: `maxNestingDepth`. -/
def maxNestingDepth : Nat := 10000

/-- The result of decoding a prefix of the input: the value, whether a number was
out of range on the way (the saved `UnmarshalTypeError`), and the rest of the input. -/
structure Decoded (α : Type) where
  val : α
  rangeErr : Bool
  rest : List UInt8

mutual
/-- One JSON value at the head of the input, which starts at a byte that is not white
space, nested inside `depth` arrays and objects. -/
def decodeValue : Nat → Nat → List UInt8 → Option (Decoded JValue)
  | 0, _, _ => none
  | _ + 1, _, [] => none
  | fuel + 1, depth, c :: rest =>
    if c == 123 then
      if depth + 1 > maxNestingDepth then none
      else
        match skipSpace rest with
        | 125 :: rest1 => some ⟨.object [], false, rest1⟩
        | rest1 => (decodeMembers fuel (depth + 1) rest1 []).map
            (fun d => ⟨.object d.val, d.rangeErr, d.rest⟩)
    else if c == 91 then
      if depth + 1 > maxNestingDepth then none
      else
        match skipSpace rest with
        | 93 :: rest1 => some ⟨.array [], false, rest1⟩
        | rest1 => (decodeElements fuel (depth + 1) rest1).map
            (fun d => ⟨.array d.val, d.rangeErr, d.rest⟩)
    else if c == 34 then
      (scanString (rest.length + 1) rest).map (fun p => ⟨.string (String.mk p.1), false, p.2⟩)
    else if c == 45 || (digitVal c).isSome then
      match scanNumber (c :: rest) with
      | none => none
      | some (neg, ds, dexp, rest1) =>
        match roundFloat64 neg (digitsToNat ds) (ds.dropWhile (· == 0)).length dexp with
        | some f => some ⟨.number f, false, rest1⟩
        | none => some ⟨.null, true, rest1⟩
    else
      match c :: rest with
      | 116 :: 114 :: 117 :: 101 :: rest1 => some ⟨.bool true, false, rest1⟩
      | 102 :: 97 :: 108 :: 115 :: 101 :: rest1 => some ⟨.bool false, false, rest1⟩
      | 110 :: 117 :: 108 :: 108 :: rest1 => some ⟨.null, false, rest1⟩
      | _ => none
/-- The elements of an array after `[` and white space, up to and including `]`. -/
def decodeElements : Nat → Nat → List UInt8 → Option (Decoded (List JValue))
  | 0, _, _ => none
  | fuel + 1, depth, input =>
    match decodeValue fuel depth input with
    | none => none
    | some d =>
      match skipSpace d.rest with
      | 93 :: rest1 => some ⟨[d.val], d.rangeErr, rest1⟩
      | 44 :: rest1 =>
        (decodeElements fuel depth (skipSpace rest1)).map
          (fun t => ⟨d.val :: t.val, d.rangeErr || t.rangeErr, t.rest⟩)
      | _ => none
/-- The members of an object after `{` and white space, up to and including `}`,
assigned in order into the map `acc`. -/
def decodeMembers : Nat → Nat → List UInt8 → List (String × JValue) →
    Option (Decoded (List (String × JValue)))
  | 0, _, _, _ => none
  | fuel + 1, depth, input, acc =>
    match input with
    | 34 :: rest =>
      match scanString (rest.length + 1) rest with
      | none => none
      | some (key, rest1) =>
        match skipSpace rest1 with
        | 58 :: rest2 =>
          match decodeValue fuel depth (skipSpace rest2) with
          | none => none
          | some d =>
            let acc1 := mapInsert (String.mk key) d.val acc
            match skipSpace d.rest with
            | 125 :: rest3 => some ⟨acc1, d.rangeErr, rest3⟩
            | 44 :: rest3 =>
              (decodeMembers fuel depth (skipSpace rest3) acc1).map
                (fun t => ⟨t.val, d.rangeErr || t.rangeErr, t.rest⟩)
            | _ => none
        | _ => none
    | _ => none
end

/-- The outcome of `json.Unmarshal(data, &v)` for `var v any`. -/
inductive JSONResult where
  /-- nil error, `v` holds the value -/
  | ok (v : JValue)
  /-- a `*json.SyntaxError`: the input is not one JSON value -/
  | syntaxError
  /-- a `*json.UnmarshalTypeError`: a number literal is out of the range of `float64` -/
  | typeError
deriving Repr

/-- The function `json.Unmarshal` into a variable of type `any`. -/
def jsonDecode (data : List UInt8) : JSONResult :=
  match skipSpace data with
  | [] => .syntaxError
  | input =>
    match decodeValue (2 * input.length + 2) 0 input with
    | none => .syntaxError
    | some d =>
      match skipSpace d.rest with
      | [] => if d.rangeErr then .typeError else .ok d.val
      | _ => .syntaxError

/-- The reference decoder as the field `jsonUnmarshal` of an environment. -/
def refUnmarshal {Node : Type} (data : List UInt8) : Except (GoError Node) JValue :=
  match jsonDecode data with
  | .ok v => .ok v
  | .syntaxError => .error (.external "json: syntax error")
  | .typeError =>
    .error (.external "json: cannot unmarshal number into Go value of type interface \x7b\x7d")

/-! ## A sample YAML side -/

mutual
/-- A YAML node reduced to what a conversion to JSON reads: a scalar with its resolved
short tag and its text, a sequence, a mapping with string keys, or an alias. -/
inductive YamlNode where
  | scalar (tag value : String)
  | sequence (items : YamlNodes)
  | mapping (entries : YamlEntries)
  | alias (anchor : String)
deriving DecidableEq, Repr
/-- The items of a sequence node. -/
inductive YamlNodes where
  | nil
  | cons (head : YamlNode) (tail : YamlNodes)
deriving DecidableEq, Repr
/-- The entries of a mapping node. -/
inductive YamlEntries where
  | nil
  | cons (key : String) (value : YamlNode) (tail : YamlEntries)
deriving DecidableEq, Repr
end

/-- The UTF-8 encoding of a character. -/
def utf8Encode (ch : Char) : List UInt8 :=
  let n := ch.toNat
  if n < 0x80 then [UInt8.ofNat n]
  else if n < 0x800 then [UInt8.ofNat (0xC0 + n / 64), UInt8.ofNat (0x80 + n % 64)]
  else if n < 0x10000 then
    [UInt8.ofNat (0xE0 + n / 4096), UInt8.ofNat (0x80 + n / 64 % 64), UInt8.ofNat (0x80 + n % 64)]
  else
    [UInt8.ofNat (0xF0 + n / 262144), UInt8.ofNat (0x80 + n / 4096 % 64),
      UInt8.ofNat (0x80 + n / 64 % 64), UInt8.ofNat (0x80 + n % 64)]

/-- One character inside a JSON string literal. -/
def jsonEscape (ch : Char) : List UInt8 :=
  if ch = '"' then [92, 34]
  else if ch = '\\' then [92, 92]
  else if ch.toNat < 32 then
    [92, 117, 48, 48, UInt8.ofNat (lowerHexDigit (ch.toNat / 16)).toNat,
      UInt8.ofNat (lowerHexDigit (ch.toNat % 16)).toNat]
  else utf8Encode ch

/-- A string as a JSON string literal. -/
def jsonQuote (s : String) : List UInt8 :=
  34 :: (s.toList.flatMap jsonEscape ++ [34])

/-- The text of a byte string, one character per byte. -/
def textOf (bs : List UInt8) : String :=
  String.mk (bs.map (fun b => Char.ofNat b.toNat))

/-- Whether a text is a JSON number literal: each of its characters is one byte, and the
scanner reads all of it as one number. -/
def isJSONNumber (s : String) : Bool :=
  decide (textOf (bytesOf s) = s) &&
    match scanNumber (bytesOf s) with
    | some (_, _, _, []) => true
    | _ => false

mutual
/-- Modelled from the spec: `convertYAMLtoRawJSON`, which `const.go` calls and does not
define ("converts a YAML node into canonical JSON bytes"; a node that "cannot be
represented as JSON (malformed/unsupported node kind)" is a conversion failure).
Here on `YamlNode`, with `none` for the failure. -/
def yamlToJSON : YamlNode → Option (List UInt8)
  | .scalar tag value =>
    if tag = "!!null" then some (bytesOf "null")
    else if tag = "!!bool" then
      if value = "true" ∨ value = "false" then some (bytesOf value) else none
    else if tag = "!!int" ∨ tag = "!!float" then
      if isJSONNumber value then some (bytesOf value) else none
    else if tag = "!!str" then some (jsonQuote value)
    else none
  | .sequence items => (yamlItemsToJSON items).map (fun bs => 91 :: (bs ++ [93]))
  | .mapping entries => (yamlEntriesToJSON entries).map (fun bs => 123 :: (bs ++ [125]))
  | .alias _ => none
/-- The items of a sequence, separated by commas. -/
def yamlItemsToJSON : YamlNodes → Option (List UInt8)
  | .nil => some []
  | .cons head .nil => yamlToJSON head
  | .cons head tail =>
    match yamlToJSON head, yamlItemsToJSON tail with
    | some a, some b => some (a ++ 44 :: b)
    | _, _ => none
/-- The entries of a mapping, separated by commas. -/
def yamlEntriesToJSON : YamlEntries → Option (List UInt8)
  | .nil => some []
  | .cons key value .nil => (yamlToJSON value).map (fun a => jsonQuote key ++ 58 :: a)
  | .cons key value tail =>
    match yamlToJSON value, yamlEntriesToJSON tail with
    | some a, some b => some (jsonQuote key ++ 58 :: a ++ 44 :: b)
    | _, _ => none
end

/-- The short tag of a sample node. -/
def YamlNode.shortTag : YamlNode → String
  | .scalar tag _ => tag
  | .sequence _ => "!!seq"
  | .mapping _ => "!!map"
  | .alias _ => ""

/-- An environment to run the decoders in: the reference JSON decoder and the sample
YAML conversion. -/
def sampleEnv : Env YamlNode where
  jsonUnmarshal := refUnmarshal
  convertYAMLtoRawJSON := fun node =>
    match yamlToJSON node with
    | some raw => (some raw, none)
    | none => (none, some (.external "yaml: node has no JSON form"))
  shortTag := YamlNode.shortTag

/-- Whether a number literal has a fraction or an exponent. -/
def isFloatLiteral (lit : List UInt8) : Bool :=
  lit.any (fun b => b == 46 || b == 101 || b == 69)

mutual
/-- Modelled from the spec: `convertJSONToRawYAML`, which `const.go` calls and does not
define ("converts the internally-held canonical JSON bytes into a YAML-format node tree",
which "must preserve scalar kind (string vs number vs bool vs null), numeric value" and
"key/element structure").  One JSON value at the head of the input becomes a node: a
literal becomes a scalar tagged `!!null` or `!!bool`, a number a scalar tagged `!!int` or
`!!float` that keeps the text of the literal, a string a scalar tagged `!!str` with the
decoded text, an array a sequence and an object a mapping with its entries in order. -/
def jsonToYaml : Nat → List UInt8 → Option (YamlNode × List UInt8)
  | 0, _ => none
  | _ + 1, [] => none
  | fuel + 1, c :: rest =>
    if c == 123 then
      match skipSpace rest with
      | 125 :: rest1 => some (.mapping .nil, rest1)
      | rest1 => (jsonToYamlEntries fuel rest1).map (fun p => (.mapping p.1, p.2))
    else if c == 91 then
      match skipSpace rest with
      | 93 :: rest1 => some (.sequence .nil, rest1)
      | rest1 => (jsonToYamlItems fuel rest1).map (fun p => (.sequence p.1, p.2))
    else if c == 34 then
      (scanString (rest.length + 1) rest).map (fun p => (.scalar "!!str" (String.mk p.1), p.2))
    else if c == 45 || (digitVal c).isSome then
      match scanNumber (c :: rest) with
      | none => none
      | some (_, _, _, rest1) =>
        let lit := (c :: rest).take ((c :: rest).length - rest1.length)
        some (.scalar (if isFloatLiteral lit then "!!float" else "!!int") (textOf lit), rest1)
    else
      match c :: rest with
      | 116 :: 114 :: 117 :: 101 :: rest1 => some (.scalar "!!bool" "true", rest1)
      | 102 :: 97 :: 108 :: 115 :: 101 :: rest1 => some (.scalar "!!bool" "false", rest1)
      | 110 :: 117 :: 108 :: 108 :: rest1 => some (.scalar "!!null" "null", rest1)
      | _ => none
/-- The elements of an array after `[` and white space, up to and including `]`, as
the items of a sequence. -/
def jsonToYamlItems : Nat → List UInt8 → Option (YamlNodes × List UInt8)
  | 0, _ => none
  | fuel + 1, input =>
    match jsonToYaml fuel input with
    | none => none
    | some (node, rest) =>
      match skipSpace rest with
      | 93 :: rest1 => some (.cons node .nil, rest1)
      | 44 :: rest1 =>
        (jsonToYamlItems fuel (skipSpace rest1)).map (fun t => (.cons node t.1, t.2))
      | _ => none
/-- The members of an object after `{` and white space, up to and including `}`, as
the entries of a mapping. -/
def jsonToYamlEntries : Nat → List UInt8 → Option (YamlEntries × List UInt8)
  | 0, _ => none
  | fuel + 1, input =>
    match input with
    | 34 :: rest =>
      match scanString (rest.length + 1) rest with
      | none => none
      | some (key, rest1) =>
        match skipSpace rest1 with
        | 58 :: rest2 =>
          match jsonToYaml fuel (skipSpace rest2) with
          | none => none
          | some (node, rest3) =>
            match skipSpace rest3 with
            | 125 :: rest4 => some (.cons (String.mk key) node .nil, rest4)
            | 44 :: rest4 =>
              (jsonToYamlEntries fuel (skipSpace rest4)).map
                (fun t => (.cons (String.mk key) node t.1, t.2))
            | _ => none
        | _ => none
    | _ => none
end

/-- Modelled from the spec: `convertJSONToRawYAML` on a byte slice, the pair
`(node, err)`: the node of the one JSON value the bytes hold, or an error when they
hold none. -/
def convertJSONToRawYAML (raw : GoBytes) : Option YamlNode × Option (GoError YamlNode) :=
  match skipSpace raw.data with
  | [] => (none, some (.external "yaml: no JSON value"))
  | input =>
    match jsonToYaml (2 * input.length + 2) input with
    | none => (none, some (.external "yaml: no JSON value"))
    | some (node, rest) =>
      match skipSpace rest with
      | [] => (some node, none)
      | _ => (none, some (.external "yaml: no JSON value"))

/-- Whether the input stands where a value has ended in output without white space:
at the end of the input, at a comma or at a closing bracket. -/
def endsValue : List UInt8 → Bool
  | [] => true
  | c :: _ => c == 44 || c == 93 || c == 125

/-- The fraction of a number literal, when the input starts with one: its digits and
the rest of the input.  This is the second step of `scanNumber`. -/
def scanFraction : List UInt8 → Option (List Nat × List UInt8)
  | 46 :: rest =>
    let f := takeDigits rest
    if f.1 = [] then none else some f
  | rest => some ([], rest)

/-- The exponent of a number literal, when the input starts with one: its value, zero
when there is none, and the rest of the input.  This is the third step of `scanNumber`. -/
def scanExponent : List UInt8 → Option (Int × List UInt8)
  | c :: rest =>
    if c == 101 || c == 69 then
      let eneg := rest.head? == some 45
      let s3 := if rest.head? == some 45 ∨ rest.head? == some 43 then rest.tail else rest
      let ed := takeDigits s3
      if ed.1 = [] then none
      else some (if eneg then -(digitsToNat ed.1 : Int) else (digitsToNat ed.1 : Int), ed.2)
    else some (0, c :: rest)
  | [] => some (0, [])

/-- The steps of `scanNumber` after the sign, on the input `s1` that follows it. -/
def scanUnsigned (neg : Bool) (s1 : List UInt8) : Option (Bool × List Nat × Int × List UInt8) :=
  let ip := takeDigits s1
  if ip.1 = [] ∨ (ip.1.head? = some 0 ∧ ip.1.length ≠ 1) then none
  else
    match scanFraction ip.2 with
    | none => none
    | some (fd, s2) =>
      match scanExponent s2 with
      | none => none
      | some (ev, rest) => some (neg, ip.1 ++ fd, ev - fd.length, rest)

/-- The round trip of one value at the given fuel: whenever the reference decoder reads a
value from the input, the conversion to YAML reads a node from the same bytes, the
conversion back writes that node as bytes without white space, and the decoder reads
the same value from those bytes, whatever follows them. -/
def RoundTripValue (fuel : Nat) : Prop :=
  ∀ (depth : Nat) (input : List UInt8) (d : Decoded JValue),
    decodeValue fuel depth input = some d →
    ∃ node out, jsonToYaml fuel input = some (node, d.rest) ∧ yamlToJSON node = some out ∧
      (∃ c t, out = c :: t ∧ isSpace c = false ∧ c ≠ 93) ∧
      ∀ (f : Nat) (rest : List UInt8), out.length + 1 ≤ f → endsValue rest = true →
        decodeValue f depth (out ++ rest) = some ⟨d.val, d.rangeErr, rest⟩

/-- The round trip of the elements of an array at the given fuel. -/
def RoundTripElements (fuel : Nat) : Prop :=
  ∀ (depth : Nat) (input : List UInt8) (d : Decoded (List JValue)),
    decodeElements fuel depth input = some d →
    ∃ node items out, jsonToYamlItems fuel input = some (.cons node items, d.rest) ∧
      yamlItemsToJSON (.cons node items) = some out ∧
      (∃ c t, out = c :: t ∧ isSpace c = false ∧ c ≠ 93) ∧
      ∀ (f : Nat) (rest : List UInt8), out.length + 2 ≤ f →
        decodeElements f depth (out ++ 93 :: rest) = some ⟨d.val, d.rangeErr, rest⟩

/-- The round trip of the members of an object at the given fuel. -/
def RoundTripMembers (fuel : Nat) : Prop :=
  ∀ (depth : Nat) (input : List UInt8) (acc : List (String × JValue))
    (d : Decoded (List (String × JValue))),
    decodeMembers fuel depth input acc = some d →
    ∃ key node entries out,
      jsonToYamlEntries fuel input = some (.cons key node entries, d.rest) ∧
      yamlEntriesToJSON (.cons key node entries) = some out ∧
      (∃ t, out = 34 :: t) ∧
      ∀ (f : Nat) (rest : List UInt8), out.length + 2 ≤ f →
        decodeMembers f depth (out ++ 125 :: rest) acc = some ⟨d.val, d.rangeErr, rest⟩

/-! ## The generic value of the specification -/

/-- Modelled from the spec: the generic value of a JSON text, "one of
null/bool/number/string/ordered-key object/array", in which "integers that fit exactly in
a 64-bit signed range decode as integers; all other numbers decode as 64-bit floating
point".  The schema parser, which is not in `const.go`, decodes a stored const to it. -/
inductive GenericValue where
  | null
  | bool (b : Bool)
  | int (i : Int)
  | float (f : Float64)
  | string (s : String)
  | array (xs : List GenericValue)
  | object (entries : List (String × GenericValue))
deriving Repr

/-- The integer a number literal writes, when its value is an integer of the 64-bit signed
range: the literal is `mant * 10 ^ dexp` with the digits `ds` of `mant`. -/
def exactInt64 (neg : Bool) (ds : List Nat) (dexp : Int) : Option Int :=
  let mant := digitsToNat ds
  let magnitude : Option Nat :=
    if mant = 0 then some 0
    else if 0 ≤ dexp then
      if dexp ≤ 19 then some (mant * 10 ^ dexp.toNat) else none
    else if (-dexp).toNat ≤ ds.length ∧ mant % 10 ^ (-dexp).toNat = 0 then
      some (mant / 10 ^ (-dexp).toNat)
    else none
  match magnitude with
  | none => none
  | some m =>
    if neg then (if m ≤ 2 ^ 63 then some (-(m : Int)) else none)
    else (if m < 2 ^ 63 then some (m : Int) else none)

/-- Modelled from the spec: the generic value of a number literal, an integer when it
fits the 64-bit signed range and the nearest `float64` otherwise; `none` when it is
out of the range of `float64`. -/
def genericNumber (neg : Bool) (ds : List Nat) (dexp : Int) : Option GenericValue :=
  match exactInt64 neg ds dexp with
  | some i => some (.int i)
  | none =>
    match roundFloat64 neg (digitsToNat ds) (ds.dropWhile (· == 0)).length dexp with
    | some f => some (.float f)
    | none => none

/-- The entry `key: value` added to the entries of an object, which keep their order. -/
def genericInsert (key : String) (value : GenericValue)
    (acc : List (String × GenericValue)) : List (String × GenericValue) :=
  acc ++ [(key, value)]

mutual
/-- Modelled from the spec: the generic decoder on one JSON value at the head of the
input.  It reads the same grammar as `decodeValue` and differs in what it builds. -/
def genericValue : Nat → Nat → List UInt8 → Option (Decoded GenericValue)
  | 0, _, _ => none
  | _ + 1, _, [] => none
  | fuel + 1, depth, c :: rest =>
    if c == 123 then
      if depth + 1 > maxNestingDepth then none
      else
        match skipSpace rest with
        | 125 :: rest1 => some ⟨.object [], false, rest1⟩
        | rest1 => (genericMembers fuel (depth + 1) rest1 []).map
            (fun d => ⟨.object d.val, d.rangeErr, d.rest⟩)
    else if c == 91 then
      if depth + 1 > maxNestingDepth then none
      else
        match skipSpace rest with
        | 93 :: rest1 => some ⟨.array [], false, rest1⟩
        | rest1 => (genericElements fuel (depth + 1) rest1).map
            (fun d => ⟨.array d.val, d.rangeErr, d.rest⟩)
    else if c == 34 then
      (scanString (rest.length + 1) rest).map (fun p => ⟨.string (String.mk p.1), false, p.2⟩)
    else if c == 45 || (digitVal c).isSome then
      match scanNumber (c :: rest) with
      | none => none
      | some (neg, ds, dexp, rest1) =>
        match genericNumber neg ds dexp with
        | some g => some ⟨g, false, rest1⟩
        | none => some ⟨.null, true, rest1⟩
    else
      match c :: rest with
      | 116 :: 114 :: 117 :: 101 :: rest1 => some ⟨.bool true, false, rest1⟩
      | 102 :: 97 :: 108 :: 115 :: 101 :: rest1 => some ⟨.bool false, false, rest1⟩
      | 110 :: 117 :: 108 :: 108 :: rest1 => some ⟨.null, false, rest1⟩
      | _ => none
/-- The elements of an array after `[` and white space, up to and including `]`, as
generic values. -/
def genericElements : Nat → Nat → List UInt8 → Option (Decoded (List GenericValue))
  | 0, _, _ => none
  | fuel + 1, depth, input =>
    match genericValue fuel depth input with
    | none => none
    | some d =>
      match skipSpace d.rest with
      | 93 :: rest1 => some ⟨[d.val], d.rangeErr, rest1⟩
      | 44 :: rest1 =>
        (genericElements fuel depth (skipSpace rest1)).map
          (fun t => ⟨d.val :: t.val, d.rangeErr || t.rangeErr, t.rest⟩)
      | _ => none
/-- The members of an object after `{` and white space, up to and including `}`, added
in order to the entries `acc`. -/
def genericMembers : Nat → Nat → List UInt8 → List (String × GenericValue) →
    Option (Decoded (List (String × GenericValue)))
  | 0, _, _, _ => none
  | fuel + 1, depth, input, acc =>
    match input with
    | 34 :: rest =>
      match scanString (rest.length + 1) rest with
      | none => none
      | some (key, rest1) =>
        match skipSpace rest1 with
        | 58 :: rest2 =>
          match genericValue fuel depth (skipSpace rest2) with
          | none => none
          | some d =>
            let acc1 := genericInsert (String.mk key) d.val acc
            match skipSpace d.rest with
            | 125 :: rest3 => some ⟨acc1, d.rangeErr, rest3⟩
            | 44 :: rest3 =>
              (genericMembers fuel depth (skipSpace rest3) acc1).map
                (fun t => ⟨t.val, d.rangeErr || t.rangeErr, t.rest⟩)
            | _ => none
        | _ => none
    | _ => none
end

/-- Modelled from the spec: the generic decoder on a whole text, `none` when the text is
not one JSON value or holds a number out of range. -/
def genericDecode (data : List UInt8) : Option GenericValue :=
  match skipSpace data with
  | [] => none
  | input =>
    match genericValue (2 * input.length + 2) 0 input with
    | none => none
    | some d =>
      match skipSpace d.rest with
      | [] => if d.rangeErr then none else some d.val
      | _ => none

/-- The round trip of one value at the given fuel, for the generic decoder. -/
def GenericRoundTripValue (fuel : Nat) : Prop :=
  ∀ (depth : Nat) (input : List UInt8) (d : Decoded GenericValue),
    genericValue fuel depth input = some d →
    ∃ node out, jsonToYaml fuel input = some (node, d.rest) ∧ yamlToJSON node = some out ∧
      (∃ c t, out = c :: t ∧ isSpace c = false ∧ c ≠ 93) ∧
      ∀ (f : Nat) (rest : List UInt8), out.length + 1 ≤ f → endsValue rest = true →
        genericValue f depth (out ++ rest) = some ⟨d.val, d.rangeErr, rest⟩

/-- The round trip of the elements of an array, for the generic decoder. -/
def GenericRoundTripElements (fuel : Nat) : Prop :=
  ∀ (depth : Nat) (input : List UInt8) (d : Decoded (List GenericValue)),
    genericElements fuel depth input = some d →
    ∃ node items out, jsonToYamlItems fuel input = some (.cons node items, d.rest) ∧
      yamlItemsToJSON (.cons node items) = some out ∧
      (∃ c t, out = c :: t ∧ isSpace c = false ∧ c ≠ 93) ∧
      ∀ (f : Nat) (rest : List UInt8), out.length + 2 ≤ f →
        genericElements f depth (out ++ 93 :: rest) = some ⟨d.val, d.rangeErr, rest⟩

/-- The round trip of the members of an object, for the generic decoder. -/
def GenericRoundTripMembers (fuel : Nat) : Prop :=
  ∀ (depth : Nat) (input : List UInt8) (acc : List (String × GenericValue))
    (d : Decoded (List (String × GenericValue))),
    genericMembers fuel depth input acc = some d →
    ∃ key node entries out,
      jsonToYamlEntries fuel input = some (.cons key node entries, d.rest) ∧
      yamlEntriesToJSON (.cons key node entries) = some out ∧
      (∃ t, out = 34 :: t) ∧
      ∀ (f : Nat) (rest : List UInt8), out.length + 2 ≤ f →
        genericMembers f depth (out ++ 125 :: rest) acc = some ⟨d.val, d.rangeErr, rest⟩

/-- The generic decoder reads a value wherever the reference decoder does, up to the
same place, and without a number out of range when the reference decoder met none. -/
def AgreesValue (fuel : Nat) : Prop :=
  ∀ (depth : Nat) (input : List UInt8) (d : Decoded JValue),
    decodeValue fuel depth input = some d →
    ∃ g, genericValue fuel depth input = some g ∧ g.rest = d.rest ∧
      (d.rangeErr = false → g.rangeErr = false)

/-- The same for the elements of an array. -/
def AgreesElements (fuel : Nat) : Prop :=
  ∀ (depth : Nat) (input : List UInt8) (d : Decoded (List JValue)),
    decodeElements fuel depth input = some d →
    ∃ g, genericElements fuel depth input = some g ∧ g.rest = d.rest ∧
      (d.rangeErr = false → g.rangeErr = false)

/-- The same for the members of an object. -/
def AgreesMembers (fuel : Nat) : Prop :=
  ∀ (depth : Nat) (input : List UInt8) (acc : List (String × JValue))
    (gacc : List (String × GenericValue)) (d : Decoded (List (String × JValue))),
    decodeMembers fuel depth input acc = some d →
    ∃ g, genericMembers fuel depth input gacc = some g ∧ g.rest = d.rest ∧
      (d.rangeErr = false → g.rangeErr = false)

/-! ## The decoders, case by case -/

theorem fmtQ_100 : fmtQ "100" = "\"100\"" := by decide

theorem isEmptyObject_iff (v : JValue) :
    isEmptyObject v = true ↔ ∃ kvs, v = .object kvs ∧ kvs.length = 0 := by
  cases v <;> simp [isEmptyObject, asMap]

theorem isString100_iff (v : JValue) : isString100 v = true ↔ v = .string "100" := by
  cases v <;> simp [isString100, asString]

/-- UnmarshalJSON on input the parser rejects. -/
theorem UnmarshalJSON_of_error {Node : Type} (env : Env Node) (c : Const) (b : GoBytes)
    (e : GoError Node) (h : env.jsonUnmarshal b.data = .error e) :
    UnmarshalJSON env c b = (some e, c) := by
  unfold UnmarshalJSON
  rw [h]

/-- UnmarshalJSON on input the parser decodes to `v`. -/
theorem UnmarshalJSON_of_ok {Node : Type} (env : Env Node) (c : Const) (b : GoBytes)
    (v : JValue) (h : env.jsonUnmarshal b.data = .ok v) :
    UnmarshalJSON env c b =
      if isEmptyObject v then (some (.errorf "const cannot be an empty object"), c)
      else if isString100 v then (some (.errorf "const cannot be the string \"100\""), c)
      else (none, b) := by
  unfold UnmarshalJSON
  rw [h]
  cases v with
  | string s =>
    by_cases hs : s = "100"
    · subst hs
      simp [isEmptyObject, isString100, asMap, asString, fmtQ_100]
    · simp [isEmptyObject, isString100, asMap, asString, hs]
  | object kvs =>
    by_cases hk : kvs.length = 0 <;> simp [isEmptyObject, isString100, asMap, asString, hk]
  | _ => simp [isEmptyObject, isString100, asMap, asString]

/-- UnmarshalYAML on a node the conversion rejects. -/
theorem UnmarshalYAML_of_convError {Node : Type} (env : Env Node) (c : Const) (node : Node)
    (raw : GoBytes) (e : GoError Node) (h : env.convertYAMLtoRawJSON node = (raw, some e)) :
    UnmarshalYAML env c node =
      (some (.unmarshalError node constPtrTypeName
        (.wrapf e ("cannot unmarshal " ++ env.shortTag node ++ " into " ++ constPtrTypeName))),
        c) := by
  unfold UnmarshalYAML
  rw [h]

/-- UnmarshalYAML on a node converted to bytes the parser rejects. -/
theorem UnmarshalYAML_of_error {Node : Type} (env : Env Node) (c : Const) (node : Node)
    (raw : GoBytes) (e : GoError Node) (h : env.convertYAMLtoRawJSON node = (raw, none))
    (he : env.jsonUnmarshal raw.data = .error e) :
    UnmarshalYAML env c node = (none, raw) := by
  unfold UnmarshalYAML
  rw [h]
  simp only
  rw [he]

/-- UnmarshalYAML on a node converted to bytes the parser decodes to `v`. -/
theorem UnmarshalYAML_of_ok {Node : Type} (env : Env Node) (c : Const) (node : Node)
    (raw : GoBytes) (v : JValue) (h : env.convertYAMLtoRawJSON node = (raw, none))
    (hv : env.jsonUnmarshal raw.data = .ok v) :
    UnmarshalYAML env c node =
      if isEmptyObject v then (some (.errorf "const cannot be an empty object"), c)
      else if isString100 v then (some (.errorf "const cannot be the string \"100\""), c)
      else (none, raw) := by
  unfold UnmarshalYAML
  rw [h]
  simp only
  rw [hv]
  cases v with
  | string s =>
    by_cases hs : s = "100"
    · subst hs
      simp [isEmptyObject, isString100, asMap, asString, fmtQ_100]
    · simp [isEmptyObject, isString100, asMap, asString, hs]
  | object kvs =>
    by_cases hk : kvs.length = 0 <;> simp [isEmptyObject, isString100, asMap, asString, hk]
  | _ => simp [isEmptyObject, isString100, asMap, asString]

/-- A successful `UnmarshalJSON` leaves the input in the container. -/
theorem unmarshalJSON_commits_eq {Node : Type} (env : Env Node) (c : Const) (b : GoBytes)
    (h : (UnmarshalJSON env c b).1 = none) :
    (UnmarshalJSON env c b).2 = b := by
  cases hd : env.jsonUnmarshal b.data with
  | error e =>
    rw [UnmarshalJSON_of_error env c b e hd] at h
    cases h
  | ok v =>
    rw [UnmarshalJSON_of_ok env c b v hd] at h ⊢
    by_cases he : isEmptyObject v = true
    · simp [he] at h
    · by_cases hs : isString100 v = true
      · simp [he, hs] at h
      · simp [he, hs]

/-- The const values of `TestConstParsing` (`"active"`, `42`, `3.14`, `true`, `false`,
`null`) are accepted by the reference environment and stored as written. -/
theorem testConstParsing_values :
    UnmarshalJSON sampleEnv none (some (bytesOf "\"active\""))
      = (none, some (bytesOf "\"active\"")) ∧
    UnmarshalJSON sampleEnv none (some (bytesOf "42")) = (none, some (bytesOf "42")) ∧
    UnmarshalJSON sampleEnv none (some (bytesOf "3.14")) = (none, some (bytesOf "3.14")) ∧
    UnmarshalJSON sampleEnv none (some (bytesOf "true")) = (none, some (bytesOf "true")) ∧
    UnmarshalJSON sampleEnv none (some (bytesOf "false")) = (none, some (bytesOf "false")) ∧
    UnmarshalJSON sampleEnv none (some (bytesOf "null")) = (none, some (bytesOf "null")) := by
  decide

/-! ## Rejection and acceptance -/

/-- C1. Empty-object rejection: when the generic decode of the input is an object with
zero entries, `UnmarshalJSON` returns the error `errors.Errorf("const cannot be an empty
object")`; and when the JSON bytes a YAML node is converted to decode to an object with
zero entries, `UnmarshalYAML` returns the error with the same message. -/
theorem empty_object_rejected {Node : Type} (env : Env Node) (c : Const) :
    (∀ (b : GoBytes) (kvs : List (String × JValue)),
      env.jsonUnmarshal b.data = .ok (.object kvs) → kvs.length = 0 →
      (UnmarshalJSON env c b).1 = some (.errorf "const cannot be an empty object")) ∧
    (∀ (node : Node) (raw : GoBytes) (kvs : List (String × JValue)),
      env.convertYAMLtoRawJSON node = (raw, none) →
      env.jsonUnmarshal raw.data = .ok (.object kvs) → kvs.length = 0 →
      (UnmarshalYAML env c node).1 = some (.errorf "const cannot be an empty object")) := by
  constructor
  · intro b kvs h hk
    have he : isEmptyObject (.object kvs) = true :=
      (isEmptyObject_iff _).2 ⟨kvs, rfl, hk⟩
    rw [UnmarshalJSON_of_ok env c b _ h, if_pos he]
  · intro node raw kvs h hv hk
    have he : isEmptyObject (.object kvs) = true :=
      (isEmptyObject_iff _).2 ⟨kvs, rfl, hk⟩
    rw [UnmarshalYAML_of_ok env c node raw _ h hv, if_pos he]

/-- Witness of C1: the bytes `{}` and the empty YAML mapping. -/
theorem empty_object_rejected_witness :
    (UnmarshalJSON sampleEnv none (some (bytesOf "\x7b\x7d"))).1
      = some (.errorf "const cannot be an empty object") ∧
    (UnmarshalYAML sampleEnv none (.mapping .nil)).1
      = some (.errorf "const cannot be an empty object") :=
  ⟨(empty_object_rejected sampleEnv none).1 (some (bytesOf "\x7b\x7d")) [] rfl rfl,
   (empty_object_rejected sampleEnv none).2 (.mapping .nil) (some (bytesOf "\x7b\x7d")) []
      rfl rfl rfl⟩

/-- C2. Literal-string rejection: when the generic decode of the input is the string
with content `100`, `UnmarshalJSON` returns the error whose message is
`const cannot be the string "100"`, the string quoted as `%q` quotes it. -/
theorem string_100_rejected {Node : Type} (env : Env Node) (c : Const) (b : GoBytes)
    (h : env.jsonUnmarshal b.data = .ok (.string "100")) :
    (UnmarshalJSON env c b).1 = some (.errorf "const cannot be the string \"100\"") := by
  have h1 : isEmptyObject (.string "100") = false := rfl
  have h2 : isString100 (.string "100") = true := (isString100_iff _).2 rfl
  rw [UnmarshalJSON_of_ok env c b _ h, h1, h2]
  rfl

/-- Witness of C2: the five bytes `"100"`, and the same string written with escapes. -/
theorem string_100_rejected_witness :
    (UnmarshalJSON sampleEnv none (some (bytesOf "\"100\""))).1
      = some (.errorf "const cannot be the string \"100\"") ∧
    (UnmarshalJSON sampleEnv none (some (bytesOf "\"\\u0031\\u0030\\u0030\""))).1
      = some (.errorf "const cannot be the string \"100\"") :=
  ⟨string_100_rejected sampleEnv none (some (bytesOf "\"100\"")) rfl,
   string_100_rejected sampleEnv none (some (bytesOf "\"\\u0031\\u0030\\u0030\"")) rfl⟩

/-- C3. Exact acceptance condition: when the input parses to a value `v`, `UnmarshalJSON`
returns nil if and only if `v` is neither an object with zero entries nor the string
`100`.  In particular null, every boolean, every number, every array, the empty string,
the strings `100.0` and `1000`, and every non-empty object are accepted. -/
theorem unmarshalJSON_nil_iff {Node : Type} (env : Env Node) (c : Const) (b : GoBytes)
    (v : JValue) (h : env.jsonUnmarshal b.data = .ok v) :
    ((UnmarshalJSON env c b).1 = none ↔
      (¬ ∃ kvs, v = .object kvs ∧ kvs.length = 0) ∧ v ≠ .string "100") ∧
    ((v = .null ∨ (∃ x, v = .bool x) ∨ (∃ f, v = .number f) ∨ (∃ xs, v = .array xs) ∨
        v = .string "" ∨ v = .string "100.0" ∨ v = .string "1000" ∨
        (∃ kv kvs, v = .object (kv :: kvs))) →
      (UnmarshalJSON env c b).1 = none) := by
  have key : (UnmarshalJSON env c b).1 = none ↔
      (¬ ∃ kvs, v = .object kvs ∧ kvs.length = 0) ∧ v ≠ .string "100" := by
    rw [UnmarshalJSON_of_ok env c b v h, ← isEmptyObject_iff, Ne, ← isString100_iff]
    by_cases he : isEmptyObject v = true
    · simp [he]
    · by_cases hs : isString100 v = true
      · simp [he, hs]
      · simp [he, hs]
  refine ⟨key, fun hv => key.2 ?_⟩
  rcases hv with hv | ⟨x, hv⟩ | ⟨f, hv⟩ | ⟨xs, hv⟩ | hv | hv | hv | ⟨kv, kvs, hv⟩
  all_goals subst hv; simp

/-- Witness of C3: an array holding `{}` and `"100"` is accepted. -/
theorem unmarshalJSON_nil_iff_witness :
    (UnmarshalJSON sampleEnv none (some (bytesOf "[\x7b\x7d, \"100\"]"))).1 = none :=
  (unmarshalJSON_nil_iff sampleEnv none (some (bytesOf "[\x7b\x7d, \"100\"]"))
    (.array [.object [], .string "100"]) rfl).2
    (Or.inr (Or.inr (Or.inr (Or.inl ⟨_, rfl⟩))))

/-! ## Commit -/

/-- C4. Verbatim commit: when `UnmarshalJSON` returns nil on the input `b`, the content of
the container afterwards is `b` itself, byte for byte. -/
theorem unmarshalJSON_commits_input {Node : Type} (env : Env Node) (c : Const) (b : GoBytes)
    (h : (UnmarshalJSON env c b).1 = none) :
    (UnmarshalJSON env c b).2 = b :=
  unmarshalJSON_commits_eq env c b h

/-- Witness of C4: input with white space and an escape sequence is stored as written. -/
theorem unmarshalJSON_commits_input_witness :
    (UnmarshalJSON sampleEnv (some (bytesOf "1")) (some (bytesOf " \"\\u0061\" "))).2
      = some (bytesOf " \"\\u0061\" ") :=
  unmarshalJSON_commits_input sampleEnv (some (bytesOf "1")) (some (bytesOf " \"\\u0061\" "))
    (by decide)

/-- C5. All-or-nothing commit: when `UnmarshalJSON` or `UnmarshalYAML` returns an error
that is not nil, the content of the container afterwards is its prior content `c0`. -/
theorem failed_decode_keeps_content {Node : Type} (env : Env Node) (c0 : Const) :
    (∀ b : GoBytes, (UnmarshalJSON env c0 b).1 ≠ none → (UnmarshalJSON env c0 b).2 = c0) ∧
    (∀ node : Node, (UnmarshalYAML env c0 node).1 ≠ none →
      (UnmarshalYAML env c0 node).2 = c0) := by
  constructor
  · intro b h
    cases hd : env.jsonUnmarshal b.data with
    | error e => rw [UnmarshalJSON_of_error env c0 b e hd]
    | ok v =>
      rw [UnmarshalJSON_of_ok env c0 b v hd] at h ⊢
      by_cases he : isEmptyObject v = true
      · simp [he]
      · by_cases hs : isString100 v = true
        · simp [he, hs]
        · simp [he, hs] at h
  · intro node h
    rcases hc : env.convertYAMLtoRawJSON node with ⟨raw, _ | e⟩
    · cases hd : env.jsonUnmarshal raw.data with
      | error e =>
        rw [UnmarshalYAML_of_error env c0 node raw e hc hd] at h
        exact absurd rfl h
      | ok v =>
        rw [UnmarshalYAML_of_ok env c0 node raw v hc hd] at h ⊢
        by_cases he : isEmptyObject v = true
        · simp [he]
        · by_cases hs : isString100 v = true
          · simp [he, hs]
          · simp [he, hs] at h
    · rw [UnmarshalYAML_of_convError env c0 node raw e hc]

/-- Witness of C5: a syntax error and a validation error on a populated container, and
a conversion error on an empty one. -/
theorem failed_decode_keeps_content_witness :
    (UnmarshalJSON sampleEnv (some (bytesOf "42")) (some (bytesOf "[1"))).2
      = some (bytesOf "42") ∧
    (UnmarshalJSON sampleEnv (some (bytesOf "42")) (some (bytesOf "\"100\""))).2
      = some (bytesOf "42") ∧
    (UnmarshalYAML sampleEnv none (.alias "a")).2 = none ∧
    (UnmarshalYAML sampleEnv (some (bytesOf "42")) (.mapping .nil)).2 = some (bytesOf "42") :=
  ⟨(failed_decode_keeps_content sampleEnv (some (bytesOf "42"))).1 (some (bytesOf "[1"))
      (by decide),
   (failed_decode_keeps_content sampleEnv (some (bytesOf "42"))).1 (some (bytesOf "\"100\""))
      (by decide),
   (failed_decode_keeps_content sampleEnv none).2 (.alias "a") (by decide),
   (failed_decode_keeps_content sampleEnv (some (bytesOf "42"))).2 (.mapping .nil)
      (by decide)⟩

/-- C6. Syntax errors are propagated unchanged: when the generic JSON parser fails on the
input with the error `e`, `UnmarshalJSON` returns `e` itself. -/
theorem syntax_error_propagated {Node : Type} (env : Env Node) (c : Const) (b : GoBytes)
    (e : GoError Node) (h : env.jsonUnmarshal b.data = .error e) :
    (UnmarshalJSON env c b).1 = some e := by
  rw [UnmarshalJSON_of_error env c b e h]

/-- Witness of C6: an unterminated array. -/
theorem syntax_error_propagated_witness :
    (UnmarshalJSON sampleEnv none (some (bytesOf "[1,"))).1
      = some (.external "json: syntax error") :=
  syntax_error_propagated sampleEnv none (some (bytesOf "[1,")) _ rfl

/-! ## Encoding and round trip -/

/-- C7, counterexample. On the never-populated container, which holds the nil slice,
`MarshalJSON` returns the four bytes `null`, not the zero bytes the container holds. -/
theorem marshalJSON_nil_is_null :
    MarshalJSON Unit (none : Const) = (some [110, 117, 108, 108], none) ∧
    (MarshalJSON Unit (none : Const)).1.data ≠ GoBytes.data (none : Const) := by
  decide

/-- C7, amended. On a container that holds a slice that is not nil, `MarshalJSON` returns
the bytes the container holds and a nil error; on the never-populated container, which
holds the nil slice, it returns the bytes `null` and a nil error. -/
theorem marshalJSON_returns_content (Node : Type) (bs : List UInt8) :
    MarshalJSON Node (some bs) = (some bs, none) ∧
    MarshalJSON Node (none : Const) = (some (bytesOf "null"), none) :=
  ⟨rfl, rfl⟩

/-- C8. JSON round trip: when a container has been populated by a successful
`UnmarshalJSON`, decoding the bytes `MarshalJSON` returns for it into a fresh container
succeeds and leaves that container with the same content.  The parser is one that rejects
the input of length zero, as `encoding/json` does. -/
theorem json_round_trip {Node : Type} (env : Env Node)
    (hempty : ∀ v, env.jsonUnmarshal [] ≠ .ok v)
    (c0 c : Const) (b : GoBytes) (h : UnmarshalJSON env c0 b = (none, c)) :
    UnmarshalJSON env none (MarshalJSON Node c).1 = (none, c) := by
  have h1 : (UnmarshalJSON env c0 b).1 = none := by rw [h]
  have h2 : (UnmarshalJSON env c0 b).2 = b := unmarshalJSON_commits_eq env c0 b h1
  have hcb : c = b := by rw [h] at h2; exact h2
  subst hcb
  cases hd : env.jsonUnmarshal (GoBytes.data c) with
  | error e =>
    rw [UnmarshalJSON_of_error env c0 c e hd] at h1
    cases h1
  | ok v =>
    cases c with
    | none => exact absurd hd (hempty v)
    | some bs =>
      have hm : (MarshalJSON Node (some bs)).1 = some bs := rfl
      rw [hm]
      rw [UnmarshalJSON_of_ok env c0 (some bs) v hd] at h
      rw [UnmarshalJSON_of_ok env none (some bs) v hd]
      by_cases he : isEmptyObject v = true
      · simp [he] at h
      · by_cases hs : isString100 v = true
        · simp [he, hs] at h
        · simp [he, hs]

/-- Witness of C8: a nested value with white space, decoded, encoded and decoded again. -/
theorem json_round_trip_witness :
    UnmarshalJSON sampleEnv none
        (MarshalJSON YamlNode (some (bytesOf "\x7b\"a\": [1.5, null, \"100\"]\x7d"))).1
      = (none, some (bytesOf "\x7b\"a\": [1.5, null, \"100\"]\x7d")) :=
  json_round_trip sampleEnv (fun _ hv => by cases hv) (some (bytesOf "7"))
    (some (bytesOf "\x7b\"a\": [1.5, null, \"100\"]\x7d"))
    (some (bytesOf "\x7b\"a\": [1.5, null, \"100\"]\x7d")) (by decide)

/-! ## The two decoders compared -/

/-- C9, the code at a failing input. The scalar node tagged `!!float` with the text
`1e999` converts, with a nil error, to the bytes `1e999`, which `json.Unmarshal` rejects
as out of the range of `float64`.  `UnmarshalYAML` drops that error, returns nil and
stores the bytes, so the container holds bytes that the parser does not accept. -/
theorem unmarshalYAML_commits_rejected_bytes :
    sampleEnv.convertYAMLtoRawJSON (.scalar "!!float" "1e999")
      = (some (bytesOf "1e999"), none) ∧
    jsonDecode (bytesOf "1e999") = .typeError ∧
    UnmarshalYAML sampleEnv none (.scalar "!!float" "1e999")
      = (none, some (bytesOf "1e999")) ∧
    ¬ ∃ v, sampleEnv.jsonUnmarshal
      (UnmarshalYAML sampleEnv none (.scalar "!!float" "1e999")).2.data = .ok v := by
  refine ⟨rfl, rfl, rfl, ?_⟩
  rintro ⟨v, hv⟩
  have he : sampleEnv.jsonUnmarshal
      (UnmarshalYAML sampleEnv none (.scalar "!!float" "1e999")).2.data
      = .error (.external
        "json: cannot unmarshal number into Go value of type interface \x7b\x7d") := rfl
  rw [he] at hv
  cases hv

/-- What both decoders do guarantee: after a successful `UnmarshalJSON` the parser accepts
the bytes the container holds, and after a successful `UnmarshalYAML` on a node that the
conversion turns into bytes the parser accepts, the container holds those bytes. -/
theorem stored_bytes_parse {Node : Type} (env : Env Node) (c : Const) :
    (∀ b : GoBytes, (UnmarshalJSON env c b).1 = none →
      ∃ v, env.jsonUnmarshal (UnmarshalJSON env c b).2.data = .ok v) ∧
    (∀ (node : Node) (raw : GoBytes) (v : JValue),
      env.convertYAMLtoRawJSON node = (raw, none) → env.jsonUnmarshal raw.data = .ok v →
      (UnmarshalYAML env c node).1 = none →
      (UnmarshalYAML env c node).2 = raw ∧
      ∃ w, env.jsonUnmarshal (UnmarshalYAML env c node).2.data = .ok w) := by
  constructor
  · intro b h
    rw [unmarshalJSON_commits_eq env c b h]
    cases hd : env.jsonUnmarshal b.data with
    | error e =>
      rw [UnmarshalJSON_of_error env c b e hd] at h
      cases h
    | ok v => exact ⟨v, rfl⟩
  · intro node raw v hc hd h
    have hs : (UnmarshalYAML env c node).2 = raw := by
      rw [UnmarshalYAML_of_ok env c node raw v hc hd] at h ⊢
      by_cases he : isEmptyObject v = true
      · simp [he] at h
      · by_cases hs : isString100 v = true
        · simp [he, hs] at h
        · simp [he, hs]
    exact ⟨hs, v, by rw [hs]; exact hd⟩

/-- C10, the code at a failing input. The sequence node of the scalars `1` and `-1e400`
converts, with a nil error, to the bytes `[1,-1e400]`.  On these bytes `UnmarshalJSON`
returns the error of `json.Unmarshal` and keeps the prior content, while `UnmarshalYAML`
on the node returns nil and overwrites the content with them. -/
theorem unmarshalYAML_accepts_what_unmarshalJSON_rejects :
    sampleEnv.convertYAMLtoRawJSON
        (.sequence (.cons (.scalar "!!int" "1") (.cons (.scalar "!!float" "-1e400") .nil)))
      = (some (bytesOf "[1,-1e400]"), none) ∧
    UnmarshalYAML sampleEnv (some (bytesOf "7"))
        (.sequence (.cons (.scalar "!!int" "1") (.cons (.scalar "!!float" "-1e400") .nil)))
      = (none, some (bytesOf "[1,-1e400]")) ∧
    UnmarshalJSON sampleEnv (some (bytesOf "7")) (some (bytesOf "[1,-1e400]"))
      = (some (.external
          "json: cannot unmarshal number into Go value of type interface \x7b\x7d"),
        some (bytesOf "7")) := by
  decide

/-- Where the two decoders do agree: when the conversion of a YAML node succeeds with
bytes `raw` that the parser accepts, `UnmarshalYAML` on the node and `UnmarshalJSON` on
`raw` return the same error or both nil and leave the same content, which on success is
`raw`. -/
theorem unmarshalYAML_eq_unmarshalJSON {Node : Type} (env : Env Node) (c : Const)
    (node : Node) (raw : GoBytes) (v : JValue)
    (h : env.convertYAMLtoRawJSON node = (raw, none))
    (hv : env.jsonUnmarshal raw.data = .ok v) :
    UnmarshalYAML env c node = UnmarshalJSON env c raw ∧
    ((UnmarshalYAML env c node).1 = none → (UnmarshalYAML env c node).2 = raw) := by
  have heq : UnmarshalYAML env c node = UnmarshalJSON env c raw := by
    rw [UnmarshalYAML_of_ok env c node raw v h hv, UnmarshalJSON_of_ok env c raw v hv]
  refine ⟨heq, fun hn => ?_⟩
  rw [heq] at hn ⊢
  exact unmarshalJSON_commits_eq env c raw hn

/-! ## Conversion failure -/

/-- C11. YAML conversion failure is reported as a structured decode error: when the
conversion of the node fails with the error `e`, `UnmarshalYAML` returns the
`yaml.UnmarshalError` whose `Node` is that node, whose `Type` is `*jsonschema.Const` and
whose `Err` wraps `e` with the message `cannot unmarshal <short tag> into
*jsonschema.Const`; the content is left as it was, and the JSON parser plays no part:
with any other parser in its place the result is the same. -/
theorem conversion_error_reported {Node : Type} (env : Env Node) (c : Const) (node : Node)
    (raw : GoBytes) (e : GoError Node) (h : env.convertYAMLtoRawJSON node = (raw, some e)) :
    UnmarshalYAML env c node =
      (some (.unmarshalError node "*jsonschema.Const"
        (.wrapf e ("cannot unmarshal " ++ env.shortTag node ++ " into *jsonschema.Const"))),
        c) ∧
    ∀ parser : List UInt8 → Except (GoError Node) JValue,
      UnmarshalYAML (Env.mk parser env.convertYAMLtoRawJSON env.shortTag) c node
        = UnmarshalYAML env c node := by
  have hmsg : "cannot unmarshal " ++ env.shortTag node ++ " into " ++ constPtrTypeName
      = "cannot unmarshal " ++ env.shortTag node ++ " into *jsonschema.Const" := by
    rw [String.append_assoc _ " into " constPtrTypeName]
    rfl
  have hname : constPtrTypeName = "*jsonschema.Const" := rfl
  refine ⟨?_, fun parser => ?_⟩
  · rw [UnmarshalYAML_of_convError env c node raw e h, hmsg, hname]
  · rw [UnmarshalYAML_of_convError env c node raw e h]
    exact UnmarshalYAML_of_convError (Env.mk parser env.convertYAMLtoRawJSON env.shortTag)
      c node raw e h

/-- Witness of C11: an alias node, which the sample conversion rejects. -/
theorem conversion_error_reported_witness :
    UnmarshalYAML sampleEnv (some (bytesOf "1")) (.alias "a") =
      (some (.unmarshalError (.alias "a") "*jsonschema.Const"
        (.wrapf (.external "yaml: node has no JSON form")
          "cannot unmarshal  into *jsonschema.Const")),
        some (bytesOf "1")) :=
  (conversion_error_reported sampleEnv (some (bytesOf "1")) (.alias "a") none
    (.external "yaml: node has no JSON form") rfl).1

/-! ## What decoding checks -/

/-- C12, counterexample. The bytes `{}` and `"100"` are syntactically valid JSON, and
`UnmarshalJSON` rejects both and stores nothing. -/
theorem valid_json_rejected :
    jsonDecode (bytesOf "\x7b\x7d") = .ok (.object []) ∧
    UnmarshalJSON sampleEnv none (some (bytesOf "\x7b\x7d"))
      = (some (.errorf "const cannot be an empty object"), none) ∧
    jsonDecode (bytesOf "\"100\"") = .ok (.string "100") ∧
    UnmarshalJSON sampleEnv none (some (bytesOf "\"100\""))
      = (some (.errorf "const cannot be the string \"100\""), none) :=
  ⟨rfl, rfl, rfl, rfl⟩

/-- C12, amended. Parsing takes the const value as it is, the two rejected shapes apart:
when the parser accepts the input and the value is neither an object with zero entries
nor the string `100`, `UnmarshalJSON` succeeds and stores the input unchanged, whatever
the value is. -/
theorem unmarshalJSON_stores_as_is {Node : Type} (env : Env Node) (c : Const) (b : GoBytes)
    (v : JValue) (h : env.jsonUnmarshal b.data = .ok v)
    (hobj : ∀ kvs, v = .object kvs → kvs.length ≠ 0) (hstr : v ≠ .string "100") :
    UnmarshalJSON env c b = (none, b) := by
  have he : ¬ isEmptyObject v = true := by
    rw [isEmptyObject_iff]
    rintro ⟨kvs, hv, hk⟩
    exact hobj kvs hv hk
  have hs : ¬ isString100 v = true := by
    rw [isString100_iff]
    exact hstr
  rw [UnmarshalJSON_of_ok env c b v h, if_neg he, if_neg hs]

/-- Witness of C12, amended: a string where the schema may say `integer`, and an object
with an empty object inside. -/
theorem unmarshalJSON_stores_as_is_witness :
    UnmarshalJSON sampleEnv none (some (bytesOf "\"not a number\""))
      = (none, some (bytesOf "\"not a number\"")) ∧
    UnmarshalJSON sampleEnv none (some (bytesOf "\x7b\"a\":\x7b\x7d\x7d"))
      = (none, some (bytesOf "\x7b\"a\":\x7b\x7d\x7d")) :=
  ⟨unmarshalJSON_stores_as_is sampleEnv none (some (bytesOf "\"not a number\""))
      (.string "not a number") rfl (fun _ hv => by cases hv) (by simp),
   unmarshalJSON_stores_as_is sampleEnv none (some (bytesOf "\x7b\"a\":\x7b\x7d\x7d"))
      (.object [("a", .object [])]) rfl
      (fun _ hv hk => by cases hv; cases hk) (fun hv => by cases hv)⟩

/-- C14. Null is a present value: with a parser that decodes the bytes `null` to nil, as
`encoding/json` does, `UnmarshalJSON` on the bytes `null` returns nil and leaves the
container holding the four bytes `n`, `u`, `l`, `l`, a content that is not the nil slice
of the never-populated container and has length four, not zero. -/
theorem null_is_present {Node : Type} (env : Env Node) (c : Const)
    (h : env.jsonUnmarshal [110, 117, 108, 108] = .ok .null) :
    UnmarshalJSON env c (some [110, 117, 108, 108]) = (none, some [110, 117, 108, 108]) ∧
    (UnmarshalJSON env c (some [110, 117, 108, 108])).2 ≠ (none : Const) ∧
    (UnmarshalJSON env c (some [110, 117, 108, 108])).2.data.length = 4 ∧
    (GoBytes.data (none : Const)).length = 0 := by
  have hr : UnmarshalJSON env c (some [110, 117, 108, 108])
      = (none, some [110, 117, 108, 108]) := by
    rw [UnmarshalJSON_of_ok env c (some [110, 117, 108, 108]) .null h]
    rfl
  rw [hr]
  exact ⟨rfl, by simp, rfl, rfl⟩

/-- Witness of C14: the reference parser on the bytes `null`, from the empty container. -/
theorem null_is_present_witness :
    UnmarshalJSON sampleEnv none (some (bytesOf "null")) = (none, some (bytesOf "null")) :=
  (null_is_present sampleEnv none rfl).1

/-- C15. Validation looks at the decoded value, not the raw bytes: when two inputs parse
to the same value, `UnmarshalJSON` returns the same error on both, or nil on both. -/
theorem same_value_same_outcome {Node : Type} (env : Env Node) (c1 c2 : Const)
    (b1 b2 : GoBytes) (v : JValue)
    (h1 : env.jsonUnmarshal b1.data = .ok v) (h2 : env.jsonUnmarshal b2.data = .ok v) :
    (UnmarshalJSON env c1 b1).1 = (UnmarshalJSON env c2 b2).1 := by
  rw [UnmarshalJSON_of_ok env c1 b1 v h1, UnmarshalJSON_of_ok env c2 b2 v h2]
  by_cases he : isEmptyObject v = true
  · simp [he]
  · by_cases hs : isString100 v = true
    · simp [he, hs]
    · simp [he, hs]

/-- Witness of C15: the string `100` written with escapes and plainly, and the empty
object written with and without white space. -/
theorem same_value_same_outcome_witness :
    (UnmarshalJSON sampleEnv none (some (bytesOf "\"\\u0031\\u0030\\u0030\""))).1
      = (UnmarshalJSON sampleEnv none (some (bytesOf "\"100\""))).1 ∧
    (UnmarshalJSON sampleEnv none (some (bytesOf "\x7b \x7d"))).1
      = (UnmarshalJSON sampleEnv none (some (bytesOf "\x7b\x7d"))).1 :=
  ⟨same_value_same_outcome sampleEnv none none (some (bytesOf "\"\\u0031\\u0030\\u0030\""))
      (some (bytesOf "\"100\"")) (.string "100") rfl rfl,
   same_value_same_outcome sampleEnv none none (some (bytesOf "\x7b \x7d"))
      (some (bytesOf "\x7b\x7d")) (.object []) rfl rfl⟩

/-- C16. The outcome of a decode does not depend on the prior content: from any two prior
contents `UnmarshalJSON` returns the same error or nil on the same input, and when it
returns nil the content afterwards is the input in both cases, so a successful decode
overwrites the value of a populated container. -/
theorem outcome_independent_of_prior {Node : Type} (env : Env Node) (c1 c2 : Const)
    (b : GoBytes) :
    (UnmarshalJSON env c1 b).1 = (UnmarshalJSON env c2 b).1 ∧
    ((UnmarshalJSON env c1 b).1 = none →
      (UnmarshalJSON env c1 b).2 = b ∧ (UnmarshalJSON env c2 b).2 = b) := by
  have heq : (UnmarshalJSON env c1 b).1 = (UnmarshalJSON env c2 b).1 := by
    cases hd : env.jsonUnmarshal b.data with
    | error e =>
      rw [UnmarshalJSON_of_error env c1 b e hd, UnmarshalJSON_of_error env c2 b e hd]
    | ok v =>
      rw [UnmarshalJSON_of_ok env c1 b v hd, UnmarshalJSON_of_ok env c2 b v hd]
      by_cases he : isEmptyObject v = true
      · simp [he]
      · by_cases hs : isString100 v = true
        · simp [he, hs]
        · simp [he, hs]
  refine ⟨heq, fun hn => ⟨unmarshalJSON_commits_eq env c1 b hn, ?_⟩⟩
  exact unmarshalJSON_commits_eq env c2 b (heq ▸ hn)

/-- Witness of C16: the bytes `true` decoded into the empty container and into one that
holds `42`. -/
theorem outcome_independent_of_prior_witness :
    (UnmarshalJSON sampleEnv none (some (bytesOf "true"))).2 = some (bytesOf "true") ∧
    (UnmarshalJSON sampleEnv (some (bytesOf "42")) (some (bytesOf "true"))).2
      = some (bytesOf "true") :=
  (outcome_independent_of_prior sampleEnv none (some (bytesOf "42"))
    (some (bytesOf "true"))).2 (by decide)

/-! ## The YAML round trip: bytes and characters -/

theorem uint8_toNat_ofNat (n : Nat) : (UInt8.ofNat n).toNat = n % 256 := by
  show (BitVec.ofNat 8 n).toNat = n % 256
  simp [BitVec.toNat_ofNat]

theorem uint8_ofNat_toNat (b : UInt8) : UInt8.ofNat b.toNat = b := by
  apply UInt8.ext
  rw [uint8_toNat_ofNat]
  exact Nat.mod_eq_of_lt (UInt8.toNat_lt_size b)

theorem uint8_beq_iff (a b : UInt8) : (a == b) = true ↔ a.toNat = b.toNat := by
  constructor
  · intro h
    rw [beq_iff_eq] at h
    rw [h]
  · intro h
    rw [beq_iff_eq]
    exact UInt8.ext h

theorem uint8_toNat_lt (b : UInt8) : b.toNat < 256 := UInt8.toNat_lt_size b

theorem char_toNat_ofNat (n : Nat) (h : n < 55296 ∨ 57343 < n ∧ n < 1114112) :
    (Char.ofNat n).toNat = n := by
  have hv : n.isValidChar := h
  unfold Char.ofNat
  rw [dif_pos hv]
  show (Char.ofNatAux n hv).val.toNat = n
  unfold Char.ofNatAux
  show (UInt32.ofNat' n _).toNat = n
  rfl

theorem bytesOf_textOf (bs : List UInt8) : bytesOf (textOf bs) = bs := by
  unfold bytesOf textOf
  show List.map _ (List.map _ bs) = bs
  rw [List.map_map]
  conv_rhs => rw [← List.map_id bs]
  apply List.map_congr_left
  intro b _
  show UInt8.ofNat (Char.ofNat b.toNat).toNat = b
  rw [char_toNat_ofNat _ (Or.inl (by have := uint8_toNat_lt b; omega))]
  exact uint8_ofNat_toNat b

/-! ## The YAML round trip: number literals -/

theorem digitVal_of_endsValue (c : UInt8) (t : List UInt8) (h : endsValue (c :: t) = true) :
    digitVal c = none ∧ c ≠ 46 ∧ c ≠ 101 ∧ c ≠ 69 ∧ c ≠ 45 ∧ c ≠ 43 := by
  have hc : (c = 44 ∨ c = 93) ∨ c = 125 := by
    simpa [endsValue] using h
  rcases hc with (hc | hc) | hc <;> subst hc <;> decide

theorem takeDigits_append (input : List UInt8) :
    ∃ pre, input = pre ++ (takeDigits input).2 ∧
      ((takeDigits input).1 ≠ [] → ∃ c t, pre = c :: t ∧ (digitVal c).isSome = true) ∧
      ∀ r', (∀ c t, r' = c :: t → digitVal c = none) →
        takeDigits (pre ++ r') = ((takeDigits input).1, r') := by
  induction input with
  | nil =>
    refine ⟨[], rfl, fun h => absurd rfl h, fun r' hr => ?_⟩
    cases r' with
    | nil => rfl
    | cons c t =>
      have := hr c t rfl
      simp [takeDigits, this]
  | cons c rest ih =>
    obtain ⟨pre, hpre, _, hpre'⟩ := ih
    cases hd : digitVal c with
    | none =>
      refine ⟨[], by simp [takeDigits, hd], fun h => ?_, fun r' hr => ?_⟩
      · simp [takeDigits, hd] at h
      · cases r' with
        | nil => simp [takeDigits, hd]
        | cons c' t =>
          have := hr c' t rfl
          simp [takeDigits, hd, this]
    | some d =>
      refine ⟨c :: pre, ?_, fun _ => ⟨c, pre, rfl, by simp [hd]⟩, fun r' hr => ?_⟩
      · show c :: rest = c :: (pre ++ (takeDigits (c :: rest)).2)
        simp only [takeDigits, hd]
        rw [← hpre]
      · have h2 := hpre' r' hr
        show takeDigits (c :: (pre ++ r')) = _
        simp only [takeDigits, hd, h2]

theorem scanNumber_eq_scanUnsigned (input : List UInt8) :
    scanNumber input =
      scanUnsigned (input.head? == some 45)
        (if (input.head? == some 45) = true then input.tail else input) := by
  unfold scanNumber scanUnsigned
  simp only []
  generalize (input.head? == some 45) = neg
  generalize (if neg = true then input.tail else input) = s1
  generalize takeDigits s1 = ip
  obtain ⟨i1, i2⟩ := ip
  simp only []
  by_cases hbad : i1 = [] ∨ (i1.head? = some 0 ∧ i1.length ≠ 1)
  · rw [if_pos hbad, if_pos hbad]
  · rw [if_neg hbad, if_neg hbad]
    have hexp : ∀ (fd : List Nat) (s2 : List UInt8),
        (match s2 with
          | c :: rest =>
            if (c == 101 || c == 69) = true then
              if (takeDigits (if (rest.head? == some 45) = true ∨ (rest.head? == some 43) = true
                    then rest.tail else rest)).1 = [] then none
              else some (neg, i1 ++ fd,
                (if (rest.head? == some 45) = true then
                    -(digitsToNat (takeDigits (if (rest.head? == some 45) = true ∨
                      (rest.head? == some 43) = true then rest.tail else rest)).1 : Int)
                  else (digitsToNat (takeDigits (if (rest.head? == some 45) = true ∨
                      (rest.head? == some 43) = true then rest.tail else rest)).1 : Int))
                  - (fd.length : Int),
                (takeDigits (if (rest.head? == some 45) = true ∨ (rest.head? == some 43) = true
                    then rest.tail else rest)).2)
            else some (neg, i1 ++ fd, -(fd.length : Int), s2)
          | [] => some (neg, i1 ++ fd, -(fd.length : Int), []))
        = (match scanExponent s2 with
          | none => none
          | some (ev, rest) => some (neg, i1 ++ fd, ev - fd.length, rest)) := by
      intro fd s2
      cases s2 with
      | nil => simp [scanExponent]
      | cons c rest =>
        simp only [scanExponent]
        by_cases hc : (c == 101 || c == 69) = true
        · simp only [hc, if_true]
          split <;> split_ifs <;> simp_all
        · simp only [hc]
          simp
    cases i2 with
    | nil => simpa [scanFraction] using hexp [] []
    | cons c t =>
      by_cases hc : c = 46
      · subst hc
        simp only [scanFraction]
        by_cases hf : (takeDigits t).1 = []
        · simp [hf]
        · simp only [hf, if_false]
          exact hexp _ _
      · have hsf : scanFraction (c :: t) = some ([], c :: t) := by
          unfold scanFraction
          split
          · rename_i heq
            cases heq
            exact absurd rfl hc
          · rfl
        have := hexp [] (c :: t)
        rw [hsf]
        simp only [] at this ⊢
        rw [← this]
        change (match scanFraction (c :: t) with
          | none => none
          | some (fd, s2) => _) = _
        rw [hsf]

theorem scanFraction_cons_ne (c : UInt8) (t : List UInt8) (hc : c ≠ 46) :
    scanFraction (c :: t) = some ([], c :: t) := by
  unfold scanFraction
  split
  · rename_i heq
    cases heq
    exact absurd rfl hc
  · rfl

theorem scanFraction_append (x : List UInt8) (fd : List Nat) (s2 : List UInt8)
    (h : scanFraction x = some (fd, s2)) :
    ∃ pre, x = pre ++ s2 ∧ (pre = [] ∨ pre.head? = some 46) ∧
      ∀ r', (∀ c t, r' = c :: t → digitVal c = none ∧ c ≠ 46) →
        scanFraction (pre ++ r') = some (fd, r') := by
  have hnil : ∀ r' : List UInt8, (∀ c t, r' = c :: t → digitVal c = none ∧ c ≠ 46) →
      scanFraction r' = some ([], r') := by
    intro r' hr
    cases r' with
    | nil => rfl
    | cons c t => exact scanFraction_cons_ne c t (hr c t rfl).2
  cases x with
  | nil =>
    simp [scanFraction] at h
    obtain ⟨h1, h2⟩ := h
    subst h1 h2
    exact ⟨[], rfl, Or.inl rfl, hnil⟩
  | cons c t =>
    by_cases hc : c = 46
    · subst hc
      simp only [scanFraction] at h
      by_cases hf : (takeDigits t).1 = []
      · simp [hf] at h
      · simp only [hf, if_false, Option.some.injEq] at h
        obtain ⟨pre, hpre, _, hpre'⟩ := takeDigits_append t
        rw [h] at hpre hpre'
        refine ⟨46 :: pre, ?_, Or.inr rfl, fun r' hr => ?_⟩
        · show 46 :: t = 46 :: (pre ++ s2)
          rw [← hpre]
        · show scanFraction (46 :: (pre ++ r')) = _
          have h2 := hpre' r' (fun c t hct => (hr c t hct).1)
          have hfd : fd ≠ [] := by
            have : (takeDigits t).1 = fd := by rw [h]
            rw [← this]
            exact hf
          simp only [scanFraction, h2, hfd, if_false]
    · rw [scanFraction_cons_ne c t hc] at h
      simp only [Option.some.injEq, Prod.mk.injEq] at h
      obtain ⟨h1, h2⟩ := h
      subst h1 h2
      exact ⟨[], rfl, Or.inl rfl, hnil⟩

theorem scanExponent_of_endsValue (r' : List UInt8) (hr : endsValue r' = true) :
    scanExponent r' = some (0, r') := by
  cases r' with
  | nil => rfl
  | cons c t =>
    obtain ⟨_, _, h101, h69, _, _⟩ := digitVal_of_endsValue c t hr
    simp [scanExponent, h101, h69]

theorem scanExponent_digits (c : UInt8) (hc : (c == 101 || c == 69) = true)
    (sign : List UInt8) (hsign : sign = [] ∨ sign = [45] ∨ sign = [43])
    (s3 : List UInt8) (hs3 : (takeDigits s3).1 ≠ [])
    (hhead : ∃ d t, s3 = d :: t ∧ (digitVal d).isSome = true) :
    scanExponent (c :: (sign ++ s3)) =
      some (if sign = [45] then -(digitsToNat (takeDigits s3).1 : Int)
        else (digitsToNat (takeDigits s3).1 : Int), (takeDigits s3).2) := by
  obtain ⟨d, t, hdt, hd⟩ := hhead
  have hd45 : d ≠ 45 := by
    intro h; subst h; revert hd; decide
  have hd43 : d ≠ 43 := by
    intro h; subst h; revert hd; decide
  rcases hsign with hs | hs | hs
  · subst hs
    subst hdt
    simp only [scanExponent, hc, if_true, List.nil_append, List.head?_cons]
    have h1 : (some d == some (45 : UInt8)) = false := by simp [hd45]
    have h2 : (some d == some (43 : UInt8)) = false := by simp [hd43]
    simp [h1, h2, hs3]
  · subst hs
    simp only [scanExponent, hc, if_true, List.cons_append, List.nil_append, List.head?_cons]
    simp [hs3]
  · subst hs
    simp only [scanExponent, hc, if_true, List.cons_append, List.nil_append, List.head?_cons]
    have h1 : (some (43 : UInt8) == some (45 : UInt8)) = false := by decide
    simp [h1, hs3]

theorem scanExponent_signed (c : UInt8) (hc : (c == 101 || c == 69) = true)
    (sign s3 : List UInt8) (hsign : sign = [] ∨ sign = [45] ∨ sign = [43])
    (hs3 : sign = [] → ∀ d t, s3 = d :: t → d ≠ 45 ∧ d ≠ 43)
    (ev : Int) (rest : List UInt8)
    (h : scanExponent (c :: (sign ++ s3)) = some (ev, rest)) :
    (takeDigits s3).1 ≠ [] ∧ rest = (takeDigits s3).2 ∧
      ev = (if sign = [45] then -(digitsToNat (takeDigits s3).1 : Int)
        else (digitsToNat (takeDigits s3).1 : Int)) := by
  rcases hsign with hs | hs | hs
  · subst hs
    cases s3 with
    | nil => simp [scanExponent, hc, takeDigits] at h
    | cons d t =>
      obtain ⟨h45, h43⟩ := hs3 rfl d t rfl
      have h1 : (some d == some (45 : UInt8)) = false := by simp [h45]
      have h2 : (some d == some (43 : UInt8)) = false := by simp [h43]
      simp only [scanExponent, hc, if_true, List.nil_append, List.head?_cons] at h
      simp only [h1, h2] at h
      by_cases hf : (takeDigits (d :: t)).1 = []
      · simp [hf] at h
      · simp [hf] at h
        exact ⟨hf, h.2.symm, by simp [h.1]⟩
  · subst hs
    simp only [scanExponent, hc, if_true, List.cons_append, List.nil_append,
      List.head?_cons] at h
    by_cases hf : (takeDigits s3).1 = []
    · simp [hf] at h
    · simp [hf] at h
      exact ⟨hf, h.2.symm, by simp [h.1]⟩
  · subst hs
    have h1 : (some (43 : UInt8) == some (45 : UInt8)) = false := by decide
    simp only [scanExponent, hc, if_true, List.cons_append, List.nil_append,
      List.head?_cons] at h
    by_cases hf : (takeDigits s3).1 = []
    · simp [hf] at h
    · simp [hf, h1] at h
      refine ⟨hf, h.2.symm, ?_⟩
      have : ([43] : List UInt8) ≠ [45] := by decide
      simp [this, h.1]

theorem scanExponent_append (s2 : List UInt8) (ev : Int) (rest : List UInt8)
    (h : scanExponent s2 = some (ev, rest)) :
    ∃ pre, s2 = pre ++ rest ∧
      (pre = [] ∨ pre.head? = some 101 ∨ pre.head? = some 69) ∧
      ∀ r', endsValue r' = true → scanExponent (pre ++ r') = some (ev, r') := by
  cases s2 with
  | nil =>
    simp [scanExponent] at h
    obtain ⟨h1, h2⟩ := h
    subst h1 h2
    exact ⟨[], rfl, Or.inl rfl, scanExponent_of_endsValue⟩
  | cons c rest0 =>
    by_cases hc : (c == 101 || c == 69) = true
    · have hsplit : ∃ sign s3, rest0 = sign ++ s3 ∧ (sign = [] ∨ sign = [45] ∨ sign = [43]) ∧
          (sign = [] → ∀ d t, s3 = d :: t → d ≠ 45 ∧ d ≠ 43) := by
        cases rest0 with
        | nil => exact ⟨[], [], rfl, Or.inl rfl, fun _ d t hdt => by cases hdt⟩
        | cons d t =>
          by_cases h45 : d = 45
          · exact ⟨[45], t, by rw [h45]; rfl, Or.inr (Or.inl rfl), fun hs => by cases hs⟩
          · by_cases h43 : d = 43
            · exact ⟨[43], t, by rw [h43]; rfl, Or.inr (Or.inr rfl), fun hs => by cases hs⟩
            · refine ⟨[], d :: t, rfl, Or.inl rfl, fun _ d' t' hdt => ?_⟩
              cases hdt
              exact ⟨h45, h43⟩
      obtain ⟨sign, s3, hr0, hsign, hs3⟩ := hsplit
      subst hr0
      obtain ⟨hne, hrest, hev⟩ := scanExponent_signed c hc sign s3 hsign hs3 ev rest h
      obtain ⟨preD, hpreD, hhead, hpreD'⟩ := takeDigits_append s3
      obtain ⟨d, t, hdt, hd⟩ := hhead hne
      refine ⟨c :: (sign ++ preD), ?_, ?_, fun r' hr => ?_⟩
      · show c :: (sign ++ s3) = c :: (sign ++ preD ++ rest)
        rw [hrest, List.append_assoc, ← hpreD]
      · have : c = 101 ∨ c = 69 := by simpa using hc
        rcases this with h | h <;> simp [h]
      · have htd : takeDigits (preD ++ r') = ((takeDigits s3).1, r') := by
          apply hpreD'
          intro c' t' hct
          subst hct
          exact (digitVal_of_endsValue c' t' hr).1
        have := scanExponent_digits c hc sign hsign (preD ++ r')
          (by rw [htd]; exact hne) ⟨d, t ++ r', by rw [hdt]; rfl, hd⟩
        show scanExponent (c :: (sign ++ preD ++ r')) = _
        rw [List.append_assoc, this, htd, hev]
    · have hc' : (c == 101 || c == 69) = false := by simpa using hc
      simp only [scanExponent, hc'] at h
      simp at h
      obtain ⟨h1, h2⟩ := h
      subst h1 h2
      exact ⟨[], rfl, Or.inl rfl, scanExponent_of_endsValue⟩

theorem head_append_cases (p q : List UInt8) (c : UInt8) (t : List UInt8)
    (h : p ++ q = c :: t) : (p = [] ∧ q = c :: t) ∨ p.head? = some c := by
  cases p with
  | nil => exact Or.inl ⟨rfl, h⟩
  | cons a p' =>
    right
    simp only [List.cons_append, List.cons.injEq] at h
    simp [h.1]

theorem scanUnsigned_append (neg : Bool) (s1 : List UInt8) (neg' : Bool) (ds : List Nat)
    (dexp : Int) (rest : List UInt8) (h : scanUnsigned neg s1 = some (neg', ds, dexp, rest)) :
    ∃ lc, s1 = lc ++ rest ∧ (∃ c t, lc = c :: t ∧ (digitVal c).isSome = true) ∧
      ∀ r', endsValue r' = true → scanUnsigned neg (lc ++ r') = some (neg', ds, dexp, r') := by
  unfold scanUnsigned at h
  simp only [] at h
  by_cases hbad : (takeDigits s1).1 = [] ∨
      ((takeDigits s1).1.head? = some 0 ∧ (takeDigits s1).1.length ≠ 1)
  · rw [if_pos hbad] at h
    cases h
  · rw [if_neg hbad] at h
    cases hfr : scanFraction (takeDigits s1).2 with
    | none => rw [hfr] at h; cases h
    | some p =>
      obtain ⟨fd, s2⟩ := p
      rw [hfr] at h
      simp only [] at h
      cases hex : scanExponent s2 with
      | none => rw [hex] at h; cases h
      | some q =>
        obtain ⟨ev, rest'⟩ := q
        rw [hex] at h
        simp only [Option.some.injEq, Prod.mk.injEq] at h
        obtain ⟨hneg, hds, hdexp, hrest⟩ := h
        subst hrest
        have hne : (takeDigits s1).1 ≠ [] := fun hh => hbad (Or.inl hh)
        obtain ⟨preI, hpreI, hheadI, hpreI'⟩ := takeDigits_append s1
        obtain ⟨preF, hpreF, hheadF, hpreF'⟩ := scanFraction_append _ fd s2 hfr
        obtain ⟨preE, hpreE, hheadE, hpreE'⟩ := scanExponent_append s2 ev rest' hex
        refine ⟨preI ++ preF ++ preE, ?_, ?_, fun r' hr => ?_⟩
        · rw [List.append_assoc, List.append_assoc, ← hpreE, ← hpreF, ← hpreI]
        · obtain ⟨c, t, hct, hc⟩ := hheadI hne
          exact ⟨c, t ++ preF ++ preE, by rw [hct]; simp, hc⟩
        · have hE : ∀ c t, preE ++ r' = c :: t → digitVal c = none ∧ c ≠ 46 := by
            intro c t hct
            rcases head_append_cases preE r' c t hct with ⟨_, hr'⟩ | hh
            · subst hr'
              obtain ⟨h1, h2, _⟩ := digitVal_of_endsValue c t hr
              exact ⟨h1, h2⟩
            · rcases hheadE with he | he | he
              · rw [he] at hh; cases hh
              · rw [he] at hh; cases hh; exact ⟨by decide, by decide⟩
              · rw [he] at hh; cases hh; exact ⟨by decide, by decide⟩
          have hF : ∀ c t, preF ++ (preE ++ r') = c :: t → digitVal c = none := by
            intro c t hct
            rcases head_append_cases preF (preE ++ r') c t hct with ⟨_, hr'⟩ | hh
            · exact (hE c t hr').1
            · rcases hheadF with hf | hf
              · rw [hf] at hh; cases hh
              · rw [hf] at hh; cases hh; decide
          have h1 := hpreI' (preF ++ (preE ++ r')) hF
          have h2 := hpreF' (preE ++ r') hE
          have h3 := hpreE' r' hr
          unfold scanUnsigned
          simp only []
          rw [List.append_assoc, List.append_assoc, h1]
          simp only []
          rw [if_neg hbad, h2]
          simp only []
          rw [h3]
          simp only [hneg, hds, hdexp]

theorem scanNumber_append (input : List UInt8) (neg : Bool) (ds : List Nat) (dexp : Int)
    (rest : List UInt8) (h : scanNumber input = some (neg, ds, dexp, rest)) :
    ∃ lit, input = lit ++ rest ∧ lit ≠ [] ∧
      ∀ r', endsValue r' = true → scanNumber (lit ++ r') = some (neg, ds, dexp, r') := by
  rw [scanNumber_eq_scanUnsigned] at h
  cases input with
  | nil =>
    simp [scanUnsigned, takeDigits] at h
  | cons c t =>
    by_cases hc : c = 45
    · subst hc
      have h45 : (((45 : UInt8) :: t).head? == some 45) = true := by simp
      rw [h45] at h
      simp only [if_true, List.tail_cons] at h
      obtain ⟨lc, hlc, _, hlc'⟩ := scanUnsigned_append true t neg ds dexp rest h
      refine ⟨45 :: lc, by rw [hlc]; rfl, by simp, fun r' hr => ?_⟩
      rw [scanNumber_eq_scanUnsigned]
      have h45' : (((45 : UInt8) :: lc ++ r').head? == some 45) = true := by simp
      rw [h45']
      simp only [if_true, List.cons_append, List.tail_cons]
      exact hlc' r' hr
    · have hn : ((c :: t).head? == some 45) = false := by simp [hc]
      rw [hn] at h
      simp only [Bool.false_eq_true, if_false] at h
      obtain ⟨lc, hlc, ⟨c', t', hct, hd⟩, hlc'⟩ :=
        scanUnsigned_append false (c :: t) neg ds dexp rest h
      refine ⟨lc, hlc, by rw [hct]; simp, fun r' hr => ?_⟩
      rw [scanNumber_eq_scanUnsigned]
      have hc' : c' ≠ 45 := by
        intro hh; subst hh; revert hd; decide
      have hn' : ((lc ++ r').head? == some 45) = false := by
        rw [hct]; simp [hc']
      rw [hn']
      simp only [Bool.false_eq_true, if_false]
      exact hlc' r' hr

theorem take_of_append (lit rest : List UInt8) :
    (lit ++ rest).take ((lit ++ rest).length - rest.length) = lit := by
  have : (lit ++ rest).length - rest.length = lit.length := by
    rw [List.length_append]; omega
  rw [this, List.take_left]

theorem isJSONNumber_textOf (lit : List UInt8) (neg : Bool) (ds : List Nat) (dexp : Int)
    (h : scanNumber lit = some (neg, ds, dexp, [])) : isJSONNumber (textOf lit) = true := by
  unfold isJSONNumber
  rw [bytesOf_textOf, h]
  simp

/-! ## The YAML round trip: string literals -/

theorem decodeRune_one (b0 : UInt8) (tail : List UInt8) (n : Nat)
    (h0 : b0.toNat = n) (hn : n < 0x80) : decodeRune b0 tail = (Char.ofNat n, 1) := by
  unfold decodeRune
  simp only [h0]
  rw [if_pos hn]

theorem decodeRune_two (b0 c1 : UInt8) (tail : List UInt8) (n : Nat)
    (h0 : b0.toNat = 0xC0 + n / 64) (h1 : c1.toNat = 0x80 + n % 64)
    (hn : 0x80 ≤ n ∧ n < 0x800) : decodeRune b0 (c1 :: tail) = (Char.ofNat n, 2) := by
  unfold decodeRune
  simp only [h0]
  rw [if_neg (by omega), if_pos (by omega)]
  have hr : inRange 0x80 0xBF c1 = true := by
    simp only [inRange, h1]
    simp
    omega
  simp only [hr, if_true]
  have : (0xC0 + n / 64) % 32 * 64 + c1.toNat % 64 = n := by rw [h1]; omega
  rw [this]

theorem decodeRune_three (b0 c1 c2 : UInt8) (tail : List UInt8) (n : Nat)
    (h0 : b0.toNat = 0xE0 + n / 4096) (h1 : c1.toNat = 0x80 + n / 64 % 64)
    (h2 : c2.toNat = 0x80 + n % 64)
    (hn : 0x800 ≤ n ∧ n < 0x10000) (hs : n < 0xD800 ∨ 0xDFFF < n) :
    decodeRune b0 (c1 :: c2 :: tail) = (Char.ofNat n, 3) := by
  unfold decodeRune
  simp only [h0]
  rw [if_neg (by omega), if_neg (by omega), if_pos (by omega)]
  have hr : (inRange (if 0xE0 + n / 4096 = 0xE0 then 0xA0 else 0x80)
      (if 0xE0 + n / 4096 = 0xED then 0x9F else 0xBF) c1 && inRange 0x80 0xBF c2) = true := by
    simp only [inRange, h1, h2]
    simp
    refine ⟨⟨?_, ?_⟩, ?_⟩
    · split <;> omega
    · split <;> omega
    · omega
  simp only [hr, if_true]
  have : (0xE0 + n / 4096) % 16 * 4096 + c1.toNat % 64 * 64 + c2.toNat % 64 = n := by
    rw [h1, h2]; omega
  rw [this]

theorem decodeRune_four (b0 c1 c2 c3 : UInt8) (tail : List UInt8) (n : Nat)
    (h0 : b0.toNat = 0xF0 + n / 262144) (h1 : c1.toNat = 0x80 + n / 4096 % 64)
    (h2 : c2.toNat = 0x80 + n / 64 % 64) (h3 : c3.toNat = 0x80 + n % 64)
    (hn : 0x10000 ≤ n ∧ n < 0x110000) :
    decodeRune b0 (c1 :: c2 :: c3 :: tail) = (Char.ofNat n, 4) := by
  unfold decodeRune
  simp only [h0]
  rw [if_neg (by omega), if_neg (by omega), if_neg (by omega), if_pos (by omega)]
  have hr : (inRange (if 0xF0 + n / 262144 = 0xF0 then 0x90 else 0x80)
      (if 0xF0 + n / 262144 = 0xF4 then 0x8F else 0xBF) c1 && inRange 0x80 0xBF c2
      && inRange 0x80 0xBF c3) = true := by
    simp only [inRange, h1, h2, h3]
    simp
    refine ⟨⟨⟨?_, ?_⟩, ?_⟩, ?_⟩
    · split <;> omega
    · split <;> omega
    · omega
    · omega
  simp only [hr, if_true]
  have : (0xF0 + n / 262144) % 8 * 262144 + c1.toNat % 64 * 4096 + c2.toNat % 64 * 64
      + c3.toNat % 64 = n := by
    rw [h1, h2, h3]; omega
  rw [this]

theorem uint8_beq_false (c d : UInt8) (h : c.toNat ≠ d.toNat) : (c == d) = false := by
  cases hb : c == d with
  | false => rfl
  | true => exact absurd ((uint8_beq_iff c d).1 hb) h

theorem hexVal_lowerHexDigit (k : Nat) (hk : k < 16) :
    hexVal (UInt8.ofNat (lowerHexDigit k).toNat) = some k := by
  interval_cases k <;> decide

theorem char_eq_of_toNat (ch : Char) (n : Nat) (h : ch.toNat = n) : Char.ofNat n = ch := by
  rw [← h, Char.ofNat_toNat]

theorem char_valid (ch : Char) :
    ch.toNat < 55296 ∨ 57343 < ch.toNat ∧ ch.toNat < 1114112 := ch.valid

theorem scanString_cons (f : Nat) (c : UInt8) (rest : List UInt8) :
    scanString (f + 1) (c :: rest) =
      if c == 34 then some ([], rest)
      else if c == 92 then
        match rest with
        | [] => none
        | e :: rest1 =>
          if e == 117 then
            match hex4 rest1 with
            | none => none
            | some (rr, rest2) =>
              if 0xD800 ≤ rr ∧ rr < 0xE000 then
                match getu4 rest2 with
                | some (rr1, rest3) =>
                  if rr < 0xDC00 ∧ 0xDC00 ≤ rr1 ∧ rr1 < 0xE000 then
                    (scanString f rest3).map (fun p =>
                      (Char.ofNat ((rr - 0xD800) * 1024 + (rr1 - 0xDC00) + 0x10000) :: p.1, p.2))
                  else (scanString f rest2).map (fun p => (replacementChar :: p.1, p.2))
                | none => (scanString f rest2).map (fun p => (replacementChar :: p.1, p.2))
              else (scanString f rest2).map (fun p => (Char.ofNat rr :: p.1, p.2))
          else
            match simpleEscape e with
            | some ch => (scanString f rest1).map (fun p => (ch :: p.1, p.2))
            | none => none
      else if c.toNat < 32 then none
      else
        (scanString f (rest.drop ((decodeRune c rest).2 - 1))).map
          (fun p => ((decodeRune c rest).1 :: p.1, p.2)) := by
  rfl

theorem scanString_plain (f : Nat) (c : UInt8) (rest : List UInt8)
    (h34 : c.toNat ≠ 34) (h92 : c.toNat ≠ 92) (h32 : 32 ≤ c.toNat) :
    scanString (f + 1) (c :: rest) =
      (scanString f (rest.drop ((decodeRune c rest).2 - 1))).map
          (fun p => ((decodeRune c rest).1 :: p.1, p.2)) := by
  rw [scanString_cons, uint8_beq_false c 34 h34, uint8_beq_false c 92 h92]
  simp only [Bool.false_eq_true, if_false]
  rw [if_neg (by omega)]

theorem scanString_jsonEscape (ch : Char) (f : Nat) (tail : List UInt8) :
    scanString (f + 1) (jsonEscape ch ++ tail) =
      (scanString f tail).map (fun p => (ch :: p.1, p.2)) := by
  by_cases hq : ch = '"'
  · subst hq
    rfl
  by_cases hb : ch = '\\'
  · subst hb
    rfl
  have hv := char_valid ch
  have hn34 : ch.toNat ≠ 34 := fun h => hq (by rw [← char_eq_of_toNat ch 34 h])
  have hn92 : ch.toNat ≠ 92 := fun h => hb (by rw [← char_eq_of_toNat ch 92 h])
  by_cases hctl : ch.toNat < 32
  · have hesc : jsonEscape ch = [92, 117, 48, 48,
        UInt8.ofNat (lowerHexDigit (ch.toNat / 16)).toNat,
        UInt8.ofNat (lowerHexDigit (ch.toNat % 16)).toNat] := by
      unfold jsonEscape
      rw [if_neg hq, if_neg hb, if_pos hctl]
    rw [hesc]
    show scanString (f + 1) (92 :: 117 :: 48 :: 48 :: _ :: _ :: tail) = _
    rw [scanString_cons]
    have h1 := hexVal_lowerHexDigit (ch.toNat / 16) (by omega)
    have h2 := hexVal_lowerHexDigit (ch.toNat % 16) (by omega)
    have h0 : hexVal 48 = some 0 := by decide
    have hhex : hex4 (48 :: 48 :: UInt8.ofNat (lowerHexDigit (ch.toNat / 16)).toNat ::
        UInt8.ofNat (lowerHexDigit (ch.toNat % 16)).toNat :: tail)
        = some (ch.toNat, tail) := by
      simp only [hex4, h0, h1, h2]
      congr 2
      omega
    have e1 : ((92 : UInt8) == 34) = false := by decide
    have e2 : ((92 : UInt8) == 92) = true := by decide
    have e3 : ((117 : UInt8) == 117) = true := by decide
    simp only [e1, e2, e3, Bool.false_eq_true, if_false, if_true, hhex]
    rw [if_neg (by omega), Char.ofNat_toNat]
  · have hesc : jsonEscape ch = utf8Encode ch := by
      unfold jsonEscape
      rw [if_neg hq, if_neg hb, if_neg hctl]
    rw [hesc]
    unfold utf8Encode
    simp only []
    by_cases h1 : ch.toNat < 0x80
    · rw [if_pos h1]
      have hb0 : (UInt8.ofNat ch.toNat).toNat = ch.toNat := by
        rw [uint8_toNat_ofNat]; omega
      show scanString (f + 1) (UInt8.ofNat ch.toNat :: tail) = _
      rw [scanString_plain f _ _ (by omega) (by omega) (by omega),
        decodeRune_one _ tail ch.toNat hb0 h1, Char.ofNat_toNat]
      rfl
    rw [if_neg h1]
    by_cases h2 : ch.toNat < 0x800
    · rw [if_pos h2]
      have hb0 : (UInt8.ofNat (0xC0 + ch.toNat / 64)).toNat = 0xC0 + ch.toNat / 64 := by
        rw [uint8_toNat_ofNat]; omega
      have hb1 : (UInt8.ofNat (0x80 + ch.toNat % 64)).toNat = 0x80 + ch.toNat % 64 := by
        rw [uint8_toNat_ofNat]; omega
      show scanString (f + 1) (UInt8.ofNat (0xC0 + ch.toNat / 64) ::
        UInt8.ofNat (0x80 + ch.toNat % 64) :: tail) = _
      rw [scanString_plain f _ _ (by omega) (by omega) (by omega),
        decodeRune_two _ _ tail ch.toNat hb0 hb1 ⟨by omega, h2⟩, Char.ofNat_toNat]
      rfl
    rw [if_neg h2]
    by_cases h3 : ch.toNat < 0x10000
    · rw [if_pos h3]
      have hb0 : (UInt8.ofNat (0xE0 + ch.toNat / 4096)).toNat = 0xE0 + ch.toNat / 4096 := by
        rw [uint8_toNat_ofNat]; omega
      have hb1 : (UInt8.ofNat (0x80 + ch.toNat / 64 % 64)).toNat
          = 0x80 + ch.toNat / 64 % 64 := by
        rw [uint8_toNat_ofNat]; omega
      have hb2 : (UInt8.ofNat (0x80 + ch.toNat % 64)).toNat = 0x80 + ch.toNat % 64 := by
        rw [uint8_toNat_ofNat]; omega
      show scanString (f + 1) (UInt8.ofNat (0xE0 + ch.toNat / 4096) ::
        UInt8.ofNat (0x80 + ch.toNat / 64 % 64) :: UInt8.ofNat (0x80 + ch.toNat % 64) :: tail)
        = _
      rw [scanString_plain f _ _ (by omega) (by omega) (by omega),
        decodeRune_three _ _ _ tail ch.toNat hb0 hb1 hb2 ⟨by omega, h3⟩ (by omega),
        Char.ofNat_toNat]
      rfl
    rw [if_neg h3]
    have hb0 : (UInt8.ofNat (0xF0 + ch.toNat / 262144)).toNat = 0xF0 + ch.toNat / 262144 := by
      rw [uint8_toNat_ofNat]; omega
    have hb1 : (UInt8.ofNat (0x80 + ch.toNat / 4096 % 64)).toNat
        = 0x80 + ch.toNat / 4096 % 64 := by
      rw [uint8_toNat_ofNat]; omega
    have hb2 : (UInt8.ofNat (0x80 + ch.toNat / 64 % 64)).toNat
        = 0x80 + ch.toNat / 64 % 64 := by
      rw [uint8_toNat_ofNat]; omega
    have hb3 : (UInt8.ofNat (0x80 + ch.toNat % 64)).toNat = 0x80 + ch.toNat % 64 := by
      rw [uint8_toNat_ofNat]; omega
    show scanString (f + 1) (UInt8.ofNat (0xF0 + ch.toNat / 262144) ::
      UInt8.ofNat (0x80 + ch.toNat / 4096 % 64) :: UInt8.ofNat (0x80 + ch.toNat / 64 % 64) ::
      UInt8.ofNat (0x80 + ch.toNat % 64) :: tail) = _
    rw [scanString_plain f _ _ (by omega) (by omega) (by omega),
      decodeRune_four _ _ _ _ tail ch.toNat hb0 hb1 hb2 hb3 ⟨by omega, by omega⟩,
      Char.ofNat_toNat]
    rfl

theorem jsonEscape_length_pos (ch : Char) : 1 ≤ (jsonEscape ch).length := by
  unfold jsonEscape utf8Encode
  simp only []
  split_ifs <;> simp

theorem flatMap_jsonEscape_length (l : List Char) :
    l.length ≤ (l.flatMap jsonEscape).length := by
  induction l with
  | nil => simp
  | cons ch l ih =>
    simp only [List.flatMap_cons, List.length_append, List.length_cons]
    have := jsonEscape_length_pos ch
    omega

theorem scanString_quoted (l : List Char) :
    ∀ (f : Nat) (rest : List UInt8), l.length + 1 ≤ f →
      scanString f (l.flatMap jsonEscape ++ 34 :: rest) = some (l, rest) := by
  induction l with
  | nil =>
    intro f rest hf
    obtain ⟨f', rfl⟩ : ∃ f', f = f' + 1 := ⟨f - 1, by simp at hf; omega⟩
    rfl
  | cons ch l ih =>
    intro f rest hf
    obtain ⟨f', rfl⟩ : ∃ f', f = f' + 1 := ⟨f - 1, by simp at hf; omega⟩
    simp only [List.flatMap_cons, List.append_assoc]
    rw [scanString_jsonEscape, ih f' rest (by simp at hf; omega)]
    rfl

/-- A quoted string is read back: the scanner on the text after the opening quote. -/
theorem scanString_jsonQuote (s : String) (rest : List UInt8) :
    ∃ body, jsonQuote s ++ rest = 34 :: (body ++ 34 :: rest) ∧
      (jsonQuote s).length = body.length + 2 ∧
      ∀ more : List UInt8,
        scanString ((body ++ 34 :: more).length + 1) (body ++ 34 :: more)
          = some (s.toList, more) := by
  refine ⟨s.toList.flatMap jsonEscape, ?_, ?_, fun more => ?_⟩
  · simp [jsonQuote]
  · simp [jsonQuote]
  · apply scanString_quoted
    have := flatMap_jsonEscape_length s.toList
    simp only [List.length_append, List.length_cons]
    omega

/-! ## The YAML round trip: values -/

theorem skipSpace_cons_of_not_space (c : UInt8) (t : List UInt8) (h : isSpace c = false) :
    skipSpace (c :: t) = c :: t := by
  simp [skipSpace, h]

theorem decodeValue_object (fuel depth : Nat) (rest0 : List UInt8) :
    decodeValue (fuel + 1) depth (123 :: rest0) =
      if depth + 1 > maxNestingDepth then none
      else if (skipSpace rest0).head? = some 125 then
        some ⟨.object [], false, (skipSpace rest0).tail⟩
      else (decodeMembers fuel (depth + 1) (skipSpace rest0) []).map
        (fun d => ⟨.object d.val, d.rangeErr, d.rest⟩) := by
  have h : decodeValue (fuel + 1) depth (123 :: rest0) =
      if depth + 1 > maxNestingDepth then none
      else
        match skipSpace rest0 with
        | 125 :: rest1 => some ⟨.object [], false, rest1⟩
        | rest1 => (decodeMembers fuel (depth + 1) rest1 []).map
            (fun d => ⟨.object d.val, d.rangeErr, d.rest⟩) := rfl
  rw [h]
  split
  · rfl
  · split
    · rename_i heq
      simp [heq]
    · rename_i hne
      rw [if_neg]
      intro hh
      cases hs : skipSpace rest0 with
      | nil => rw [hs] at hh; cases hh
      | cons a t =>
        rw [hs] at hh
        simp only [List.head?_cons, Option.some.injEq] at hh
        subst hh
        exact hne t hs

theorem decodeValue_array (fuel depth : Nat) (rest0 : List UInt8) :
    decodeValue (fuel + 1) depth (91 :: rest0) =
      if depth + 1 > maxNestingDepth then none
      else if (skipSpace rest0).head? = some 93 then
        some ⟨.array [], false, (skipSpace rest0).tail⟩
      else (decodeElements fuel (depth + 1) (skipSpace rest0)).map
        (fun d => ⟨.array d.val, d.rangeErr, d.rest⟩) := by
  have h : decodeValue (fuel + 1) depth (91 :: rest0) =
      if depth + 1 > maxNestingDepth then none
      else
        match skipSpace rest0 with
        | 93 :: rest1 => some ⟨.array [], false, rest1⟩
        | rest1 => (decodeElements fuel (depth + 1) rest1).map
            (fun d => ⟨.array d.val, d.rangeErr, d.rest⟩) := rfl
  rw [h]
  split
  · rfl
  · split
    · rename_i heq
      simp [heq]
    · rename_i hne
      rw [if_neg]
      intro hh
      cases hs : skipSpace rest0 with
      | nil => rw [hs] at hh; cases hh
      | cons a t =>
        rw [hs] at hh
        simp only [List.head?_cons, Option.some.injEq] at hh
        subst hh
        exact hne t hs

theorem decodeValue_string (fuel depth : Nat) (rest0 : List UInt8) :
    decodeValue (fuel + 1) depth (34 :: rest0) =
      (scanString (rest0.length + 1) rest0).map
        (fun p => ⟨.string (String.mk p.1), false, p.2⟩) := rfl

theorem decodeValue_other (fuel depth : Nat) (c : UInt8) (rest0 : List UInt8)
    (h123 : c ≠ 123) (h91 : c ≠ 91) (h34 : c ≠ 34) :
    decodeValue (fuel + 1) depth (c :: rest0) =
      if c == 45 || (digitVal c).isSome then
        match scanNumber (c :: rest0) with
        | none => none
        | some (neg, ds, dexp, rest1) =>
          match roundFloat64 neg (digitsToNat ds) (ds.dropWhile (· == 0)).length dexp with
          | some f => some ⟨.number f, false, rest1⟩
          | none => some ⟨.null, true, rest1⟩
      else
        match c :: rest0 with
        | 116 :: 114 :: 117 :: 101 :: rest1 => some ⟨.bool true, false, rest1⟩
        | 102 :: 97 :: 108 :: 115 :: 101 :: rest1 => some ⟨.bool false, false, rest1⟩
        | 110 :: 117 :: 108 :: 108 :: rest1 => some ⟨.null, false, rest1⟩
        | _ => none := by
  have h : decodeValue (fuel + 1) depth (c :: rest0) =
      if c == 123 then
        if depth + 1 > maxNestingDepth then none
        else
          match skipSpace rest0 with
          | 125 :: rest1 => some ⟨.object [], false, rest1⟩
          | rest1 => (decodeMembers fuel (depth + 1) rest1 []).map
              (fun d => ⟨.object d.val, d.rangeErr, d.rest⟩)
      else if c == 91 then
        if depth + 1 > maxNestingDepth then none
        else
          match skipSpace rest0 with
          | 93 :: rest1 => some ⟨.array [], false, rest1⟩
          | rest1 => (decodeElements fuel (depth + 1) rest1).map
              (fun d => ⟨.array d.val, d.rangeErr, d.rest⟩)
      else if c == 34 then
        (scanString (rest0.length + 1) rest0).map
          (fun p => ⟨.string (String.mk p.1), false, p.2⟩)
      else if c == 45 || (digitVal c).isSome then
        match scanNumber (c :: rest0) with
        | none => none
        | some (neg, ds, dexp, rest1) =>
          match roundFloat64 neg (digitsToNat ds) (ds.dropWhile (· == 0)).length dexp with
          | some f => some ⟨.number f, false, rest1⟩
          | none => some ⟨.null, true, rest1⟩
      else
        match c :: rest0 with
        | 116 :: 114 :: 117 :: 101 :: rest1 => some ⟨.bool true, false, rest1⟩
        | 102 :: 97 :: 108 :: 115 :: 101 :: rest1 => some ⟨.bool false, false, rest1⟩
        | 110 :: 117 :: 108 :: 108 :: rest1 => some ⟨.null, false, rest1⟩
        | _ => none := rfl
  rw [h]
  have e1 : (c == 123) = false := by simp [h123]
  have e2 : (c == 91) = false := by simp [h91]
  have e3 : (c == 34) = false := by simp [h34]
  simp only [e1, e2, e3, Bool.false_eq_true, if_false]

theorem decodeElements_succ (fuel depth : Nat) (input : List UInt8) :
    decodeElements (fuel + 1) depth input =
      match decodeValue fuel depth input with
      | none => none
      | some d =>
        if (skipSpace d.rest).head? = some 93 then
          some ⟨[d.val], d.rangeErr, (skipSpace d.rest).tail⟩
        else if (skipSpace d.rest).head? = some 44 then
          (decodeElements fuel depth (skipSpace (skipSpace d.rest).tail)).map
            (fun t => ⟨d.val :: t.val, d.rangeErr || t.rangeErr, t.rest⟩)
        else none := by
  have h : decodeElements (fuel + 1) depth input =
      match decodeValue fuel depth input with
      | none => none
      | some d =>
        match skipSpace d.rest with
        | 93 :: rest1 => some ⟨[d.val], d.rangeErr, rest1⟩
        | 44 :: rest1 =>
          (decodeElements fuel depth (skipSpace rest1)).map
            (fun t => ⟨d.val :: t.val, d.rangeErr || t.rangeErr, t.rest⟩)
        | _ => none := rfl
  rw [h]
  cases decodeValue fuel depth input with
  | none => rfl
  | some d =>
    simp only []
    split
    · rename_i heq
      simp [heq]
    · rename_i heq
      simp [heq]
    · rename_i h93 h44
      cases hs : skipSpace d.rest with
      | nil => simp
      | cons a t =>
        have ha93 : a ≠ 93 := fun hh => h93 t (by rw [hs, hh])
        have ha44 : a ≠ 44 := fun hh => h44 t (by rw [hs, hh])
        simp [ha93, ha44]

theorem decodeMembers_succ (fuel depth : Nat) (rest : List UInt8)
    (acc : List (String × JValue)) :
    decodeMembers (fuel + 1) depth (34 :: rest) acc =
      match scanString (rest.length + 1) rest with
      | none => none
      | some (key, rest1) =>
        if (skipSpace rest1).head? = some 58 then
          match decodeValue fuel depth (skipSpace (skipSpace rest1).tail) with
          | none => none
          | some d =>
            if (skipSpace d.rest).head? = some 125 then
              some ⟨mapInsert (String.mk key) d.val acc, d.rangeErr, (skipSpace d.rest).tail⟩
            else if (skipSpace d.rest).head? = some 44 then
              (decodeMembers fuel depth (skipSpace (skipSpace d.rest).tail)
                (mapInsert (String.mk key) d.val acc)).map
                (fun t => ⟨t.val, d.rangeErr || t.rangeErr, t.rest⟩)
            else none
        else none := by
  have h : decodeMembers (fuel + 1) depth (34 :: rest) acc =
      match scanString (rest.length + 1) rest with
      | none => none
      | some (key, rest1) =>
        match skipSpace rest1 with
        | 58 :: rest2 =>
          match decodeValue fuel depth (skipSpace rest2) with
          | none => none
          | some d =>
            match skipSpace d.rest with
            | 125 :: rest3 => some ⟨mapInsert (String.mk key) d.val acc, d.rangeErr, rest3⟩
            | 44 :: rest3 =>
              (decodeMembers fuel depth (skipSpace rest3)
                (mapInsert (String.mk key) d.val acc)).map
                (fun t => ⟨t.val, d.rangeErr || t.rangeErr, t.rest⟩)
            | _ => none
        | _ => none := rfl
  rw [h]
  cases scanString (rest.length + 1) rest with
  | none => rfl
  | some p =>
    obtain ⟨key, rest1⟩ := p
    simp only []
    split
    · rename_i rest2 heq
      simp only [heq, List.head?_cons, if_true, List.tail_cons]
      cases decodeValue fuel depth (skipSpace rest2) with
      | none => rfl
      | some d =>
        simp only []
        split
        · rename_i heq2
          simp [heq2]
        · rename_i heq2
          simp [heq2]
        · rename_i h125 h44
          cases hs : skipSpace d.rest with
          | nil => simp
          | cons a t =>
            have ha1 : a ≠ 125 := fun hh => h125 t (by rw [hs, hh])
            have ha2 : a ≠ 44 := fun hh => h44 t (by rw [hs, hh])
            simp [ha1, ha2]
    · rename_i h58
      cases hs : skipSpace rest1 with
      | nil => simp
      | cons a t =>
        have ha : a ≠ 58 := fun hh => h58 t (by rw [hs, hh])
        simp [ha]

theorem decodeMembers_not_quote (fuel depth : Nat) (input : List UInt8)
    (acc : List (String × JValue)) (h : input.head? ≠ some 34) :
    decodeMembers (fuel + 1) depth input acc = none := by
  cases input with
  | nil => rfl
  | cons c t =>
    have hc : c ≠ 34 := fun hh => h (by rw [hh]; rfl)
    have h' : decodeMembers (fuel + 1) depth (c :: t) acc =
        match c :: t with
        | 34 :: rest =>
          match scanString (rest.length + 1) rest with
          | none => none
          | some (key, rest1) =>
            match skipSpace rest1 with
            | 58 :: rest2 =>
              match decodeValue fuel depth (skipSpace rest2) with
              | none => none
              | some d =>
                match skipSpace d.rest with
                | 125 :: rest3 =>
                  some ⟨mapInsert (String.mk key) d.val acc, d.rangeErr, rest3⟩
                | 44 :: rest3 =>
                  (decodeMembers fuel depth (skipSpace rest3)
                    (mapInsert (String.mk key) d.val acc)).map
                    (fun t => ⟨t.val, d.rangeErr || t.rangeErr, t.rest⟩)
                | _ => none
            | _ => none
        | _ => none := rfl
    rw [h']
    split
    · rename_i heq
      cases heq
      exact absurd rfl hc
    · rfl

theorem jsonToYaml_object (fuel : Nat) (rest0 : List UInt8) :
    jsonToYaml (fuel + 1) (123 :: rest0) =
      if (skipSpace rest0).head? = some 125 then some (.mapping .nil, (skipSpace rest0).tail)
      else (jsonToYamlEntries fuel (skipSpace rest0)).map (fun p => (.mapping p.1, p.2)) := by
  have h : jsonToYaml (fuel + 1) (123 :: rest0) =
      match skipSpace rest0 with
      | 125 :: rest1 => some (.mapping .nil, rest1)
      | rest1 => (jsonToYamlEntries fuel rest1).map (fun p => (.mapping p.1, p.2)) := rfl
  rw [h]
  split
  · rename_i heq
    simp [heq]
  · rename_i hne
    rw [if_neg]
    intro hh
    cases hs : skipSpace rest0 with
    | nil => rw [hs] at hh; cases hh
    | cons a t =>
      rw [hs] at hh
      simp only [List.head?_cons, Option.some.injEq] at hh
      subst hh
      exact hne t hs

theorem jsonToYaml_array (fuel : Nat) (rest0 : List UInt8) :
    jsonToYaml (fuel + 1) (91 :: rest0) =
      if (skipSpace rest0).head? = some 93 then some (.sequence .nil, (skipSpace rest0).tail)
      else (jsonToYamlItems fuel (skipSpace rest0)).map (fun p => (.sequence p.1, p.2)) := by
  have h : jsonToYaml (fuel + 1) (91 :: rest0) =
      match skipSpace rest0 with
      | 93 :: rest1 => some (.sequence .nil, rest1)
      | rest1 => (jsonToYamlItems fuel rest1).map (fun p => (.sequence p.1, p.2)) := rfl
  rw [h]
  split
  · rename_i heq
    simp [heq]
  · rename_i hne
    rw [if_neg]
    intro hh
    cases hs : skipSpace rest0 with
    | nil => rw [hs] at hh; cases hh
    | cons a t =>
      rw [hs] at hh
      simp only [List.head?_cons, Option.some.injEq] at hh
      subst hh
      exact hne t hs

theorem jsonToYaml_string (fuel : Nat) (rest0 : List UInt8) :
    jsonToYaml (fuel + 1) (34 :: rest0) =
      (scanString (rest0.length + 1) rest0).map
        (fun p => (.scalar "!!str" (String.mk p.1), p.2)) := rfl

theorem jsonToYaml_other (fuel : Nat) (c : UInt8) (rest0 : List UInt8)
    (h123 : c ≠ 123) (h91 : c ≠ 91) (h34 : c ≠ 34) :
    jsonToYaml (fuel + 1) (c :: rest0) =
      if c == 45 || (digitVal c).isSome then
        match scanNumber (c :: rest0) with
        | none => none
        | some (_, _, _, rest1) =>
          some (.scalar
            (if isFloatLiteral ((c :: rest0).take ((c :: rest0).length - rest1.length))
              then "!!float" else "!!int")
            (textOf ((c :: rest0).take ((c :: rest0).length - rest1.length))), rest1)
      else
        match c :: rest0 with
        | 116 :: 114 :: 117 :: 101 :: rest1 => some (.scalar "!!bool" "true", rest1)
        | 102 :: 97 :: 108 :: 115 :: 101 :: rest1 => some (.scalar "!!bool" "false", rest1)
        | 110 :: 117 :: 108 :: 108 :: rest1 => some (.scalar "!!null" "null", rest1)
        | _ => none := by
  have h : jsonToYaml (fuel + 1) (c :: rest0) =
      if c == 123 then
        match skipSpace rest0 with
        | 125 :: rest1 => some (.mapping .nil, rest1)
        | rest1 => (jsonToYamlEntries fuel rest1).map (fun p => (.mapping p.1, p.2))
      else if c == 91 then
        match skipSpace rest0 with
        | 93 :: rest1 => some (.sequence .nil, rest1)
        | rest1 => (jsonToYamlItems fuel rest1).map (fun p => (.sequence p.1, p.2))
      else if c == 34 then
        (scanString (rest0.length + 1) rest0).map
          (fun p => (.scalar "!!str" (String.mk p.1), p.2))
      else if c == 45 || (digitVal c).isSome then
        match scanNumber (c :: rest0) with
        | none => none
        | some (_, _, _, rest1) =>
          some (.scalar
            (if isFloatLiteral ((c :: rest0).take ((c :: rest0).length - rest1.length))
              then "!!float" else "!!int")
            (textOf ((c :: rest0).take ((c :: rest0).length - rest1.length))), rest1)
      else
        match c :: rest0 with
        | 116 :: 114 :: 117 :: 101 :: rest1 => some (.scalar "!!bool" "true", rest1)
        | 102 :: 97 :: 108 :: 115 :: 101 :: rest1 => some (.scalar "!!bool" "false", rest1)
        | 110 :: 117 :: 108 :: 108 :: rest1 => some (.scalar "!!null" "null", rest1)
        | _ => none := rfl
  rw [h]
  have e1 : (c == 123) = false := by simp [h123]
  have e2 : (c == 91) = false := by simp [h91]
  have e3 : (c == 34) = false := by simp [h34]
  simp only [e1, e2, e3, Bool.false_eq_true, if_false]

theorem jsonToYamlItems_succ (fuel : Nat) (input : List UInt8) :
    jsonToYamlItems (fuel + 1) input =
      match jsonToYaml fuel input with
      | none => none
      | some (node, rest) =>
        if (skipSpace rest).head? = some 93 then some (.cons node .nil, (skipSpace rest).tail)
        else if (skipSpace rest).head? = some 44 then
          (jsonToYamlItems fuel (skipSpace (skipSpace rest).tail)).map
            (fun t => (.cons node t.1, t.2))
        else none := by
  have h : jsonToYamlItems (fuel + 1) input =
      match jsonToYaml fuel input with
      | none => none
      | some (node, rest) =>
        match skipSpace rest with
        | 93 :: rest1 => some (.cons node .nil, rest1)
        | 44 :: rest1 =>
          (jsonToYamlItems fuel (skipSpace rest1)).map (fun t => (.cons node t.1, t.2))
        | _ => none := rfl
  rw [h]
  cases jsonToYaml fuel input with
  | none => rfl
  | some p =>
    obtain ⟨node, rest⟩ := p
    simp only []
    split
    · rename_i heq
      simp [heq]
    · rename_i heq
      simp [heq]
    · rename_i h93 h44
      cases hs : skipSpace rest with
      | nil => simp
      | cons a t =>
        have ha93 : a ≠ 93 := fun hh => h93 t (by rw [hs, hh])
        have ha44 : a ≠ 44 := fun hh => h44 t (by rw [hs, hh])
        simp [ha93, ha44]

theorem jsonToYamlEntries_succ (fuel : Nat) (rest : List UInt8) :
    jsonToYamlEntries (fuel + 1) (34 :: rest) =
      match scanString (rest.length + 1) rest with
      | none => none
      | some (key, rest1) =>
        if (skipSpace rest1).head? = some 58 then
          match jsonToYaml fuel (skipSpace (skipSpace rest1).tail) with
          | none => none
          | some (node, rest3) =>
            if (skipSpace rest3).head? = some 125 then
              some (.cons (String.mk key) node .nil, (skipSpace rest3).tail)
            else if (skipSpace rest3).head? = some 44 then
              (jsonToYamlEntries fuel (skipSpace (skipSpace rest3).tail)).map
                (fun t => (.cons (String.mk key) node t.1, t.2))
            else none
        else none := by
  have h : jsonToYamlEntries (fuel + 1) (34 :: rest) =
      match scanString (rest.length + 1) rest with
      | none => none
      | some (key, rest1) =>
        match skipSpace rest1 with
        | 58 :: rest2 =>
          match jsonToYaml fuel (skipSpace rest2) with
          | none => none
          | some (node, rest3) =>
            match skipSpace rest3 with
            | 125 :: rest4 => some (.cons (String.mk key) node .nil, rest4)
            | 44 :: rest4 =>
              (jsonToYamlEntries fuel (skipSpace rest4)).map
                (fun t => (.cons (String.mk key) node t.1, t.2))
            | _ => none
        | _ => none := rfl
  rw [h]
  cases scanString (rest.length + 1) rest with
  | none => rfl
  | some p =>
    obtain ⟨key, rest1⟩ := p
    simp only []
    split
    · rename_i rest2 heq
      simp only [heq, List.head?_cons, if_true, List.tail_cons]
      cases jsonToYaml fuel (skipSpace rest2) with
      | none => rfl
      | some q =>
        obtain ⟨node, rest3⟩ := q
        simp only []
        split
        · rename_i heq2
          simp [heq2]
        · rename_i heq2
          simp [heq2]
        · rename_i h125 h44
          cases hs : skipSpace rest3 with
          | nil => simp
          | cons a t =>
            have ha1 : a ≠ 125 := fun hh => h125 t (by rw [hs, hh])
            have ha2 : a ≠ 44 := fun hh => h44 t (by rw [hs, hh])
            simp [ha1, ha2]
    · rename_i h58
      cases hs : skipSpace rest1 with
      | nil => simp
      | cons a t =>
        have ha : a ≠ 58 := fun hh => h58 t (by rw [hs, hh])
        simp [ha]

theorem skipSpace_append_of_cons (out : List UInt8) (x : List UInt8)
    (h : ∃ c t, out = c :: t ∧ isSpace c = false ∧ c ≠ 93) :
    skipSpace (out ++ x) = out ++ x ∧ (out ++ x).head? ≠ some 93 := by
  obtain ⟨c, t, hct, hs, h93⟩ := h
  subst hct
  refine ⟨skipSpace_cons_of_not_space c (t ++ x) hs, ?_⟩
  simp [h93]

theorem digit_not_special (c : UInt8) (h : (c == 45 || (digitVal c).isSome) = true) :
    isSpace c = false ∧ c ≠ 93 := by
  by_cases h45 : c = 45
  · subst h45
    exact ⟨by decide, by decide⟩
  · have hd : (digitVal c).isSome = true := by simpa [h45] using h
    have hr : 48 ≤ c.toNat ∧ c.toNat ≤ 57 := by
      unfold digitVal at hd
      by_cases hh : 48 ≤ c.toNat ∧ c.toNat ≤ 57
      · exact hh
      · rw [if_neg hh] at hd
        cases hd
    refine ⟨?_, ?_⟩
    · unfold isSpace
      rw [uint8_beq_false c 32 (by show c.toNat ≠ 32; omega),
        uint8_beq_false c 9 (by show c.toNat ≠ 9; omega),
        uint8_beq_false c 13 (by show c.toNat ≠ 13; omega),
        uint8_beq_false c 10 (by show c.toNat ≠ 10; omega)]
      rfl
    · intro hh
      subst hh
      revert hr
      decide

theorem yamlToJSON_number (tag : String) (lit : List UInt8) (neg : Bool) (ds : List Nat)
    (dexp : Int) (htag : tag = "!!float" ∨ tag = "!!int")
    (h : scanNumber lit = some (neg, ds, dexp, [])) :
    yamlToJSON (.scalar tag (textOf lit)) = some lit := by
  have hnum := isJSONNumber_textOf lit neg ds dexp h
  have hb := bytesOf_textOf lit
  rcases htag with ht | ht <;> subst ht
  · show (if "!!float" = "!!null" then some (bytesOf "null")
      else if "!!float" = "!!bool" then
        (if textOf lit = "true" ∨ textOf lit = "false" then some (bytesOf (textOf lit)) else none)
      else if "!!float" = "!!int" ∨ "!!float" = "!!float" then
        (if isJSONNumber (textOf lit) then some (bytesOf (textOf lit)) else none)
      else if "!!float" = "!!str" then some (jsonQuote (textOf lit))
      else none) = some lit
    rw [if_neg (by decide), if_neg (by decide), if_pos (by decide), hnum, hb]
    rfl
  · show (if "!!int" = "!!null" then some (bytesOf "null")
      else if "!!int" = "!!bool" then
        (if textOf lit = "true" ∨ textOf lit = "false" then some (bytesOf (textOf lit)) else none)
      else if "!!int" = "!!int" ∨ "!!int" = "!!float" then
        (if isJSONNumber (textOf lit) then some (bytesOf (textOf lit)) else none)
      else if "!!int" = "!!str" then some (jsonQuote (textOf lit))
      else none) = some lit
    rw [if_neg (by decide), if_neg (by decide), if_pos (by decide), hnum, hb]
    rfl

theorem roundTrip_object (fuel : Nat) (hM : RoundTripMembers fuel) (depth : Nat)
    (rest0 : List UInt8) (d : Decoded JValue)
    (h : decodeValue (fuel + 1) depth (123 :: rest0) = some d) :
    ∃ node out, jsonToYaml (fuel + 1) (123 :: rest0) = some (node, d.rest) ∧
      yamlToJSON node = some out ∧
      (∃ c t, out = c :: t ∧ isSpace c = false ∧ c ≠ 93) ∧
      ∀ (f : Nat) (rest : List UInt8), out.length + 1 ≤ f → endsValue rest = true →
        decodeValue f depth (out ++ rest) = some ⟨d.val, d.rangeErr, rest⟩ := by
  rw [decodeValue_object] at h
  by_cases hdepth : depth + 1 > maxNestingDepth
  · rw [if_pos hdepth] at h
    cases h
  rw [if_neg hdepth] at h
  by_cases hempty : (skipSpace rest0).head? = some 125
  · rw [if_pos hempty] at h
    simp only [Option.some.injEq] at h
    subst h
    refine ⟨.mapping .nil, [123, 125], ?_, rfl, ⟨123, [125], rfl, by decide, by decide⟩, ?_⟩
    · rw [jsonToYaml_object, if_pos hempty]
    · intro f rest hf _
      obtain ⟨f', rfl⟩ : ∃ f', f = f' + 1 := ⟨f - 1, by simp at hf; omega⟩
      show decodeValue (f' + 1) depth (123 :: 125 :: rest) = _
      rw [decodeValue_object, if_neg hdepth,
        skipSpace_cons_of_not_space 125 rest (by decide)]
      rfl
  · rw [if_neg hempty] at h
    obtain ⟨dm, hdm, hd⟩ := Option.map_eq_some'.1 h
    subst hd
    obtain ⟨key, node, entries, eout, hj, hy, ⟨t, ht⟩, hre⟩ := hM _ _ _ dm hdm
    refine ⟨.mapping (.cons key node entries), 123 :: (eout ++ [125]), ?_, ?_,
      ⟨123, eout ++ [125], rfl, by decide, by decide⟩, ?_⟩
    · rw [jsonToYaml_object, if_neg hempty, hj]
      rfl
    · show (yamlEntriesToJSON (.cons key node entries)).map
        (fun bs => 123 :: (bs ++ [125])) = _
      rw [hy]
      rfl
    · intro f rest hf _
      obtain ⟨f', rfl⟩ : ∃ f', f = f' + 1 := ⟨f - 1, by simp at hf; omega⟩
      have hshape : (123 :: (eout ++ [125])) ++ rest = 123 :: (eout ++ 125 :: rest) := by
        simp
      rw [hshape, decodeValue_object, if_neg hdepth]
      have hsk : skipSpace (eout ++ 125 :: rest) = eout ++ 125 :: rest := by
        rw [ht]
        exact skipSpace_cons_of_not_space 34 _ (by decide)
      have hhd : (eout ++ 125 :: rest).head? ≠ some 125 := by
        rw [ht]
        simp
      rw [hsk, if_neg hhd, hre f' rest (by simp at hf; omega)]
      rfl

theorem roundTrip_array (fuel : Nat) (hE : RoundTripElements fuel) (depth : Nat)
    (rest0 : List UInt8) (d : Decoded JValue)
    (h : decodeValue (fuel + 1) depth (91 :: rest0) = some d) :
    ∃ node out, jsonToYaml (fuel + 1) (91 :: rest0) = some (node, d.rest) ∧
      yamlToJSON node = some out ∧
      (∃ c t, out = c :: t ∧ isSpace c = false ∧ c ≠ 93) ∧
      ∀ (f : Nat) (rest : List UInt8), out.length + 1 ≤ f → endsValue rest = true →
        decodeValue f depth (out ++ rest) = some ⟨d.val, d.rangeErr, rest⟩ := by
  rw [decodeValue_array] at h
  by_cases hdepth : depth + 1 > maxNestingDepth
  · rw [if_pos hdepth] at h
    cases h
  rw [if_neg hdepth] at h
  by_cases hempty : (skipSpace rest0).head? = some 93
  · rw [if_pos hempty] at h
    simp only [Option.some.injEq] at h
    subst h
    refine ⟨.sequence .nil, [91, 93], ?_, rfl, ⟨91, [93], rfl, by decide, by decide⟩, ?_⟩
    · rw [jsonToYaml_array, if_pos hempty]
    · intro f rest hf _
      obtain ⟨f', rfl⟩ : ∃ f', f = f' + 1 := ⟨f - 1, by simp at hf; omega⟩
      show decodeValue (f' + 1) depth (91 :: 93 :: rest) = _
      rw [decodeValue_array, if_neg hdepth,
        skipSpace_cons_of_not_space 93 rest (by decide)]
      rfl
  · rw [if_neg hempty] at h
    obtain ⟨de, hde, hd⟩ := Option.map_eq_some'.1 h
    subst hd
    obtain ⟨node, items, eout, hj, hy, hfirst, hre⟩ := hE _ _ de hde
    refine ⟨.sequence (.cons node items), 91 :: (eout ++ [93]), ?_, ?_,
      ⟨91, eout ++ [93], rfl, by decide, by decide⟩, ?_⟩
    · rw [jsonToYaml_array, if_neg hempty, hj]
      rfl
    · show (yamlItemsToJSON (.cons node items)).map (fun bs => 91 :: (bs ++ [93])) = _
      rw [hy]
      rfl
    · intro f rest hf _
      obtain ⟨f', rfl⟩ : ∃ f', f = f' + 1 := ⟨f - 1, by simp at hf; omega⟩
      have hshape : (91 :: (eout ++ [93])) ++ rest = 91 :: (eout ++ 93 :: rest) := by
        simp
      obtain ⟨hsk, hhd⟩ := skipSpace_append_of_cons eout (93 :: rest) hfirst
      rw [hshape, decodeValue_array, if_neg hdepth, hsk, if_neg hhd,
        hre f' rest (by simp at hf; omega)]
      rfl

theorem roundTrip_string (fuel : Nat) (depth : Nat)
    (rest0 : List UInt8) (d : Decoded JValue)
    (h : decodeValue (fuel + 1) depth (34 :: rest0) = some d) :
    ∃ node out, jsonToYaml (fuel + 1) (34 :: rest0) = some (node, d.rest) ∧
      yamlToJSON node = some out ∧
      (∃ c t, out = c :: t ∧ isSpace c = false ∧ c ≠ 93) ∧
      ∀ (f : Nat) (rest : List UInt8), out.length + 1 ≤ f → endsValue rest = true →
        decodeValue f depth (out ++ rest) = some ⟨d.val, d.rangeErr, rest⟩ := by
  rw [decodeValue_string] at h
  obtain ⟨p, hp, hd⟩ := Option.map_eq_some'.1 h
  obtain ⟨chars, rest1⟩ := p
  subst hd
  refine ⟨.scalar "!!str" (String.mk chars), jsonQuote (String.mk chars), ?_, rfl,
    ⟨34, _, rfl, by decide, by decide⟩, ?_⟩
  · rw [jsonToYaml_string, hp]
    rfl
  · intro f rest hf _
    obtain ⟨f', rfl⟩ : ∃ f', f = f' + 1 := ⟨f - 1, by omega⟩
    obtain ⟨body, hshape, _, hscan⟩ := scanString_jsonQuote (String.mk chars) rest
    rw [hshape, decodeValue_string, hscan rest]
    rfl

theorem roundTrip_number (fuel : Nat) (depth : Nat) (c : UInt8)
    (rest0 : List UInt8) (d : Decoded JValue)
    (h123 : c ≠ 123) (h91 : c ≠ 91) (h34 : c ≠ 34)
    (hnum : (c == 45 || (digitVal c).isSome) = true)
    (h : decodeValue (fuel + 1) depth (c :: rest0) = some d) :
    ∃ node out, jsonToYaml (fuel + 1) (c :: rest0) = some (node, d.rest) ∧
      yamlToJSON node = some out ∧
      (∃ c t, out = c :: t ∧ isSpace c = false ∧ c ≠ 93) ∧
      ∀ (f : Nat) (rest : List UInt8), out.length + 1 ≤ f → endsValue rest = true →
        decodeValue f depth (out ++ rest) = some ⟨d.val, d.rangeErr, rest⟩ := by
  rw [decodeValue_other fuel depth c rest0 h123 h91 h34, if_pos hnum] at h
  cases hs : scanNumber (c :: rest0) with
  | none => rw [hs] at h; cases h
  | some q =>
    obtain ⟨neg, ds, dexp, rest1⟩ := q
    rw [hs] at h
    simp only [] at h
    obtain ⟨lit, hlit, hne, hlit'⟩ := scanNumber_append _ neg ds dexp rest1 hs
    have htake : (c :: rest0).take ((c :: rest0).length - rest1.length) = lit := by
      rw [hlit]
      exact take_of_append lit rest1
    have hrest : d.rest = rest1 := by
      cases hr : roundFloat64 neg (digitsToNat ds) (ds.dropWhile (· == 0)).length dexp with
      | none => rw [hr] at h; simp only [Option.some.injEq] at h; rw [← h]
      | some fl => rw [hr] at h; simp only [Option.some.injEq] at h; rw [← h]
    obtain ⟨lt, hlt⟩ : ∃ lt, lit = c :: lt := by
      cases lit with
      | nil => exact absurd rfl hne
      | cons a lt =>
        simp only [List.cons_append, List.cons.injEq] at hlit
        exact ⟨lt, by rw [hlit.1]⟩
    have hscan0 : scanNumber lit = some (neg, ds, dexp, []) := by
      have := hlit' [] rfl
      rwa [List.append_nil] at this
    refine ⟨.scalar (if isFloatLiteral lit then "!!float" else "!!int") (textOf lit), lit,
      ?_, ?_, ?_, ?_⟩
    · rw [jsonToYaml_other fuel c rest0 h123 h91 h34, if_pos hnum, hs]
      simp only []
      rw [htake, hrest]
    · apply yamlToJSON_number _ lit neg ds dexp _ hscan0
      split
      · exact Or.inl rfl
      · exact Or.inr rfl
    · obtain ⟨hsp, h93⟩ := digit_not_special c hnum
      exact ⟨c, lt, hlt, hsp, h93⟩
    · intro f rest hf hend
      obtain ⟨f', rfl⟩ : ∃ f', f = f' + 1 := ⟨f - 1, by omega⟩
      have hsc := hlit' rest hend
      rw [hlt] at hsc ⊢
      rw [List.cons_append] at hsc ⊢
      rw [decodeValue_other f' depth c (lt ++ rest) h123 h91 h34, if_pos hnum, hsc]
      simp only []
      cases hr : roundFloat64 neg (digitsToNat ds) (ds.dropWhile (· == 0)).length dexp with
      | none => rw [hr] at h; simp only [Option.some.injEq] at h; rw [← h]
      | some fl => rw [hr] at h; simp only [Option.some.injEq] at h; rw [← h]

theorem roundTrip_literal (fuel : Nat) (depth : Nat) (c : UInt8)
    (rest0 : List UInt8) (d : Decoded JValue)
    (h123 : c ≠ 123) (h91 : c ≠ 91) (h34 : c ≠ 34)
    (hnum : ¬ (c == 45 || (digitVal c).isSome) = true)
    (h : decodeValue (fuel + 1) depth (c :: rest0) = some d) :
    ∃ node out, jsonToYaml (fuel + 1) (c :: rest0) = some (node, d.rest) ∧
      yamlToJSON node = some out ∧
      (∃ c t, out = c :: t ∧ isSpace c = false ∧ c ≠ 93) ∧
      ∀ (f : Nat) (rest : List UInt8), out.length + 1 ≤ f → endsValue rest = true →
        decodeValue f depth (out ++ rest) = some ⟨d.val, d.rangeErr, rest⟩ := by
  rw [decodeValue_other fuel depth c rest0 h123 h91 h34, if_neg hnum] at h
  split at h
  · rename_i rest1 heq
    simp only [List.cons.injEq] at heq
    obtain ⟨hc, hr⟩ := heq
    subst hc hr
    simp only [Option.some.injEq] at h
    subst h
    refine ⟨.scalar "!!bool" "true", [116, 114, 117, 101], rfl, rfl,
      ⟨116, _, rfl, by decide, by decide⟩, ?_⟩
    intro f rest hf _
    obtain ⟨f', rfl⟩ : ∃ f', f = f' + 1 := ⟨f - 1, by omega⟩
    rfl
  · rename_i rest1 heq
    simp only [List.cons.injEq] at heq
    obtain ⟨hc, hr⟩ := heq
    subst hc hr
    simp only [Option.some.injEq] at h
    subst h
    refine ⟨.scalar "!!bool" "false", [102, 97, 108, 115, 101], rfl, rfl,
      ⟨102, _, rfl, by decide, by decide⟩, ?_⟩
    intro f rest hf _
    obtain ⟨f', rfl⟩ : ∃ f', f = f' + 1 := ⟨f - 1, by omega⟩
    rfl
  · rename_i rest1 heq
    simp only [List.cons.injEq] at heq
    obtain ⟨hc, hr⟩ := heq
    subst hc hr
    simp only [Option.some.injEq] at h
    subst h
    refine ⟨.scalar "!!null" "null", [110, 117, 108, 108], rfl, rfl,
      ⟨110, _, rfl, by decide, by decide⟩, ?_⟩
    intro f rest hf _
    obtain ⟨f', rfl⟩ : ∃ f', f = f' + 1 := ⟨f - 1, by omega⟩
    rfl
  · cases h

theorem roundTrip_value_step (fuel : Nat) (hE : RoundTripElements fuel)
    (hM : RoundTripMembers fuel) : RoundTripValue (fuel + 1) := by
  intro depth input d h
  cases input with
  | nil => cases h
  | cons c rest0 =>
    by_cases h123 : c = 123
    · subst h123
      exact roundTrip_object fuel hM depth rest0 d h
    by_cases h91 : c = 91
    · subst h91
      exact roundTrip_array fuel hE depth rest0 d h
    by_cases h34 : c = 34
    · subst h34
      exact roundTrip_string fuel depth rest0 d h
    by_cases hnum : (c == 45 || (digitVal c).isSome) = true
    · exact roundTrip_number fuel depth c rest0 d h123 h91 h34 hnum h
    · exact roundTrip_literal fuel depth c rest0 d h123 h91 h34 hnum h

theorem yamlItemsToJSON_cons_cons (a b : YamlNode) (t : YamlNodes) :
    yamlItemsToJSON (.cons a (.cons b t)) =
      match yamlToJSON a, yamlItemsToJSON (.cons b t) with
      | some x, some y => some (x ++ 44 :: y)
      | _, _ => none := by
  rw [yamlItemsToJSON]
  intro h
  cases h

theorem yamlEntriesToJSON_cons_cons (k : String) (a : YamlNode) (k2 : String) (b : YamlNode)
    (t : YamlEntries) :
    yamlEntriesToJSON (.cons k a (.cons k2 b t)) =
      match yamlToJSON a, yamlEntriesToJSON (.cons k2 b t) with
      | some x, some y => some (jsonQuote k ++ 58 :: x ++ 44 :: y)
      | _, _ => none := by
  rw [yamlEntriesToJSON]
  intro h
  cases h

theorem roundTrip_elements_step (fuel : Nat) (hV : RoundTripValue fuel)
    (hE : RoundTripElements fuel) : RoundTripElements (fuel + 1) := by
  intro depth input d h
  rw [decodeElements_succ] at h
  cases hv : decodeValue fuel depth input with
  | none => rw [hv] at h; cases h
  | some dv =>
    rw [hv] at h
    simp only [] at h
    obtain ⟨node, vout, hj, hy, hfirst, hre⟩ := hV depth input dv hv
    by_cases h93 : (skipSpace dv.rest).head? = some 93
    · rw [if_pos h93] at h
      simp only [Option.some.injEq] at h
      subst h
      refine ⟨node, .nil, vout, ?_, hy, hfirst, ?_⟩
      · rw [jsonToYamlItems_succ, hj]
        simp only []
        rw [if_pos h93]
      · intro f rest hf
        obtain ⟨f', rfl⟩ : ∃ f', f = f' + 1 := ⟨f - 1, by omega⟩
        rw [decodeElements_succ, hre f' (93 :: rest) (by omega) rfl]
        simp only []
        rw [skipSpace_cons_of_not_space 93 rest (by decide)]
        rfl
    · rw [if_neg h93] at h
      by_cases h44 : (skipSpace dv.rest).head? = some 44
      · rw [if_pos h44] at h
        obtain ⟨dt, hdt, hd⟩ := Option.map_eq_some'.1 h
        subst hd
        obtain ⟨node2, items2, tout, hj2, hy2, hfirst2, hre2⟩ := hE depth _ dt hdt
        refine ⟨node, .cons node2 items2, vout ++ 44 :: tout, ?_, ?_, ?_, ?_⟩
        · rw [jsonToYamlItems_succ, hj]
          simp only []
          rw [if_neg h93, if_pos h44, hj2]
          rfl
        · rw [yamlItemsToJSON_cons_cons, hy, hy2]
        · obtain ⟨c, t, hct, hs, hc⟩ := hfirst
          exact ⟨c, t ++ 44 :: tout, by rw [hct]; rfl, hs, hc⟩
        · intro f rest hf
          obtain ⟨f', rfl⟩ : ∃ f', f = f' + 1 := ⟨f - 1, by omega⟩
          have hlen : (vout ++ 44 :: tout).length = vout.length + tout.length + 1 := by
            simp
            omega
          have hshape : (vout ++ 44 :: tout) ++ 93 :: rest
              = vout ++ 44 :: (tout ++ 93 :: rest) := by simp
          obtain ⟨hsk, _⟩ := skipSpace_append_of_cons tout (93 :: rest) hfirst2
          rw [hshape, decodeElements_succ, hre f' (44 :: (tout ++ 93 :: rest)) (by omega) rfl]
          simp only []
          rw [skipSpace_cons_of_not_space 44 _ (by decide)]
          simp only [List.head?_cons, List.tail_cons]
          rw [if_pos trivial, hsk, hre2 f' rest (by omega)]
          rfl
      · rw [if_neg h44] at h
        cases h

theorem roundTrip_members_step (fuel : Nat) (hV : RoundTripValue fuel)
    (hM : RoundTripMembers fuel) : RoundTripMembers (fuel + 1) := by
  intro depth input acc d h
  by_cases hq : input.head? = some 34
  swap
  · rw [decodeMembers_not_quote fuel depth input acc hq] at h
    cases h
  obtain ⟨rest0, rfl⟩ : ∃ rest0, input = 34 :: rest0 := by
    cases input with
    | nil => cases hq
    | cons a t =>
      simp only [List.head?_cons, Option.some.injEq] at hq
      exact ⟨t, by rw [hq]⟩
  rw [decodeMembers_succ] at h
  cases hs : scanString (rest0.length + 1) rest0 with
  | none => rw [hs] at h; cases h
  | some p =>
    obtain ⟨chars, rest1⟩ := p
    rw [hs] at h
    simp only [] at h
    by_cases h58 : (skipSpace rest1).head? = some 58
    swap
    · rw [if_neg h58] at h
      cases h
    rw [if_pos h58] at h
    cases hv : decodeValue fuel depth (skipSpace (skipSpace rest1).tail) with
    | none => rw [hv] at h; cases h
    | some dv =>
      rw [hv] at h
      simp only [] at h
      obtain ⟨node, vout, hj, hy, hfirst, hre⟩ := hV depth _ dv hv
      obtain ⟨body, hshape, hqlen, hscan⟩ := scanString_jsonQuote (String.mk chars) []
      have hquote : jsonQuote (String.mk chars) = 34 :: (body ++ [34]) := by
        rw [← List.append_nil (jsonQuote (String.mk chars)), hshape]
      have hscan' : ∀ more : List UInt8,
          scanString ((body ++ 34 :: more).length + 1) (body ++ 34 :: more)
            = some (chars, more) := hscan
      by_cases h125 : (skipSpace dv.rest).head? = some 125
      · rw [if_pos h125] at h
        simp only [Option.some.injEq] at h
        subst h
        refine ⟨String.mk chars, node, .nil, jsonQuote (String.mk chars) ++ 58 :: vout,
          ?_, ?_, ?_, ?_⟩
        · rw [jsonToYamlEntries_succ, hs]
          simp only []
          rw [if_pos h58, hj]
          simp only []
          rw [if_pos h125]
        · show (yamlToJSON node).map (fun a => jsonQuote (String.mk chars) ++ 58 :: a) = _
          rw [hy]
          rfl
        · exact ⟨body ++ [34] ++ 58 :: vout, by rw [hquote]; simp⟩
        · intro f rest hf
          obtain ⟨f', rfl⟩ : ∃ f', f = f' + 1 := ⟨f - 1, by omega⟩
          have hlen : (jsonQuote (String.mk chars) ++ 58 :: vout).length
              = body.length + vout.length + 3 := by
            rw [hquote]
            simp
            omega
          have hsh : (jsonQuote (String.mk chars) ++ 58 :: vout) ++ 125 :: rest
              = 34 :: (body ++ 34 :: (58 :: (vout ++ 125 :: rest))) := by
            rw [hquote]
            simp
          obtain ⟨hsk, _⟩ := skipSpace_append_of_cons vout (125 :: rest) hfirst
          rw [hsh, decodeMembers_succ, hscan' (58 :: (vout ++ 125 :: rest))]
          simp only []
          rw [skipSpace_cons_of_not_space 58 _ (by decide)]
          simp only [List.head?_cons, List.tail_cons]
          rw [if_pos trivial, hsk, hre f' (125 :: rest) (by omega) rfl]
          simp only []
          rw [skipSpace_cons_of_not_space 125 _ (by decide)]
          rfl
      · rw [if_neg h125] at h
        by_cases h44 : (skipSpace dv.rest).head? = some 44
        swap
        · rw [if_neg h44] at h
          cases h
        rw [if_pos h44] at h
        obtain ⟨dt, hdt, hd⟩ := Option.map_eq_some'.1 h
        subst hd
        obtain ⟨key2, node2, entries2, tout, hj2, hy2, ⟨tt, htt⟩, hre2⟩ := hM depth _ _ dt hdt
        refine ⟨String.mk chars, node, .cons key2 node2 entries2,
          jsonQuote (String.mk chars) ++ 58 :: vout ++ 44 :: tout, ?_, ?_, ?_, ?_⟩
        · rw [jsonToYamlEntries_succ, hs]
          simp only []
          rw [if_pos h58, hj]
          simp only []
          rw [if_neg h125, if_pos h44, hj2]
          rfl
        · rw [yamlEntriesToJSON_cons_cons, hy, hy2]
        · exact ⟨body ++ [34] ++ 58 :: vout ++ 44 :: tout, by rw [hquote]; simp⟩
        · intro f rest hf
          obtain ⟨f', rfl⟩ : ∃ f', f = f' + 1 := ⟨f - 1, by omega⟩
          have hlen : (jsonQuote (String.mk chars) ++ 58 :: vout ++ 44 :: tout).length
              = body.length + vout.length + tout.length + 4 := by
            rw [hquote]
            simp
            omega
          have hsh : (jsonQuote (String.mk chars) ++ 58 :: vout ++ 44 :: tout) ++ 125 :: rest
              = 34 :: (body ++ 34 :: (58 :: (vout ++ 44 :: (tout ++ 125 :: rest)))) := by
            rw [hquote]
            simp
          obtain ⟨hsk, _⟩ := skipSpace_append_of_cons vout (44 :: (tout ++ 125 :: rest)) hfirst
          have hsk2 : skipSpace (tout ++ 125 :: rest) = tout ++ 125 :: rest := by
            rw [htt]
            exact skipSpace_cons_of_not_space 34 _ (by decide)
          rw [hsh, decodeMembers_succ, hscan' (58 :: (vout ++ 44 :: (tout ++ 125 :: rest)))]
          simp only []
          rw [skipSpace_cons_of_not_space 58 _ (by decide)]
          simp only [List.head?_cons, List.tail_cons]
          rw [if_pos trivial, hsk, hre f' (44 :: (tout ++ 125 :: rest)) (by omega) rfl]
          simp only []
          rw [skipSpace_cons_of_not_space 44 _ (by decide)]
          simp only [List.head?_cons, List.tail_cons]
          rw [if_neg (by decide), if_pos trivial, hsk2, hre2 f' rest (by omega)]
          rfl

theorem roundTrip_all (fuel : Nat) :
    RoundTripValue fuel ∧ RoundTripElements fuel ∧ RoundTripMembers fuel := by
  induction fuel with
  | zero =>
    refine ⟨?_, ?_, ?_⟩
    · intro depth input d h
      cases h
    · intro depth input d h
      cases h
    · intro depth input acc d h
      cases h
  | succ n ih =>
    obtain ⟨hV, hE, hM⟩ := ih
    exact ⟨roundTrip_value_step n hE hM, roundTrip_elements_step n hV hE,
      roundTrip_members_step n hV hM⟩

/-- What `jsonDecode` returning a value says about the steps it took. -/
theorem jsonDecode_ok (data : List UInt8) (v : JValue) (h : jsonDecode data = .ok v) :
    ∃ a t d, skipSpace data = a :: t ∧
      decodeValue (2 * (a :: t).length + 2) 0 (a :: t) = some d ∧
      skipSpace d.rest = [] ∧ d.rangeErr = false ∧ d.val = v := by
  unfold jsonDecode at h
  cases hs : skipSpace data with
  | nil => rw [hs] at h; cases h
  | cons a t =>
    rw [hs] at h
    simp only [] at h
    cases hd : decodeValue (2 * (a :: t).length + 2) 0 (a :: t) with
    | none => rw [hd] at h; cases h
    | some d =>
      rw [hd] at h
      simp only [] at h
      cases hr : skipSpace d.rest with
      | cons b u => rw [hr] at h; cases h
      | nil =>
        rw [hr] at h
        simp only [] at h
        cases hre : d.rangeErr with
        | true => rw [hre] at h; cases h
        | false =>
          rw [hre] at h
          simp only [Bool.false_eq_true, if_false, JSONResult.ok.injEq] at h
          exact ⟨a, t, d, rfl, hd, hr, hre, h⟩

/-- The steps that make `jsonDecode` return a value. -/
theorem jsonDecode_of_steps (out : List UInt8) (v : JValue)
    (hfirst : ∃ c t, out = c :: t ∧ isSpace c = false ∧ c ≠ 93)
    (hd : decodeValue (2 * out.length + 2) 0 out = some ⟨v, false, []⟩) :
    jsonDecode out = .ok v := by
  obtain ⟨c, t, hct, hs, _⟩ := hfirst
  subst hct
  unfold jsonDecode
  rw [skipSpace_cons_of_not_space c t hs]
  simp only []
  rw [hd]
  rfl

/-! ## The YAML round trip: the generic decoder -/

theorem genericValue_object (fuel depth : Nat) (rest0 : List UInt8) :
    genericValue (fuel + 1) depth (123 :: rest0) =
      if depth + 1 > maxNestingDepth then none
      else if (skipSpace rest0).head? = some 125 then
        some ⟨.object [], false, (skipSpace rest0).tail⟩
      else (genericMembers fuel (depth + 1) (skipSpace rest0) []).map
        (fun d => ⟨.object d.val, d.rangeErr, d.rest⟩) := by
  have h : genericValue (fuel + 1) depth (123 :: rest0) =
      if depth + 1 > maxNestingDepth then none
      else
        match skipSpace rest0 with
        | 125 :: rest1 => some ⟨.object [], false, rest1⟩
        | rest1 => (genericMembers fuel (depth + 1) rest1 []).map
            (fun d => ⟨.object d.val, d.rangeErr, d.rest⟩) := rfl
  rw [h]
  split
  · rfl
  · split
    · rename_i heq
      simp [heq]
    · rename_i hne
      rw [if_neg]
      intro hh
      cases hs : skipSpace rest0 with
      | nil => rw [hs] at hh; cases hh
      | cons a t =>
        rw [hs] at hh
        simp only [List.head?_cons, Option.some.injEq] at hh
        subst hh
        exact hne t hs

theorem genericValue_array (fuel depth : Nat) (rest0 : List UInt8) :
    genericValue (fuel + 1) depth (91 :: rest0) =
      if depth + 1 > maxNestingDepth then none
      else if (skipSpace rest0).head? = some 93 then
        some ⟨.array [], false, (skipSpace rest0).tail⟩
      else (genericElements fuel (depth + 1) (skipSpace rest0)).map
        (fun d => ⟨.array d.val, d.rangeErr, d.rest⟩) := by
  have h : genericValue (fuel + 1) depth (91 :: rest0) =
      if depth + 1 > maxNestingDepth then none
      else
        match skipSpace rest0 with
        | 93 :: rest1 => some ⟨.array [], false, rest1⟩
        | rest1 => (genericElements fuel (depth + 1) rest1).map
            (fun d => ⟨.array d.val, d.rangeErr, d.rest⟩) := rfl
  rw [h]
  split
  · rfl
  · split
    · rename_i heq
      simp [heq]
    · rename_i hne
      rw [if_neg]
      intro hh
      cases hs : skipSpace rest0 with
      | nil => rw [hs] at hh; cases hh
      | cons a t =>
        rw [hs] at hh
        simp only [List.head?_cons, Option.some.injEq] at hh
        subst hh
        exact hne t hs

theorem genericValue_string (fuel depth : Nat) (rest0 : List UInt8) :
    genericValue (fuel + 1) depth (34 :: rest0) =
      (scanString (rest0.length + 1) rest0).map
        (fun p => ⟨.string (String.mk p.1), false, p.2⟩) := rfl

theorem genericValue_other (fuel depth : Nat) (c : UInt8) (rest0 : List UInt8)
    (h123 : c ≠ 123) (h91 : c ≠ 91) (h34 : c ≠ 34) :
    genericValue (fuel + 1) depth (c :: rest0) =
      if c == 45 || (digitVal c).isSome then
        match scanNumber (c :: rest0) with
        | none => none
        | some (neg, ds, dexp, rest1) =>
          match genericNumber neg ds dexp with
          | some g => some ⟨g, false, rest1⟩
          | none => some ⟨.null, true, rest1⟩
      else
        match c :: rest0 with
        | 116 :: 114 :: 117 :: 101 :: rest1 => some ⟨.bool true, false, rest1⟩
        | 102 :: 97 :: 108 :: 115 :: 101 :: rest1 => some ⟨.bool false, false, rest1⟩
        | 110 :: 117 :: 108 :: 108 :: rest1 => some ⟨.null, false, rest1⟩
        | _ => none := by
  have h : genericValue (fuel + 1) depth (c :: rest0) =
      if c == 123 then
        if depth + 1 > maxNestingDepth then none
        else
          match skipSpace rest0 with
          | 125 :: rest1 => some ⟨.object [], false, rest1⟩
          | rest1 => (genericMembers fuel (depth + 1) rest1 []).map
              (fun d => ⟨.object d.val, d.rangeErr, d.rest⟩)
      else if c == 91 then
        if depth + 1 > maxNestingDepth then none
        else
          match skipSpace rest0 with
          | 93 :: rest1 => some ⟨.array [], false, rest1⟩
          | rest1 => (genericElements fuel (depth + 1) rest1).map
              (fun d => ⟨.array d.val, d.rangeErr, d.rest⟩)
      else if c == 34 then
        (scanString (rest0.length + 1) rest0).map
          (fun p => ⟨.string (String.mk p.1), false, p.2⟩)
      else if c == 45 || (digitVal c).isSome then
        match scanNumber (c :: rest0) with
        | none => none
        | some (neg, ds, dexp, rest1) =>
          match genericNumber neg ds dexp with
          | some g => some ⟨g, false, rest1⟩
          | none => some ⟨.null, true, rest1⟩
      else
        match c :: rest0 with
        | 116 :: 114 :: 117 :: 101 :: rest1 => some ⟨.bool true, false, rest1⟩
        | 102 :: 97 :: 108 :: 115 :: 101 :: rest1 => some ⟨.bool false, false, rest1⟩
        | 110 :: 117 :: 108 :: 108 :: rest1 => some ⟨.null, false, rest1⟩
        | _ => none := rfl
  rw [h]
  have e1 : (c == 123) = false := by simp [h123]
  have e2 : (c == 91) = false := by simp [h91]
  have e3 : (c == 34) = false := by simp [h34]
  simp only [e1, e2, e3, Bool.false_eq_true, if_false]

theorem genericElements_succ (fuel depth : Nat) (input : List UInt8) :
    genericElements (fuel + 1) depth input =
      match genericValue fuel depth input with
      | none => none
      | some d =>
        if (skipSpace d.rest).head? = some 93 then
          some ⟨[d.val], d.rangeErr, (skipSpace d.rest).tail⟩
        else if (skipSpace d.rest).head? = some 44 then
          (genericElements fuel depth (skipSpace (skipSpace d.rest).tail)).map
            (fun t => ⟨d.val :: t.val, d.rangeErr || t.rangeErr, t.rest⟩)
        else none := by
  have h : genericElements (fuel + 1) depth input =
      match genericValue fuel depth input with
      | none => none
      | some d =>
        match skipSpace d.rest with
        | 93 :: rest1 => some ⟨[d.val], d.rangeErr, rest1⟩
        | 44 :: rest1 =>
          (genericElements fuel depth (skipSpace rest1)).map
            (fun t => ⟨d.val :: t.val, d.rangeErr || t.rangeErr, t.rest⟩)
        | _ => none := rfl
  rw [h]
  cases genericValue fuel depth input with
  | none => rfl
  | some d =>
    simp only []
    split
    · rename_i heq
      simp [heq]
    · rename_i heq
      simp [heq]
    · rename_i h93 h44
      cases hs : skipSpace d.rest with
      | nil => simp
      | cons a t =>
        have ha93 : a ≠ 93 := fun hh => h93 t (by rw [hs, hh])
        have ha44 : a ≠ 44 := fun hh => h44 t (by rw [hs, hh])
        simp [ha93, ha44]

theorem genericMembers_succ (fuel depth : Nat) (rest : List UInt8)
    (acc : List (String × GenericValue)) :
    genericMembers (fuel + 1) depth (34 :: rest) acc =
      match scanString (rest.length + 1) rest with
      | none => none
      | some (key, rest1) =>
        if (skipSpace rest1).head? = some 58 then
          match genericValue fuel depth (skipSpace (skipSpace rest1).tail) with
          | none => none
          | some d =>
            if (skipSpace d.rest).head? = some 125 then
              some ⟨genericInsert (String.mk key) d.val acc, d.rangeErr, (skipSpace d.rest).tail⟩
            else if (skipSpace d.rest).head? = some 44 then
              (genericMembers fuel depth (skipSpace (skipSpace d.rest).tail)
                (genericInsert (String.mk key) d.val acc)).map
                (fun t => ⟨t.val, d.rangeErr || t.rangeErr, t.rest⟩)
            else none
        else none := by
  have h : genericMembers (fuel + 1) depth (34 :: rest) acc =
      match scanString (rest.length + 1) rest with
      | none => none
      | some (key, rest1) =>
        match skipSpace rest1 with
        | 58 :: rest2 =>
          match genericValue fuel depth (skipSpace rest2) with
          | none => none
          | some d =>
            match skipSpace d.rest with
            | 125 :: rest3 => some ⟨genericInsert (String.mk key) d.val acc, d.rangeErr, rest3⟩
            | 44 :: rest3 =>
              (genericMembers fuel depth (skipSpace rest3)
                (genericInsert (String.mk key) d.val acc)).map
                (fun t => ⟨t.val, d.rangeErr || t.rangeErr, t.rest⟩)
            | _ => none
        | _ => none := rfl
  rw [h]
  cases scanString (rest.length + 1) rest with
  | none => rfl
  | some p =>
    obtain ⟨key, rest1⟩ := p
    simp only []
    split
    · rename_i rest2 heq
      simp only [heq, List.head?_cons, if_true, List.tail_cons]
      cases genericValue fuel depth (skipSpace rest2) with
      | none => rfl
      | some d =>
        simp only []
        split
        · rename_i heq2
          simp [heq2]
        · rename_i heq2
          simp [heq2]
        · rename_i h125 h44
          cases hs : skipSpace d.rest with
          | nil => simp
          | cons a t =>
            have ha1 : a ≠ 125 := fun hh => h125 t (by rw [hs, hh])
            have ha2 : a ≠ 44 := fun hh => h44 t (by rw [hs, hh])
            simp [ha1, ha2]
    · rename_i h58
      cases hs : skipSpace rest1 with
      | nil => simp
      | cons a t =>
        have ha : a ≠ 58 := fun hh => h58 t (by rw [hs, hh])
        simp [ha]

theorem genericMembers_not_quote (fuel depth : Nat) (input : List UInt8)
    (acc : List (String × GenericValue)) (h : input.head? ≠ some 34) :
    genericMembers (fuel + 1) depth input acc = none := by
  cases input with
  | nil => rfl
  | cons c t =>
    have hc : c ≠ 34 := fun hh => h (by rw [hh]; rfl)
    have h' : genericMembers (fuel + 1) depth (c :: t) acc =
        match c :: t with
        | 34 :: rest =>
          match scanString (rest.length + 1) rest with
          | none => none
          | some (key, rest1) =>
            match skipSpace rest1 with
            | 58 :: rest2 =>
              match genericValue fuel depth (skipSpace rest2) with
              | none => none
              | some d =>
                match skipSpace d.rest with
                | 125 :: rest3 =>
                  some ⟨genericInsert (String.mk key) d.val acc, d.rangeErr, rest3⟩
                | 44 :: rest3 =>
                  (genericMembers fuel depth (skipSpace rest3)
                    (genericInsert (String.mk key) d.val acc)).map
                    (fun t => ⟨t.val, d.rangeErr || t.rangeErr, t.rest⟩)
                | _ => none
            | _ => none
        | _ => none := rfl
    rw [h']
    split
    · rename_i heq
      cases heq
      exact absurd rfl hc
    · rfl

theorem genericRoundTrip_object (fuel : Nat) (hM : GenericRoundTripMembers fuel) (depth : Nat)
    (rest0 : List UInt8) (d : Decoded GenericValue)
    (h : genericValue (fuel + 1) depth (123 :: rest0) = some d) :
    ∃ node out, jsonToYaml (fuel + 1) (123 :: rest0) = some (node, d.rest) ∧
      yamlToJSON node = some out ∧
      (∃ c t, out = c :: t ∧ isSpace c = false ∧ c ≠ 93) ∧
      ∀ (f : Nat) (rest : List UInt8), out.length + 1 ≤ f → endsValue rest = true →
        genericValue f depth (out ++ rest) = some ⟨d.val, d.rangeErr, rest⟩ := by
  rw [genericValue_object] at h
  by_cases hdepth : depth + 1 > maxNestingDepth
  · rw [if_pos hdepth] at h
    cases h
  rw [if_neg hdepth] at h
  by_cases hempty : (skipSpace rest0).head? = some 125
  · rw [if_pos hempty] at h
    simp only [Option.some.injEq] at h
    subst h
    refine ⟨.mapping .nil, [123, 125], ?_, rfl, ⟨123, [125], rfl, by decide, by decide⟩, ?_⟩
    · rw [jsonToYaml_object, if_pos hempty]
    · intro f rest hf _
      obtain ⟨f', rfl⟩ : ∃ f', f = f' + 1 := ⟨f - 1, by simp at hf; omega⟩
      show genericValue (f' + 1) depth (123 :: 125 :: rest) = _
      rw [genericValue_object, if_neg hdepth,
        skipSpace_cons_of_not_space 125 rest (by decide)]
      rfl
  · rw [if_neg hempty] at h
    obtain ⟨dm, hdm, hd⟩ := Option.map_eq_some'.1 h
    subst hd
    obtain ⟨key, node, entries, eout, hj, hy, ⟨t, ht⟩, hre⟩ := hM _ _ _ dm hdm
    refine ⟨.mapping (.cons key node entries), 123 :: (eout ++ [125]), ?_, ?_,
      ⟨123, eout ++ [125], rfl, by decide, by decide⟩, ?_⟩
    · rw [jsonToYaml_object, if_neg hempty, hj]
      rfl
    · show (yamlEntriesToJSON (.cons key node entries)).map
        (fun bs => 123 :: (bs ++ [125])) = _
      rw [hy]
      rfl
    · intro f rest hf _
      obtain ⟨f', rfl⟩ : ∃ f', f = f' + 1 := ⟨f - 1, by simp at hf; omega⟩
      have hshape : (123 :: (eout ++ [125])) ++ rest = 123 :: (eout ++ 125 :: rest) := by
        simp
      rw [hshape, genericValue_object, if_neg hdepth]
      have hsk : skipSpace (eout ++ 125 :: rest) = eout ++ 125 :: rest := by
        rw [ht]
        exact skipSpace_cons_of_not_space 34 _ (by decide)
      have hhd : (eout ++ 125 :: rest).head? ≠ some 125 := by
        rw [ht]
        simp
      rw [hsk, if_neg hhd, hre f' rest (by simp at hf; omega)]
      rfl

theorem genericRoundTrip_array (fuel : Nat) (hE : GenericRoundTripElements fuel) (depth : Nat)
    (rest0 : List UInt8) (d : Decoded GenericValue)
    (h : genericValue (fuel + 1) depth (91 :: rest0) = some d) :
    ∃ node out, jsonToYaml (fuel + 1) (91 :: rest0) = some (node, d.rest) ∧
      yamlToJSON node = some out ∧
      (∃ c t, out = c :: t ∧ isSpace c = false ∧ c ≠ 93) ∧
      ∀ (f : Nat) (rest : List UInt8), out.length + 1 ≤ f → endsValue rest = true →
        genericValue f depth (out ++ rest) = some ⟨d.val, d.rangeErr, rest⟩ := by
  rw [genericValue_array] at h
  by_cases hdepth : depth + 1 > maxNestingDepth
  · rw [if_pos hdepth] at h
    cases h
  rw [if_neg hdepth] at h
  by_cases hempty : (skipSpace rest0).head? = some 93
  · rw [if_pos hempty] at h
    simp only [Option.some.injEq] at h
    subst h
    refine ⟨.sequence .nil, [91, 93], ?_, rfl, ⟨91, [93], rfl, by decide, by decide⟩, ?_⟩
    · rw [jsonToYaml_array, if_pos hempty]
    · intro f rest hf _
      obtain ⟨f', rfl⟩ : ∃ f', f = f' + 1 := ⟨f - 1, by simp at hf; omega⟩
      show genericValue (f' + 1) depth (91 :: 93 :: rest) = _
      rw [genericValue_array, if_neg hdepth,
        skipSpace_cons_of_not_space 93 rest (by decide)]
      rfl
  · rw [if_neg hempty] at h
    obtain ⟨de, hde, hd⟩ := Option.map_eq_some'.1 h
    subst hd
    obtain ⟨node, items, eout, hj, hy, hfirst, hre⟩ := hE _ _ de hde
    refine ⟨.sequence (.cons node items), 91 :: (eout ++ [93]), ?_, ?_,
      ⟨91, eout ++ [93], rfl, by decide, by decide⟩, ?_⟩
    · rw [jsonToYaml_array, if_neg hempty, hj]
      rfl
    · show (yamlItemsToJSON (.cons node items)).map (fun bs => 91 :: (bs ++ [93])) = _
      rw [hy]
      rfl
    · intro f rest hf _
      obtain ⟨f', rfl⟩ : ∃ f', f = f' + 1 := ⟨f - 1, by simp at hf; omega⟩
      have hshape : (91 :: (eout ++ [93])) ++ rest = 91 :: (eout ++ 93 :: rest) := by
        simp
      obtain ⟨hsk, hhd⟩ := skipSpace_append_of_cons eout (93 :: rest) hfirst
      rw [hshape, genericValue_array, if_neg hdepth, hsk, if_neg hhd,
        hre f' rest (by simp at hf; omega)]
      rfl

theorem genericRoundTrip_string (fuel : Nat) (depth : Nat)
    (rest0 : List UInt8) (d : Decoded GenericValue)
    (h : genericValue (fuel + 1) depth (34 :: rest0) = some d) :
    ∃ node out, jsonToYaml (fuel + 1) (34 :: rest0) = some (node, d.rest) ∧
      yamlToJSON node = some out ∧
      (∃ c t, out = c :: t ∧ isSpace c = false ∧ c ≠ 93) ∧
      ∀ (f : Nat) (rest : List UInt8), out.length + 1 ≤ f → endsValue rest = true →
        genericValue f depth (out ++ rest) = some ⟨d.val, d.rangeErr, rest⟩ := by
  rw [genericValue_string] at h
  obtain ⟨p, hp, hd⟩ := Option.map_eq_some'.1 h
  obtain ⟨chars, rest1⟩ := p
  subst hd
  refine ⟨.scalar "!!str" (String.mk chars), jsonQuote (String.mk chars), ?_, rfl,
    ⟨34, _, rfl, by decide, by decide⟩, ?_⟩
  · rw [jsonToYaml_string, hp]
    rfl
  · intro f rest hf _
    obtain ⟨f', rfl⟩ : ∃ f', f = f' + 1 := ⟨f - 1, by omega⟩
    obtain ⟨body, hshape, _, hscan⟩ := scanString_jsonQuote (String.mk chars) rest
    rw [hshape, genericValue_string, hscan rest]
    rfl

theorem genericRoundTrip_number (fuel : Nat) (depth : Nat) (c : UInt8)
    (rest0 : List UInt8) (d : Decoded GenericValue)
    (h123 : c ≠ 123) (h91 : c ≠ 91) (h34 : c ≠ 34)
    (hnum : (c == 45 || (digitVal c).isSome) = true)
    (h : genericValue (fuel + 1) depth (c :: rest0) = some d) :
    ∃ node out, jsonToYaml (fuel + 1) (c :: rest0) = some (node, d.rest) ∧
      yamlToJSON node = some out ∧
      (∃ c t, out = c :: t ∧ isSpace c = false ∧ c ≠ 93) ∧
      ∀ (f : Nat) (rest : List UInt8), out.length + 1 ≤ f → endsValue rest = true →
        genericValue f depth (out ++ rest) = some ⟨d.val, d.rangeErr, rest⟩ := by
  rw [genericValue_other fuel depth c rest0 h123 h91 h34, if_pos hnum] at h
  cases hs : scanNumber (c :: rest0) with
  | none => rw [hs] at h; cases h
  | some q =>
    obtain ⟨neg, ds, dexp, rest1⟩ := q
    rw [hs] at h
    simp only [] at h
    obtain ⟨lit, hlit, hne, hlit'⟩ := scanNumber_append _ neg ds dexp rest1 hs
    have htake : (c :: rest0).take ((c :: rest0).length - rest1.length) = lit := by
      rw [hlit]
      exact take_of_append lit rest1
    have hrest : d.rest = rest1 := by
      cases hr : genericNumber neg ds dexp with
      | none => rw [hr] at h; simp only [Option.some.injEq] at h; rw [← h]
      | some fl => rw [hr] at h; simp only [Option.some.injEq] at h; rw [← h]
    obtain ⟨lt, hlt⟩ : ∃ lt, lit = c :: lt := by
      cases lit with
      | nil => exact absurd rfl hne
      | cons a lt =>
        simp only [List.cons_append, List.cons.injEq] at hlit
        exact ⟨lt, by rw [hlit.1]⟩
    have hscan0 : scanNumber lit = some (neg, ds, dexp, []) := by
      have := hlit' [] rfl
      rwa [List.append_nil] at this
    refine ⟨.scalar (if isFloatLiteral lit then "!!float" else "!!int") (textOf lit), lit,
      ?_, ?_, ?_, ?_⟩
    · rw [jsonToYaml_other fuel c rest0 h123 h91 h34, if_pos hnum, hs]
      simp only []
      rw [htake, hrest]
    · apply yamlToJSON_number _ lit neg ds dexp _ hscan0
      split
      · exact Or.inl rfl
      · exact Or.inr rfl
    · obtain ⟨hsp, h93⟩ := digit_not_special c hnum
      exact ⟨c, lt, hlt, hsp, h93⟩
    · intro f rest hf hend
      obtain ⟨f', rfl⟩ : ∃ f', f = f' + 1 := ⟨f - 1, by omega⟩
      have hsc := hlit' rest hend
      rw [hlt] at hsc ⊢
      rw [List.cons_append] at hsc ⊢
      rw [genericValue_other f' depth c (lt ++ rest) h123 h91 h34, if_pos hnum, hsc]
      simp only []
      cases hr : genericNumber neg ds dexp with
      | none => rw [hr] at h; simp only [Option.some.injEq] at h; rw [← h]
      | some fl => rw [hr] at h; simp only [Option.some.injEq] at h; rw [← h]

theorem genericRoundTrip_literal (fuel : Nat) (depth : Nat) (c : UInt8)
    (rest0 : List UInt8) (d : Decoded GenericValue)
    (h123 : c ≠ 123) (h91 : c ≠ 91) (h34 : c ≠ 34)
    (hnum : ¬ (c == 45 || (digitVal c).isSome) = true)
    (h : genericValue (fuel + 1) depth (c :: rest0) = some d) :
    ∃ node out, jsonToYaml (fuel + 1) (c :: rest0) = some (node, d.rest) ∧
      yamlToJSON node = some out ∧
      (∃ c t, out = c :: t ∧ isSpace c = false ∧ c ≠ 93) ∧
      ∀ (f : Nat) (rest : List UInt8), out.length + 1 ≤ f → endsValue rest = true →
        genericValue f depth (out ++ rest) = some ⟨d.val, d.rangeErr, rest⟩ := by
  rw [genericValue_other fuel depth c rest0 h123 h91 h34, if_neg hnum] at h
  split at h
  · rename_i rest1 heq
    simp only [List.cons.injEq] at heq
    obtain ⟨hc, hr⟩ := heq
    subst hc hr
    simp only [Option.some.injEq] at h
    subst h
    refine ⟨.scalar "!!bool" "true", [116, 114, 117, 101], rfl, rfl,
      ⟨116, _, rfl, by decide, by decide⟩, ?_⟩
    intro f rest hf _
    obtain ⟨f', rfl⟩ : ∃ f', f = f' + 1 := ⟨f - 1, by omega⟩
    rfl
  · rename_i rest1 heq
    simp only [List.cons.injEq] at heq
    obtain ⟨hc, hr⟩ := heq
    subst hc hr
    simp only [Option.some.injEq] at h
    subst h
    refine ⟨.scalar "!!bool" "false", [102, 97, 108, 115, 101], rfl, rfl,
      ⟨102, _, rfl, by decide, by decide⟩, ?_⟩
    intro f rest hf _
    obtain ⟨f', rfl⟩ : ∃ f', f = f' + 1 := ⟨f - 1, by omega⟩
    rfl
  · rename_i rest1 heq
    simp only [List.cons.injEq] at heq
    obtain ⟨hc, hr⟩ := heq
    subst hc hr
    simp only [Option.some.injEq] at h
    subst h
    refine ⟨.scalar "!!null" "null", [110, 117, 108, 108], rfl, rfl,
      ⟨110, _, rfl, by decide, by decide⟩, ?_⟩
    intro f rest hf _
    obtain ⟨f', rfl⟩ : ∃ f', f = f' + 1 := ⟨f - 1, by omega⟩
    rfl
  · cases h

theorem genericRoundTrip_value_step (fuel : Nat) (hE : GenericRoundTripElements fuel)
    (hM : GenericRoundTripMembers fuel) : GenericRoundTripValue (fuel + 1) := by
  intro depth input d h
  cases input with
  | nil => cases h
  | cons c rest0 =>
    by_cases h123 : c = 123
    · subst h123
      exact genericRoundTrip_object fuel hM depth rest0 d h
    by_cases h91 : c = 91
    · subst h91
      exact genericRoundTrip_array fuel hE depth rest0 d h
    by_cases h34 : c = 34
    · subst h34
      exact genericRoundTrip_string fuel depth rest0 d h
    by_cases hnum : (c == 45 || (digitVal c).isSome) = true
    · exact genericRoundTrip_number fuel depth c rest0 d h123 h91 h34 hnum h
    · exact genericRoundTrip_literal fuel depth c rest0 d h123 h91 h34 hnum h

theorem genericRoundTrip_elements_step (fuel : Nat) (hV : GenericRoundTripValue fuel)
    (hE : GenericRoundTripElements fuel) : GenericRoundTripElements (fuel + 1) := by
  intro depth input d h
  rw [genericElements_succ] at h
  cases hv : genericValue fuel depth input with
  | none => rw [hv] at h; cases h
  | some dv =>
    rw [hv] at h
    simp only [] at h
    obtain ⟨node, vout, hj, hy, hfirst, hre⟩ := hV depth input dv hv
    by_cases h93 : (skipSpace dv.rest).head? = some 93
    · rw [if_pos h93] at h
      simp only [Option.some.injEq] at h
      subst h
      refine ⟨node, .nil, vout, ?_, hy, hfirst, ?_⟩
      · rw [jsonToYamlItems_succ, hj]
        simp only []
        rw [if_pos h93]
      · intro f rest hf
        obtain ⟨f', rfl⟩ : ∃ f', f = f' + 1 := ⟨f - 1, by omega⟩
        rw [genericElements_succ, hre f' (93 :: rest) (by omega) rfl]
        simp only []
        rw [skipSpace_cons_of_not_space 93 rest (by decide)]
        rfl
    · rw [if_neg h93] at h
      by_cases h44 : (skipSpace dv.rest).head? = some 44
      · rw [if_pos h44] at h
        obtain ⟨dt, hdt, hd⟩ := Option.map_eq_some'.1 h
        subst hd
        obtain ⟨node2, items2, tout, hj2, hy2, hfirst2, hre2⟩ := hE depth _ dt hdt
        refine ⟨node, .cons node2 items2, vout ++ 44 :: tout, ?_, ?_, ?_, ?_⟩
        · rw [jsonToYamlItems_succ, hj]
          simp only []
          rw [if_neg h93, if_pos h44, hj2]
          rfl
        · rw [yamlItemsToJSON_cons_cons, hy, hy2]
        · obtain ⟨c, t, hct, hs, hc⟩ := hfirst
          exact ⟨c, t ++ 44 :: tout, by rw [hct]; rfl, hs, hc⟩
        · intro f rest hf
          obtain ⟨f', rfl⟩ : ∃ f', f = f' + 1 := ⟨f - 1, by omega⟩
          have hlen : (vout ++ 44 :: tout).length = vout.length + tout.length + 1 := by
            simp
            omega
          have hshape : (vout ++ 44 :: tout) ++ 93 :: rest
              = vout ++ 44 :: (tout ++ 93 :: rest) := by simp
          obtain ⟨hsk, _⟩ := skipSpace_append_of_cons tout (93 :: rest) hfirst2
          rw [hshape, genericElements_succ, hre f' (44 :: (tout ++ 93 :: rest)) (by omega) rfl]
          simp only []
          rw [skipSpace_cons_of_not_space 44 _ (by decide)]
          simp only [List.head?_cons, List.tail_cons]
          rw [if_pos trivial, hsk, hre2 f' rest (by omega)]
          rfl
      · rw [if_neg h44] at h
        cases h

theorem genericRoundTrip_members_step (fuel : Nat) (hV : GenericRoundTripValue fuel)
    (hM : GenericRoundTripMembers fuel) : GenericRoundTripMembers (fuel + 1) := by
  intro depth input acc d h
  by_cases hq : input.head? = some 34
  swap
  · rw [genericMembers_not_quote fuel depth input acc hq] at h
    cases h
  obtain ⟨rest0, rfl⟩ : ∃ rest0, input = 34 :: rest0 := by
    cases input with
    | nil => cases hq
    | cons a t =>
      simp only [List.head?_cons, Option.some.injEq] at hq
      exact ⟨t, by rw [hq]⟩
  rw [genericMembers_succ] at h
  cases hs : scanString (rest0.length + 1) rest0 with
  | none => rw [hs] at h; cases h
  | some p =>
    obtain ⟨chars, rest1⟩ := p
    rw [hs] at h
    simp only [] at h
    by_cases h58 : (skipSpace rest1).head? = some 58
    swap
    · rw [if_neg h58] at h
      cases h
    rw [if_pos h58] at h
    cases hv : genericValue fuel depth (skipSpace (skipSpace rest1).tail) with
    | none => rw [hv] at h; cases h
    | some dv =>
      rw [hv] at h
      simp only [] at h
      obtain ⟨node, vout, hj, hy, hfirst, hre⟩ := hV depth _ dv hv
      obtain ⟨body, hshape, hqlen, hscan⟩ := scanString_jsonQuote (String.mk chars) []
      have hquote : jsonQuote (String.mk chars) = 34 :: (body ++ [34]) := by
        rw [← List.append_nil (jsonQuote (String.mk chars)), hshape]
      have hscan' : ∀ more : List UInt8,
          scanString ((body ++ 34 :: more).length + 1) (body ++ 34 :: more)
            = some (chars, more) := hscan
      by_cases h125 : (skipSpace dv.rest).head? = some 125
      · rw [if_pos h125] at h
        simp only [Option.some.injEq] at h
        subst h
        refine ⟨String.mk chars, node, .nil, jsonQuote (String.mk chars) ++ 58 :: vout,
          ?_, ?_, ?_, ?_⟩
        · rw [jsonToYamlEntries_succ, hs]
          simp only []
          rw [if_pos h58, hj]
          simp only []
          rw [if_pos h125]
        · show (yamlToJSON node).map (fun a => jsonQuote (String.mk chars) ++ 58 :: a) = _
          rw [hy]
          rfl
        · exact ⟨body ++ [34] ++ 58 :: vout, by rw [hquote]; simp⟩
        · intro f rest hf
          obtain ⟨f', rfl⟩ : ∃ f', f = f' + 1 := ⟨f - 1, by omega⟩
          have hlen : (jsonQuote (String.mk chars) ++ 58 :: vout).length
              = body.length + vout.length + 3 := by
            rw [hquote]
            simp
            omega
          have hsh : (jsonQuote (String.mk chars) ++ 58 :: vout) ++ 125 :: rest
              = 34 :: (body ++ 34 :: (58 :: (vout ++ 125 :: rest))) := by
            rw [hquote]
            simp
          obtain ⟨hsk, _⟩ := skipSpace_append_of_cons vout (125 :: rest) hfirst
          rw [hsh, genericMembers_succ, hscan' (58 :: (vout ++ 125 :: rest))]
          simp only []
          rw [skipSpace_cons_of_not_space 58 _ (by decide)]
          simp only [List.head?_cons, List.tail_cons]
          rw [if_pos trivial, hsk, hre f' (125 :: rest) (by omega) rfl]
          simp only []
          rw [skipSpace_cons_of_not_space 125 _ (by decide)]
          rfl
      · rw [if_neg h125] at h
        by_cases h44 : (skipSpace dv.rest).head? = some 44
        swap
        · rw [if_neg h44] at h
          cases h
        rw [if_pos h44] at h
        obtain ⟨dt, hdt, hd⟩ := Option.map_eq_some'.1 h
        subst hd
        obtain ⟨key2, node2, entries2, tout, hj2, hy2, ⟨tt, htt⟩, hre2⟩ := hM depth _ _ dt hdt
        refine ⟨String.mk chars, node, .cons key2 node2 entries2,
          jsonQuote (String.mk chars) ++ 58 :: vout ++ 44 :: tout, ?_, ?_, ?_, ?_⟩
        · rw [jsonToYamlEntries_succ, hs]
          simp only []
          rw [if_pos h58, hj]
          simp only []
          rw [if_neg h125, if_pos h44, hj2]
          rfl
        · rw [yamlEntriesToJSON_cons_cons, hy, hy2]
        · exact ⟨body ++ [34] ++ 58 :: vout ++ 44 :: tout, by rw [hquote]; simp⟩
        · intro f rest hf
          obtain ⟨f', rfl⟩ : ∃ f', f = f' + 1 := ⟨f - 1, by omega⟩
          have hlen : (jsonQuote (String.mk chars) ++ 58 :: vout ++ 44 :: tout).length
              = body.length + vout.length + tout.length + 4 := by
            rw [hquote]
            simp
            omega
          have hsh : (jsonQuote (String.mk chars) ++ 58 :: vout ++ 44 :: tout) ++ 125 :: rest
              = 34 :: (body ++ 34 :: (58 :: (vout ++ 44 :: (tout ++ 125 :: rest)))) := by
            rw [hquote]
            simp
          obtain ⟨hsk, _⟩ := skipSpace_append_of_cons vout (44 :: (tout ++ 125 :: rest)) hfirst
          have hsk2 : skipSpace (tout ++ 125 :: rest) = tout ++ 125 :: rest := by
            rw [htt]
            exact skipSpace_cons_of_not_space 34 _ (by decide)
          rw [hsh, genericMembers_succ, hscan' (58 :: (vout ++ 44 :: (tout ++ 125 :: rest)))]
          simp only []
          rw [skipSpace_cons_of_not_space 58 _ (by decide)]
          simp only [List.head?_cons, List.tail_cons]
          rw [if_pos trivial, hsk, hre f' (44 :: (tout ++ 125 :: rest)) (by omega) rfl]
          simp only []
          rw [skipSpace_cons_of_not_space 44 _ (by decide)]
          simp only [List.head?_cons, List.tail_cons]
          rw [if_neg (by decide), if_pos trivial, hsk2, hre2 f' rest (by omega)]
          rfl

theorem genericRoundTrip_all (fuel : Nat) :
    GenericRoundTripValue fuel ∧ GenericRoundTripElements fuel ∧ GenericRoundTripMembers fuel := by
  induction fuel with
  | zero =>
    refine ⟨?_, ?_, ?_⟩
    · intro depth input d h
      cases h
    · intro depth input d h
      cases h
    · intro depth input acc d h
      cases h
  | succ n ih =>
    obtain ⟨hV, hE, hM⟩ := ih
    exact ⟨genericRoundTrip_value_step n hE hM, genericRoundTrip_elements_step n hV hE,
      genericRoundTrip_members_step n hV hM⟩

/-! ## The YAML round trip: the two decoders read alike -/

theorem genericNumber_isSome (neg : Bool) (ds : List Nat) (dexp : Int) (f : Float64)
    (h : roundFloat64 neg (digitsToNat ds) (ds.dropWhile (· == 0)).length dexp = some f) :
    ∃ g, genericNumber neg ds dexp = some g := by
  unfold genericNumber
  cases exactInt64 neg ds dexp with
  | some i => exact ⟨_, rfl⟩
  | none =>
    simp only []
    rw [h]
    exact ⟨_, rfl⟩

theorem agrees_value_step (fuel : Nat) (hE : AgreesElements fuel) (hM : AgreesMembers fuel) :
    AgreesValue (fuel + 1) := by
  intro depth input d h
  cases input with
  | nil => cases h
  | cons c rest0 =>
    by_cases h123 : c = 123
    · subst h123
      rw [decodeValue_object] at h
      rw [genericValue_object]
      by_cases hdepth : depth + 1 > maxNestingDepth
      · rw [if_pos hdepth] at h
        cases h
      rw [if_neg hdepth] at h
      rw [if_neg hdepth]
      by_cases hempty : (skipSpace rest0).head? = some 125
      · rw [if_pos hempty] at h
        rw [if_pos hempty]
        simp only [Option.some.injEq] at h
        subst h
        exact ⟨_, rfl, rfl, fun _ => rfl⟩
      · rw [if_neg hempty] at h
        rw [if_neg hempty]
        obtain ⟨dm, hdm, hd⟩ := Option.map_eq_some'.1 h
        subst hd
        obtain ⟨gm, hgm, hrest, hflag⟩ := hM _ _ [] [] dm hdm
        rw [hgm]
        exact ⟨_, rfl, hrest, hflag⟩
    by_cases h91 : c = 91
    · subst h91
      rw [decodeValue_array] at h
      rw [genericValue_array]
      by_cases hdepth : depth + 1 > maxNestingDepth
      · rw [if_pos hdepth] at h
        cases h
      rw [if_neg hdepth] at h
      rw [if_neg hdepth]
      by_cases hempty : (skipSpace rest0).head? = some 93
      · rw [if_pos hempty] at h
        rw [if_pos hempty]
        simp only [Option.some.injEq] at h
        subst h
        exact ⟨_, rfl, rfl, fun _ => rfl⟩
      · rw [if_neg hempty] at h
        rw [if_neg hempty]
        obtain ⟨de, hde, hd⟩ := Option.map_eq_some'.1 h
        subst hd
        obtain ⟨ge, hge, hrest, hflag⟩ := hE _ _ de hde
        rw [hge]
        exact ⟨_, rfl, hrest, hflag⟩
    by_cases h34 : c = 34
    · subst h34
      rw [decodeValue_string] at h
      rw [genericValue_string]
      obtain ⟨p, hp, hd⟩ := Option.map_eq_some'.1 h
      subst hd
      rw [hp]
      exact ⟨_, rfl, rfl, fun _ => rfl⟩
    rw [decodeValue_other fuel depth c rest0 h123 h91 h34] at h
    rw [genericValue_other fuel depth c rest0 h123 h91 h34]
    by_cases hnum : (c == 45 || (digitVal c).isSome) = true
    · rw [if_pos hnum] at h
      rw [if_pos hnum]
      cases hs : scanNumber (c :: rest0) with
      | none => rw [hs] at h; cases h
      | some q =>
        obtain ⟨neg, ds, dexp, rest1⟩ := q
        rw [hs] at h
        simp only [] at h ⊢
        cases hr : roundFloat64 neg (digitsToNat ds) (ds.dropWhile (· == 0)).length dexp with
        | none =>
          rw [hr] at h
          simp only [Option.some.injEq] at h
          subst h
          cases hg : genericNumber neg ds dexp with
          | none => exact ⟨_, rfl, rfl, fun hh => by cases hh⟩
          | some g => exact ⟨_, rfl, rfl, fun _ => rfl⟩
        | some fl =>
          rw [hr] at h
          simp only [Option.some.injEq] at h
          subst h
          obtain ⟨g, hg⟩ := genericNumber_isSome neg ds dexp fl hr
          rw [hg]
          exact ⟨_, rfl, rfl, fun _ => rfl⟩
    · rw [if_neg hnum] at h
      rw [if_neg hnum]
      split at h
      · rename_i rest1 heq
        simp only [List.cons.injEq] at heq
        obtain ⟨hc, hr⟩ := heq
        subst hc hr
        simp only [Option.some.injEq] at h
        subst h
        exact ⟨_, rfl, rfl, fun _ => rfl⟩
      · rename_i rest1 heq
        simp only [List.cons.injEq] at heq
        obtain ⟨hc, hr⟩ := heq
        subst hc hr
        simp only [Option.some.injEq] at h
        subst h
        exact ⟨_, rfl, rfl, fun _ => rfl⟩
      · rename_i rest1 heq
        simp only [List.cons.injEq] at heq
        obtain ⟨hc, hr⟩ := heq
        subst hc hr
        simp only [Option.some.injEq] at h
        subst h
        exact ⟨_, rfl, rfl, fun _ => rfl⟩
      · cases h

theorem agrees_elements_step (fuel : Nat) (hV : AgreesValue fuel) (hE : AgreesElements fuel) :
    AgreesElements (fuel + 1) := by
  intro depth input d h
  rw [decodeElements_succ] at h
  rw [genericElements_succ]
  cases hv : decodeValue fuel depth input with
  | none => rw [hv] at h; cases h
  | some dv =>
    rw [hv] at h
    simp only [] at h
    obtain ⟨gv, hgv, hrest, hflag⟩ := hV depth input dv hv
    rw [hgv]
    simp only []
    rw [hrest]
    by_cases h93 : (skipSpace dv.rest).head? = some 93
    · rw [if_pos h93] at h
      rw [if_pos h93]
      simp only [Option.some.injEq] at h
      subst h
      exact ⟨_, rfl, rfl, hflag⟩
    · rw [if_neg h93] at h
      rw [if_neg h93]
      by_cases h44 : (skipSpace dv.rest).head? = some 44
      · rw [if_pos h44] at h
        rw [if_pos h44]
        obtain ⟨dt, hdt, hd⟩ := Option.map_eq_some'.1 h
        subst hd
        obtain ⟨gt, hgt, hrest2, hflag2⟩ := hE depth _ dt hdt
        rw [hgt]
        refine ⟨_, rfl, hrest2, fun hh => ?_⟩
        have hb : dv.rangeErr = false ∧ dt.rangeErr = false := by
          simpa using hh
        show (gv.rangeErr || gt.rangeErr) = false
        rw [hflag hb.1, hflag2 hb.2]
        rfl
      · rw [if_neg h44] at h
        cases h

theorem agrees_members_step (fuel : Nat) (hV : AgreesValue fuel) (hM : AgreesMembers fuel) :
    AgreesMembers (fuel + 1) := by
  intro depth input acc gacc d h
  by_cases hq : input.head? = some 34
  swap
  · rw [decodeMembers_not_quote fuel depth input acc hq] at h
    cases h
  obtain ⟨rest0, rfl⟩ : ∃ rest0, input = 34 :: rest0 := by
    cases input with
    | nil => cases hq
    | cons a t =>
      simp only [List.head?_cons, Option.some.injEq] at hq
      exact ⟨t, by rw [hq]⟩
  rw [decodeMembers_succ] at h
  rw [genericMembers_succ]
  cases hs : scanString (rest0.length + 1) rest0 with
  | none => rw [hs] at h; cases h
  | some p =>
    obtain ⟨chars, rest1⟩ := p
    rw [hs] at h
    simp only [] at h ⊢
    by_cases h58 : (skipSpace rest1).head? = some 58
    swap
    · rw [if_neg h58] at h
      cases h
    rw [if_pos h58] at h
    rw [if_pos h58]
    cases hv : decodeValue fuel depth (skipSpace (skipSpace rest1).tail) with
    | none => rw [hv] at h; cases h
    | some dv =>
      rw [hv] at h
      simp only [] at h
      obtain ⟨gv, hgv, hrest, hflag⟩ := hV depth _ dv hv
      rw [hgv]
      simp only []
      rw [hrest]
      by_cases h125 : (skipSpace dv.rest).head? = some 125
      · rw [if_pos h125] at h
        rw [if_pos h125]
        simp only [Option.some.injEq] at h
        subst h
        exact ⟨_, rfl, rfl, hflag⟩
      · rw [if_neg h125] at h
        rw [if_neg h125]
        by_cases h44 : (skipSpace dv.rest).head? = some 44
        swap
        · rw [if_neg h44] at h
          cases h
        rw [if_pos h44] at h
        rw [if_pos h44]
        obtain ⟨dt, hdt, hd⟩ := Option.map_eq_some'.1 h
        subst hd
        obtain ⟨gt, hgt, hrest2, hflag2⟩ :=
          hM depth _ _ (genericInsert (String.mk chars) gv.val gacc) dt hdt
        rw [hgt]
        refine ⟨_, rfl, hrest2, fun hh => ?_⟩
        have hb : dv.rangeErr = false ∧ dt.rangeErr = false := by
          simpa using hh
        show (gv.rangeErr || gt.rangeErr) = false
        rw [hflag hb.1, hflag2 hb.2]
        rfl

theorem agrees_all (fuel : Nat) :
    AgreesValue fuel ∧ AgreesElements fuel ∧ AgreesMembers fuel := by
  induction fuel with
  | zero =>
    refine ⟨?_, ?_, ?_⟩
    · intro depth input d h
      cases h
    · intro depth input d h
      cases h
    · intro depth input acc gacc d h
      cases h
  | succ n ih =>
    obtain ⟨hV, hE, hM⟩ := ih
    exact ⟨agrees_value_step n hE hM, agrees_elements_step n hV hE,
      agrees_members_step n hV hM⟩

/-- The steps that make `genericDecode` return a value. -/
theorem genericDecode_of_steps (data : List UInt8) (a : UInt8) (t : List UInt8)
    (d : Decoded GenericValue) (hs : skipSpace data = a :: t)
    (hd : genericValue (2 * (a :: t).length + 2) 0 (a :: t) = some d)
    (hr : skipSpace d.rest = []) (hf : d.rangeErr = false) :
    genericDecode data = some d.val := by
  unfold genericDecode
  rw [hs]
  simp only []
  rw [hd]
  simp only []
  rw [hr]
  simp only []
  rw [hf]
  rfl

/-! ## YAML round trip -/

/-- C13. YAML round trip, with the two conversions and the generic decoder modelled from
the spec: when a container holds bytes that decode to an accepted value `v` (any value
that is neither an object with zero entries nor the string `100`), `MarshalYAML` returns
a node and a nil error, and `UnmarshalYAML` on that node, into a container of any prior
content, returns nil and leaves bytes `raw` that decode to `v` itself.  Moreover the bytes
of the container and `raw` have the same generic value `g`, in which an integer of the
64-bit signed range is kept as that integer and any other number as its `float64`: the
kind of every scalar and the precision of every number are kept. -/
theorem yaml_round_trip (c c0 : Const) (v : JValue)
    (hv : jsonDecode c.data = .ok v)
    (hobj : ∀ kvs, v = .object kvs → kvs.length ≠ 0) (hstr : v ≠ .string "100") :
    ∃ node raw g, MarshalYAML convertJSONToRawYAML c = (some node, none) ∧
      UnmarshalYAML sampleEnv c0 node = (none, some raw) ∧
      jsonDecode raw = .ok v ∧
      genericDecode c.data = some g ∧ genericDecode raw = some g := by
  obtain ⟨a, t, d, hsk, hd, hrest, hre, hval⟩ := jsonDecode_ok c.data v hv
  obtain ⟨node, out, hj, hy, hfirst, hback⟩ :=
    (roundTrip_all (2 * (a :: t).length + 2)).1 0 (a :: t) d hd
  obtain ⟨g0, hg0, hgrest, hgflag⟩ := (agrees_all (2 * (a :: t).length + 2)).1 0 (a :: t) d hd
  obtain ⟨node2, out2, hj2, hy2, _, hback2⟩ :=
    (genericRoundTrip_all (2 * (a :: t).length + 2)).1 0 (a :: t) g0 hg0
  have hnode : node2 = node := by
    rw [hj] at hj2
    simp only [Option.some.injEq, Prod.mk.injEq] at hj2
    exact hj2.1.symm
  subst hnode
  have hout : out2 = out := by
    rw [hy] at hy2
    simp only [Option.some.injEq] at hy2
    exact hy2.symm
  subst hout
  have hdec : jsonDecode out2 = .ok v := by
    apply jsonDecode_of_steps out2 v hfirst
    have := hback (2 * out2.length + 2) [] (by omega) rfl
    rw [List.append_nil, hre, hval] at this
    exact this
  have hgc : genericDecode c.data = some g0.val :=
    genericDecode_of_steps c.data a t g0 hsk hg0 (by rw [hgrest]; exact hrest) (hgflag hre)
  have hgr : genericDecode out2 = some g0.val := by
    obtain ⟨b, u, hbu, hsp, _⟩ := hfirst
    have h2 := hback2 (2 * out2.length + 2) [] (by omega) rfl
    rw [List.append_nil, hgflag hre] at h2
    subst hbu
    exact genericDecode_of_steps (b :: u) b u ⟨g0.val, false, []⟩
      (skipSpace_cons_of_not_space b u hsp) h2 rfl rfl
  refine ⟨node2, out2, g0.val, ?_, ?_, hdec, hgc, hgr⟩
  · show convertJSONToRawYAML c = (some node2, none)
    unfold convertJSONToRawYAML
    rw [hsk]
    simp only []
    rw [hj]
    simp only []
    rw [hrest]
  · have hconv : sampleEnv.convertYAMLtoRawJSON node2 = (some out2, none) := by
      show (match yamlToJSON node2 with
        | some raw => ((some raw : GoBytes), (none : Option (GoError YamlNode)))
        | none => (none, some (.external "yaml: node has no JSON form"))) = _
      rw [hy]
    have hun : sampleEnv.jsonUnmarshal (GoBytes.data (some out2)) = .ok v := by
      show refUnmarshal out2 = .ok v
      unfold refUnmarshal
      rw [hdec]
    have he : ¬ isEmptyObject v = true := by
      rw [isEmptyObject_iff]
      rintro ⟨kvs, hk, hl⟩
      exact hobj kvs hk hl
    have hs : ¬ isString100 v = true := by
      rw [isString100_iff]
      exact hstr
    rw [UnmarshalYAML_of_ok sampleEnv c0 node2 (some out2) v hconv hun, if_neg he, if_neg hs]

/-- Witness of C13: an array with the largest 64-bit integer, a number that is not an
integer and a string. -/
theorem yaml_round_trip_witness :
    ∃ node raw g,
      MarshalYAML convertJSONToRawYAML
          (some (bytesOf " [9223372036854775807, 3.14, \"100\", null] "))
        = (some node, none) ∧
      UnmarshalYAML sampleEnv none node = (none, some raw) ∧
      jsonDecode raw
        = .ok (.array [.number ⟨false, 1, 63⟩, .number ⟨false, 7070651414971679, -51⟩,
            .string "100", .null]) ∧
      genericDecode (GoBytes.data
          (some (bytesOf " [9223372036854775807, 3.14, \"100\", null] "))) = some g ∧
      genericDecode raw = some g :=
  yaml_round_trip (some (bytesOf " [9223372036854775807, 3.14, \"100\", null] ")) none
    (.array [.number ⟨false, 1, 63⟩, .number ⟨false, 7070651414971679, -51⟩,
      .string "100", .null]) rfl
    (fun _ h => by cases h) (fun h => by cases h)

/-- The generic value in the round trip of the largest 64-bit integer is that integer,
which the `float64` of the reference decoder cannot tell from its neighbours. -/
theorem yaml_round_trip_int64 :
    genericDecode (bytesOf "9223372036854775807") = some (.int 9223372036854775807) ∧
    genericDecode (bytesOf "9223372036854776000") = some (.float ⟨false, 1, 63⟩) ∧
    jsonDecode (bytesOf "9223372036854775807") = jsonDecode (bytesOf "9223372036854776000") :=
  ⟨rfl, rfl, rfl⟩

end Jsonschema
